import Mathlib

/-!
# go-cli: the argument scanner of `ParseArgs`

A shallow embedding of `src/parse.go`.  Go strings are byte sequences; a Go
string is represented by the Lean string that has one character per byte, so
`arg[0]`, `arg[1:]` and `arg[0:1]` become operations on `String.data`.

`ParseArgs` mutates the caller's structure through reflection.  Here the
caller's fields live in a `Storage` (one slot per field address) that is
passed in and returned next to the three Go results.

The functions that parse.go calls but does not define (`reflectOnIt`,
`validate`, `findLong`, `findShort`, `enable`, `set`) and the chained parser
are not among the sources; their definitions follow the specification and are
marked "Modelled from the spec".

Fields of kind float32/float64 are outside this development.
-/

namespace cli

/-- The value kinds a bound field can have (Go's reflect.Kind, with the bit
width of the integer kinds made explicit; a slice records its element kind). -/
inductive Kind where
  | Bool
  | String
  | Int (bits : Nat)
  | Uint (bits : Nat)
  | Slice (elem : Kind)
deriving DecidableEq, Repr

/-- A scalar held by a bound field. -/
inductive Scalar where
  | bool (b : Bool)
  | str (s : String)
  | int (n : Int)
  | uint (n : Nat)
deriving DecidableEq, Repr

/-- The content of one bound field: a scalar, or a list of scalars. -/
inductive Value where
  | one (s : Scalar)
  | many (l : List Scalar)
deriving DecidableEq, Repr

/-- The caller's storage that the option descriptors are bound to.
`fields` has one slot per field address.  `touched` lists the addresses of
the list fields that have been assigned during the current scan. -/
structure Storage where
  fields : List Value
  touched : List Nat
deriving DecidableEq, Repr

/-- Modelled from the spec: the option descriptor built by reflect.go, which
is not among the sources.  `Shorts` and `Longs` hold the aliases without
their hyphens, `Value` is the address of the bound field, and `Matched` is
the alias under which `findLong` / `findShort` resolved the descriptor (empty
in the schema itself); `enable` takes no argument in parse.go, so the alias
it decides by travels with the descriptor. -/
structure option where
  Kind : Kind
  Shorts : List String
  Longs : List String
  Value : Nat
  Matched : String
deriving DecidableEq, Repr

/-- Modelled from the spec: one level of the command hierarchy, built by
reflect.go (not among the sources).  `Command` is the canonical name (empty
at the root), `Options` are the descriptors declared at this level, `Subs`
maps every alias of every child command to that child.  The aliases of a
command are the keys under which its parent lists it; the back-reference to
the parent is not represented, every walk here starts at the root. -/
inductive context where
  | mk (Command : String) (Options : List option) (Subs : List (String × context))

/-- The canonical name of a level. -/
def context.Command : context → String
  | .mk n _ _ => n

/-- The descriptors declared directly at a level. -/
def context.Options : context → List option
  | .mk _ o _ => o

/-- The alias table of the child commands of a level. -/
def context.Subs : context → List (String × context)
  | .mk _ _ s => s

/-- The Go map lookup `level.Subs[arg]`. -/
def context.sub (level : context) (arg : String) : Option context :=
  level.Subs.lookup arg

/-- Modelled from the spec: the value of a run of decimal digits (strconv is
not among the sources); `none` when the run is empty or holds a non-digit. -/
def parseDigits (cs : List Char) : Option Nat :=
  match cs with
  | [] => none
  | _ :: _ =>
    cs.foldl
      (fun acc ch =>
        match acc with
        | none => none
        | some n => if ch.isDigit then some (n * 10 + (ch.toNat - 48)) else none)
      (some 0)

/-- Modelled from the spec: an unsigned decimal numeral in the exact bit
width of the field; no sign is accepted. -/
def ParseUint (s : String) (bits : Nat) : Option Nat :=
  match parseDigits s.data with
  | none => none
  | some n => if n < 2 ^ bits then some n else none

/-- Modelled from the spec: a signed decimal numeral in the exact bit width
of the field; one leading `+` or `-` is accepted. -/
def ParseInt (s : String) (bits : Nat) : Option Int :=
  match s.data with
  | '-' :: ds =>
    match parseDigits ds with
    | none => none
    | some n => if n ≤ 2 ^ (bits - 1) then some (-(n : Int)) else none
  | '+' :: ds =>
    match parseDigits ds with
    | none => none
    | some n => if n < 2 ^ (bits - 1) then some (n : Int) else none
  | ds =>
    match parseDigits ds with
    | none => none
    | some n => if n < 2 ^ (bits - 1) then some (n : Int) else none

/-- Modelled from the spec (Coercion, section 4.2): parse a raw string into a
scalar of the given kind.  Booleans never reach coercion and a list is
coerced element by element, so both are refused here. -/
def coerce (k : Kind) (v : String) : Except String Scalar :=
  match k with
  | .String => .ok (.str v)
  | .Int bits =>
    match ParseInt v bits with
    | some n => .ok (.int n)
    | none => .error ("invalid value `" ++ v ++ "` for a signed integer")
  | .Uint bits =>
    match ParseUint v bits with
    | some n => .ok (.uint n)
    | none => .error ("invalid value `" ++ v ++ "` for an unsigned integer")
  | .Bool => .error "cannot operate on this type"
  | .Slice _ => .error "cannot operate on this type"

/-- The list currently held at an address (empty when the slot holds no list). -/
def Storage.listAt (mem : Storage) (addr : Nat) : List Scalar :=
  match mem.fields.get? addr with
  | some (.many l) => l
  | _ => []

/-- Modelled from the spec: `opt.enable()` of reflect.go.  Writes false when
the matched alias textually begins with `no-`, true otherwise. -/
def option.enable (opt : option) (mem : Storage) : Storage :=
  ⟨mem.fields.set opt.Value (.one (.bool (!("no-".data.isPrefixOf opt.Matched.data)))),
   mem.touched⟩

/-- Modelled from the spec: `opt.set(v)` of reflect.go.  The value is coerced
first; a failed coercion leaves the storage as it was.  A list field is
cleared on the first value assigned to it during the scan and appended to
afterwards. -/
def option.set (opt : option) (v : String) (mem : Storage) : Except String Storage :=
  match opt.Kind with
  | .Slice elem =>
    match coerce elem v with
    | .error e => .error e
    | .ok x =>
      if opt.Value ∈ mem.touched then
        .ok ⟨mem.fields.set opt.Value (.many (mem.listAt opt.Value ++ [x])), mem.touched⟩
      else
        .ok ⟨mem.fields.set opt.Value (.many [x]), opt.Value :: mem.touched⟩
  | k =>
    match coerce k v with
    | .error e => .error e
    | .ok x => .ok ⟨mem.fields.set opt.Value (.one x), mem.touched⟩

/-- Modelled from the spec: `c.findLong(stack, name)` of reflect.go.  Walks
from the root down the command stack and answers the first descriptor that
lists `name` among its long aliases; so the descriptors searched are those of
the current command and of its ancestors. -/
def context.findLong : context → List String → String → Except String option
  | level, stack, name =>
    match level.Options.find? (fun o => decide (name ∈ o.Longs)) with
    | some o => .ok ⟨o.Kind, o.Shorts, o.Longs, o.Value, name⟩
    | none =>
      match stack with
      | [] => .error ("unrecognized option `--" ++ name ++ "`")
      | s :: rest =>
        match level.sub s with
        | some next => next.findLong rest name
        | none => .error ("unrecognized option `--" ++ name ++ "`")

/-- Modelled from the spec: `c.findShort(stack, name)` of reflect.go, the
same walk over the short aliases. -/
def context.findShort : context → List String → String → Except String option
  | level, stack, name =>
    match level.Options.find? (fun o => decide (name ∈ o.Shorts)) with
    | some o => .ok ⟨o.Kind, o.Shorts, o.Longs, o.Value, name⟩
    | none =>
      match stack with
      | [] => .error ("unrecognized option `-" ++ name ++ "`")
      | s :: rest =>
        match level.sub s with
        | some next => next.findShort rest name
        | none => .error ("unrecognized option `-" ++ name ++ "`")

/-- Modelled from the spec: the host data shape that reflect.go inspects (not
among the sources).  A structure is a sequence of fields, each with its `cli`
tag (empty when the field has none), the address of its storage and its
type. -/
inductive GoType where
  | Bool
  | String
  | Int (bits : Nat)
  | Uint (bits : Nat)
  | Slice (elem : GoType)
  | Interface
  | Struct (tags : List String) (addrs : List Nat) (types : List GoType)

/-- Modelled from the spec: the items of a comma-separated tag. -/
def splitTag : List Char → List (List Char)
  | [] => [[]]
  | ch :: rest =>
    if ch = ',' then [] :: splitTag rest
    else
      match splitTag rest with
      | [] => [[ch]]
      | item :: items => (ch :: item) :: items

/-- Modelled from the spec: an item of a tag without the blanks around it. -/
def trimItem (item : List Char) : List Char :=
  ((item.dropWhile (fun ch => ch = ' ')).reverse.dropWhile (fun ch => ch = ' ')).reverse

/-- Modelled from the spec: the items of a tag, trimmed, without the empty ones. -/
def tagItems (tag : String) : List String :=
  ((splitTag tag.data).map trimItem).filterMap
    (fun item => if item = [] then none else some (String.mk item))

/-- Modelled from the spec: the characters a short alias may be.  The spec
speaks of alphanumerics and "a small allowed punctuation set" without listing
it; `?` is the member the tests use. -/
def shortOk (ch : Char) : Bool :=
  ch.isAlphanum || ch = '?'

/-- Modelled from the spec: the characters a long alias may be made of.  The
spec gives its length and its first character only; the tests ("Malformed
tags" in cli_test.go) also refuse `--earned-%`, so the characters are taken to
be the alphanumerics and the hyphen. -/
def longOk (ch : Char) : Bool :=
  ch.isAlphanum || ch = '-'

/-- An alias declared by an item of a tag, without its hyphens. -/
inductive Alias where
  | short (name : String)
  | long (name : String)
deriving DecidableEq, Repr

/-- Modelled from the spec: the alias that an item of a scalar field's tag
declares: a long one (`--`, then at least two allowed characters of which the
first is a letter), a short one (`-`, then exactly one allowed character), or
none when the item is malformed. -/
def aliasOf (item : String) : Option Alias :=
  match item.data with
  | '-' :: '-' :: name =>
    match name with
    | n0 :: _ :: _ =>
      if n0.isAlpha && name.all longOk then some (.long (String.mk name)) else none
    | _ => none
  | ['-', ch] => if shortOk ch then some (.short (String.mk [ch])) else none
  | _ => none

/-- Modelled from the spec: the aliases of a scalar field's tag added to the
short and the long ones collected so far (without hyphens), the items taken
from left to right and an alias that is already there left out; or the
"invalid alias" failure naming the first malformed token and the tag. -/
def tagAliases (tag : String) :
    List String → List String → List String → Except String (List String × List String)
  | [], shorts, longs => .ok (shorts, longs)
  | item :: items, shorts, longs =>
    match aliasOf item with
    | some (.long name) =>
      tagAliases tag items shorts (if name ∈ longs then longs else longs ++ [name])
    | some (.short name) =>
      tagAliases tag items (if name ∈ shorts then shorts else shorts ++ [name]) longs
    | none => .error ("invalid alias `" ++ item ++ "` in tag `" ++ tag ++ "`")

/-- Modelled from the spec: the value kind of a field type, if it has one. -/
def kindOf : GoType → Option Kind
  | .Bool => some .Bool
  | .String => some .String
  | .Int bits => some (.Int bits)
  | .Uint bits => some (.Uint bits)
  | .Slice .String => some (.Slice .String)
  | .Slice (.Int bits) => some (.Slice (.Int bits))
  | .Slice (.Uint bits) => some (.Slice (.Uint bits))
  | _ => none

mutual
/-- Modelled from the spec: the level built from a structure named `cmd`. -/
def reflectLevel (cmd : String) : GoType → Except String context
  | .Struct tags addrs types =>
    match reflectFields tags addrs types with
    | .error e => .error e
    | .ok (opts, subs) => .ok (.mk cmd opts subs)
  | _ => .error "cli only operates on structures"
/-- Modelled from the spec: the descriptors and the sub-commands declared by
the fields of a structure.  A field without a tag is skipped; a tagged field
of structure type is a sub-command whose first alias is canonical. -/
def reflectFields : List String → List Nat → List GoType →
    Except String (List option × List (String × context))
  | tag :: tags, addr :: addrs, ty :: types =>
    match reflectFields tags addrs types with
    | .error e => .error e
    | .ok (opts, subs) =>
      match tagItems tag with
      | [] => .ok (opts, subs)
      | item :: items =>
        match ty with
        | .Struct t a y =>
          match reflectLevel item (.Struct t a y) with
          | .error e => .error e
          | .ok child => .ok (opts, (item :: items).map (fun al => (al, child)) ++ subs)
        | _ =>
          match kindOf ty with
          | none => .error "cli cannot operate on this type"
          | some k =>
            match tagAliases tag (item :: items) [] [] with
            | .error e => .error e
            | .ok (shorts, longs) => .ok (⟨k, shorts, longs, addr, ""⟩ :: opts, subs)
  | _, _, _ => .ok ([], [])
end

/-- Modelled from the spec: `reflectOnIt(thing)` of reflect.go, the schema of
the caller's structure, or the failure of its construction. -/
def reflectOnIt (thing : GoType) : Except String context :=
  reflectLevel "" thing

/-- The aliases of a descriptor as they are written, hyphens included. -/
def option.aliases (o : option) : List String :=
  o.Shorts.map (fun a => "-" ++ a) ++ o.Longs.map (fun a => "--" ++ a)

/-- Modelled from the spec (Validator, section 4.1): add the aliases of a node
to the set inherited from its ancestors, failing at the first one already
there; `path` is the rendering of the node. -/
def collide (path : String) : List String → List String → Except String (List String)
  | seen, [] => .ok seen
  | seen, a :: rest =>
    if a ∈ seen then .error ("`" ++ a ++ "` reused in " ++ path ++ " command")
    else collide path (a :: seen) rest

/-- Modelled from the spec: how the Validator renders the path of a node. -/
def renderPath (path : List String) : String :=
  if path = [] then "global" else String.intercalate " " path

mutual
/-- Modelled from the spec (Validator, section 4.1): the depth-first walk that
carries the alias set of all ancestors. -/
def validateAt (seen : List String) (path : List String) : context → Except String Unit
  | .mk _ opts subs =>
    match collide (renderPath path) seen (opts.flatMap option.aliases) with
    | .error e => .error e
    | .ok seen1 => validateSubs seen1 path subs
/-- Modelled from the spec: the walk over the children of a node; siblings all
receive the same inherited set. -/
def validateSubs (seen : List String) (path : List String) :
    List (String × context) → Except String Unit
  | [] => .ok ()
  | (_, child) :: rest =>
    match validateAt seen (path ++ [child.Command]) child with
    | .error e => .error e
    | .ok _ => validateSubs seen path rest
end

/-- Modelled from the spec: `validate(c)` of validate.go (not among the
sources). -/
def validate (c : context) : Except String Unit :=
  validateAt [] [] c

/-- What `ParseArgs` hands back: the three Go results and the storage as the
call leaves it. -/
structure Result where
  command : String
  remnants : List String
  err : Option String
  mem : Storage
deriving DecidableEq, Repr

/-- How the inner loop over a short-option run ends: with an error (the
function returns), or normally, saying whether `args[0]` was taken as the
value of the last flag (`args = args[1:]`). -/
inductive RunEnd where
  | fail (e : String) (mem : Storage)
  | done (mem : Storage) (shift : Bool)
deriving DecidableEq, Repr

/-- The inner loop of `ParseArgs` over the characters of a short-option run
(parse.go, `for len(arg) > 0`).  `run` is what is left of `arg`, `next` is
`args[0]` when `len(args) > 0`. -/
def shortRun (c : context) (stack : List String) (next : Option String) :
    List Char → Storage → RunEnd
  | [], mem => .done mem false
  | ch :: rest, mem =>
    match c.findShort stack (String.mk [ch]) with
    | .error e => .fail e mem
    | .ok opt =>
      if opt.Kind = Kind.Bool then
        shortRun c stack next rest (opt.enable mem)
      else if rest.length > 0 then
        match opt.set (String.mk rest) mem with
        | .error e => .fail e mem
        | .ok mem1 => .done mem1 false
      else
        match next with
        | none => .fail ("missing required value for `-" ++ String.mk [ch] ++ "` flag") mem
        | some v =>
          match opt.set v mem with
          | .error e => .fail e mem
          | .ok mem1 => .done mem1 true

/-- The variables of `ParseArgs` that live across iterations of its argument
loop: the command stack, `insub` (sub-commands are still being sought), the
level reached, the remnants, and the bound storage. -/
structure Frame where
  stack : List String
  insub : Bool
  level : context
  remnants : List String
  mem : Storage

/-- How the argument loop of `ParseArgs` is left: by a `return` with an error
inside the loop, by the `break` of the `--` case, or because no argument is
left. -/
inductive Exit where
  | fail (e : String) (remnants : List String) (mem : Storage)
  | stop (f : Frame)
  | done (f : Frame)

/-- The argument loop of `ParseArgs` (parse.go, `for len(args) > 0`), run on
`args` from the frame `f`; `c` is the root. -/
def loop (c : context) : List String → Frame → Exit
  | [], f => .done f
  | arg :: args, f =>
    if arg.length = 0 then
      loop c args ⟨f.stack, false, f.level, f.remnants ++ [arg], f.mem⟩
    else if arg = "--" then
      .stop ⟨f.stack, f.insub, f.level, f.remnants ++ args, f.mem⟩
    else if arg.data.head? ≠ some '-' ∨ arg.length = 1 then
      if f.insub then
        match f.level.sub arg with
        | some next => loop c args ⟨f.stack ++ [arg], true, next, f.remnants, f.mem⟩
        | none => loop c args ⟨f.stack, false, f.level, f.remnants ++ [arg], f.mem⟩
      else
        loop c args ⟨f.stack, false, f.level, f.remnants ++ [arg], f.mem⟩
    else if arg.data.get? 1 = some '-' then
      match c.findLong f.stack (String.mk (arg.data.drop 2)) with
      | .error e => .fail e f.remnants f.mem
      | .ok opt =>
        if opt.Kind = Kind.Bool then
          loop c args ⟨f.stack, f.insub, f.level, f.remnants, opt.enable f.mem⟩
        else
          match args with
          | [] => .fail ("missing required value for `" ++ arg ++ "` flag") f.remnants f.mem
          | v :: args1 =>
            match opt.set v f.mem with
            | .error e => .fail e f.remnants f.mem
            | .ok mem1 => loop c args1 ⟨f.stack, f.insub, f.level, f.remnants, mem1⟩
    else
      match args with
      | [] =>
        match shortRun c f.stack none (arg.data.drop 1) f.mem with
        | .fail e mem1 => .fail e f.remnants mem1
        | .done mem1 _ => loop c [] ⟨f.stack, f.insub, f.level, f.remnants, mem1⟩
      | v :: args1 =>
        match shortRun c f.stack (some v) (arg.data.drop 1) f.mem with
        | .fail e mem1 => .fail e f.remnants mem1
        | .done mem1 true => loop c args1 ⟨f.stack, f.insub, f.level, f.remnants, mem1⟩
        | .done mem1 false => loop c (v :: args1) ⟨f.stack, f.insub, f.level, f.remnants, mem1⟩

/-- The effect of one iteration of the argument loop: the function returns
or the loop is left (`halt`), or the loop goes on from a new frame, `shift`
telling whether the iteration also took `args[0]` as a value. -/
inductive Step where
  | halt (e : Exit)
  | next (f : Frame) (shift : Bool)

/-- The five ways the argument loop of `ParseArgs` treats a token, in the
order of its tests: the empty argument, the literal `--`, a non-option (also
the lone `-`), a long option with its name `arg[2:]`, a run of short options
with its characters `arg[1:]`. -/
inductive Token where
  | empty
  | dashes
  | word
  | long (name : String)
  | short (run : List Char)
deriving DecidableEq, Repr

/-- The tests of the loop body on `arg`, in the order of parse.go. -/
def classify (arg : String) : Token :=
  if arg.length = 0 then .empty
  else if arg = "--" then .dashes
  else if arg.data.head? ≠ some '-' ∨ arg.length = 1 then .word
  else if arg.data.get? 1 = some '-' then .long (String.mk (arg.data.drop 2))
  else .short (arg.data.drop 1)

/-- The loop body for a non-option `arg`. -/
def stepWord (arg : String) (f : Frame) : Frame :=
  if f.insub then
    match f.level.sub arg with
    | some next => ⟨f.stack ++ [arg], true, next, f.remnants, f.mem⟩
    | none => ⟨f.stack, false, f.level, f.remnants ++ [arg], f.mem⟩
  else
    ⟨f.stack, false, f.level, f.remnants ++ [arg], f.mem⟩

/-- The loop body for the long option `arg` with name `name`. -/
def stepLong (c : context) (arg name : String) (args : List String) (f : Frame) : Step :=
  match c.findLong f.stack name with
  | .error e => .halt (.fail e f.remnants f.mem)
  | .ok opt =>
    if opt.Kind = Kind.Bool then
      .next ⟨f.stack, f.insub, f.level, f.remnants, opt.enable f.mem⟩ false
    else
      match args with
      | [] => .halt (.fail ("missing required value for `" ++ arg ++ "` flag") f.remnants f.mem)
      | v :: _ =>
        match opt.set v f.mem with
        | .error e => .halt (.fail e f.remnants f.mem)
        | .ok mem1 => .next ⟨f.stack, f.insub, f.level, f.remnants, mem1⟩ true

/-- The loop body for a run of short options. -/
def stepShort (c : context) (run : List Char) (args : List String) (f : Frame) : Step :=
  match shortRun c f.stack args.head? run f.mem with
  | .fail e mem1 => .halt (.fail e f.remnants mem1)
  | .done mem1 shift => .next ⟨f.stack, f.insub, f.level, f.remnants, mem1⟩ shift

/-- The body of the argument loop of `ParseArgs` for the token `arg`, with
`args` the tokens after it; `loop` is the iteration of `step` (see
`loop_cons`). -/
def step (c : context) (arg : String) (args : List String) (f : Frame) : Step :=
  match classify arg with
  | .empty => .next ⟨f.stack, false, f.level, f.remnants ++ [arg], f.mem⟩ false
  | .dashes => .halt (.stop ⟨f.stack, f.insub, f.level, f.remnants ++ args, f.mem⟩)
  | .word => .next (stepWord arg f) false
  | .long name => stepLong c arg name args f
  | .short run => stepShort c run args f

/-- The frame in which `ParseArgs` enters its loop. -/
def Frame.init (c : context) (fields : List Value) : Frame :=
  ⟨[], true, c, [], ⟨fields, []⟩⟩

/-- What `ParseArgs` returns for each way of leaving the loop: the error
returns of the loop, or the final `return strings.Join(stack, " "), remnants,
nil`. -/
def Exit.result : Exit → Result
  | .fail e remnants mem => ⟨"", remnants, some e, mem⟩
  | .stop f => ⟨String.intercalate " " f.stack, f.remnants, none, f.mem⟩
  | .done f => ⟨String.intercalate " " f.stack, f.remnants, none, f.mem⟩

/-- The Go function `ParseArgs(thing, args)` of parse.go.  `fields` is the
content of the caller's structure when the call is made. -/
def ParseArgs (thing : GoType) (args : List String) (fields : List Value) : Result :=
  match reflectOnIt thing with
  | .error e => ⟨"", [], some e, ⟨fields, []⟩⟩
  | .ok c =>
    match validate c with
    | .error e => ⟨"", [], some e, ⟨fields, []⟩⟩
    | .ok _ => (loop c args (Frame.init c fields)).result

/-! ### Notions used to state the properties -/

/-- The level reached from `level` by following the command stack through the
`Subs` tables. -/
def context.walk : context → List String → Option context
  | level, [] => some level
  | level, s :: rest =>
    match level.sub s with
    | some next => next.walk rest
    | none => none

/-- The descriptors declared on the levels from `level` down the command
stack: those of the command reached and of all its ancestors. -/
def context.visible : context → List String → List option
  | level, [] => level.Options
  | level, s :: rest =>
    level.Options ++
      (match level.sub s with
       | some next => next.visible rest
       | none => [])

/-- The tokens of a list of segments, each made of option tokens with their
values followed by one command name. -/
def segmentTokens (segs : List (List String × String)) : List String :=
  segs.flatMap (fun seg => seg.1 ++ [seg.2])

/-- `Descent c segs f g`: scanned from the frame `f`, the segments `segs` lead
the loop down to the frame `g`.  In each segment the leading tokens are option
tokens with their values (the loop runs through them and changes nothing but
the storage, sub-commands still being sought), and the last token is a
non-option that names a child of the level reached so far. -/
inductive Descent (c : context) : List (List String × String) → Frame → Frame → Prop where
  | here (f : Frame) : Descent c [] f f
  | down (opts : List String) (cmd : String) (segs : List (List String × String))
      (f g : Frame) (mem1 : Storage) (next : context)
      (hopts : loop c opts f = .done ⟨f.stack, true, f.level, f.remnants, mem1⟩)
      (hword : classify cmd = .word)
      (hsub : f.level.sub cmd = some next)
      (hrest : Descent c segs ⟨f.stack ++ [cmd], true, next, f.remnants, mem1⟩ g) :
      Descent c ((opts, cmd) :: segs) f g

/-- The characters of `run` all resolve, on the command stack `stack`, to
boolean flags. -/
def allBool (c : context) (stack : List String) (run : List Char) : Prop :=
  ∀ ch ∈ run, ∃ opt, c.findShort stack (String.mk [ch]) = .ok opt ∧ opt.Kind = Kind.Bool

/-- The storage after the flags of `run` have been enabled one after the
other, from left to right. -/
def enableRun (c : context) (stack : List String) : List Char → Storage → Storage
  | [], mem => mem
  | ch :: rest, mem =>
    match c.findShort stack (String.mk [ch]) with
    | .ok opt => enableRun c stack rest (opt.enable mem)
    | .error _ => mem

/-- An error message of the "missing required value" kind of parse.go. -/
def isMissingValue (e : String) : Prop :=
  "missing required value".data <+: e.data

/-- The token `o`, met in the frame `g` as the last token, is a non-boolean
option that needs the next token as its value: a non-boolean long option, or
a short run whose last character is a non-boolean flag and whose other
characters are boolean flags; `e` is the message of parse.go for it. -/
def LacksValue (c : context) (g : Frame) (o e : String) : Prop :=
  (∃ name opt, classify o = .long name ∧ c.findLong g.stack name = .ok opt ∧
      opt.Kind ≠ Kind.Bool ∧ e = "missing required value for `" ++ o ++ "` flag") ∨
  (∃ run pre x opt, classify o = .short run ∧ run = pre ++ [x] ∧
      allBool c g.stack pre ∧ c.findShort g.stack (String.mk [x]) = .ok opt ∧
      opt.Kind ≠ Kind.Bool ∧
      e = "missing required value for `-" ++ String.mk [x] ++ "` flag")

/-! ### Schemas of the test suite (cli_test.go) -/

/-- The structure of "Sub-command aliasing": `Help bool` tagged
`-h, -?, --help` and the sub-command `List` tagged `list, ls` with
`All bool` tagged `--all`. -/
def aliasing : GoType :=
  .Struct ["-h, -?, --help", "list, ls"] [0, 1] [.Bool, .Struct ["--all"] [1] [.Bool]]

/-- The level of the sub-command `list` of `aliasing`. -/
def aliasingList : context :=
  .mk "list" [⟨.Bool, [], ["all"], 1, ""⟩] []

/-- The schema of `aliasing`. -/
def aliasingSchema : context :=
  .mk "" [⟨.Bool, ["h", "?"], ["help"], 0, ""⟩]
    [("list", aliasingList), ("ls", aliasingList)]

/-- The structure of "Sub-commands": three global options, the sub-command
`hosts` with two options, and `users` with the sub-command `list` (whose
field `All` has a malformed tag, hence no `cli` tag). -/
def subcommands : GoType :=
  .Struct ["-h, -?, --help", "-v, --version", "-t, --target", "hosts", "users"]
    [0, 1, 2, 3, 5]
    [.Bool, .Bool, .String,
     .Struct ["-R, --raw", "-H, --host"] [3, 4] [.Bool, .String],
     .Struct ["list"] [5] [.Struct [""] [5] [.Bool]]]

/-- The level of the sub-command `hosts` of `subcommands`. -/
def subcommandsHosts : context :=
  .mk "hosts" [⟨.Bool, ["R"], ["raw"], 3, ""⟩, ⟨.String, ["H"], ["host"], 4, ""⟩] []

/-- The level of the sub-command `users` of `subcommands`. -/
def subcommandsUsers : context :=
  .mk "users" [] [("list", .mk "list" [] [])]

/-- The schema of `subcommands`. -/
def subcommandsSchema : context :=
  .mk ""
    [⟨.Bool, ["h", "?"], ["help"], 0, ""⟩, ⟨.Bool, ["v"], ["version"], 1, ""⟩,
     ⟨.String, ["t"], ["target"], 2, ""⟩]
    [("hosts", subcommandsHosts), ("users", subcommandsUsers)]

/-- The fields of `subcommands` as Go initialises them. -/
def subcommandsZero : List Value :=
  [.one (.bool false), .one (.bool false), .one (.str ""), .one (.bool false),
   .one (.str ""), .one (.bool false)]

/-- The fields of `aliasing` as Go initialises them. -/
def aliasingZero : List Value :=
  [.one (.bool false), .one (.bool false)]

/-- The structure of "Simple String Flags": `Short string` tagged `-s`,
`Long string` tagged `--long`, `Both string` tagged `-b, --both`. -/
def stringFlags : GoType :=
  .Struct ["-s", "--long", "-b, --both"] [0, 1, 2] [.String, .String, .String]

/-- The schema of `stringFlags`. -/
def stringFlagsSchema : context :=
  .mk "" [⟨.String, ["s"], [], 0, ""⟩, ⟨.String, [], ["long"], 1, ""⟩,
    ⟨.String, ["b"], ["both"], 2, ""⟩] []

/-- The fields of `stringFlags` as Go initialises them. -/
def stringFlagsZero : List Value :=
  [.one (.str ""), .one (.str ""), .one (.str "")]

/-- The structure of "Simple Boolean Flags": `Short bool` tagged `-s`,
`Long bool` tagged `--long`, `Both bool` tagged `-b, --both`. -/
def boolFlags : GoType :=
  .Struct ["-s", "--long", "-b, --both"] [0, 1, 2] [.Bool, .Bool, .Bool]

/-- The schema of `boolFlags`. -/
def boolFlagsSchema : context :=
  .mk "" [⟨.Bool, ["s"], [], 0, ""⟩, ⟨.Bool, [], ["long"], 1, ""⟩,
    ⟨.Bool, ["b"], ["both"], 2, ""⟩] []

/-- The fields of `boolFlags` as Go initialises them. -/
def boolFlagsZero : List Value :=
  [.one (.bool false), .one (.bool false), .one (.bool false)]

/-! ### The calls the scan makes on the bound storage -/

/-- A call of the loop on a descriptor: `opt.enable()` or `opt.set(v)`. -/
inductive Call where
  | enable (opt : option)
  | set (opt : option) (v : String)
deriving DecidableEq, Repr

/-- The descriptor a call is made on. -/
def Call.opt : Call → option
  | .enable opt => opt
  | .set opt _ => opt

/-- The effect of a call on the storage. -/
def Call.apply : Call → Storage → Except String Storage
  | .enable opt, mem => .ok (opt.enable mem)
  | .set opt v, mem => opt.set v mem

/-- The storage after a sequence of calls, made one after the other until one
of them fails. -/
def replay : List Call → Storage → Storage
  | [], mem => mem
  | k :: ks, mem =>
    match k.apply mem with
    | .ok mem1 => replay ks mem1
    | .error _ => mem

/-- The calls that the inner loop makes for a run of short options: `enable`
for each boolean flag met, then `set` for the first other flag, on the
rest of the run or on `args[0]`. -/
def runCalls (c : context) (stack : List String) (next : Option String) :
    List Char → List Call
  | [] => []
  | ch :: rest =>
    match c.findShort stack (String.mk [ch]) with
    | .error _ => []
    | .ok opt =>
      if opt.Kind = Kind.Bool then .enable opt :: runCalls c stack next rest
      else if rest.length > 0 then [.set opt (String.mk rest)]
      else
        match next with
        | none => []
        | some v => [.set opt v]

/-- The calls that one iteration of the argument loop makes for the token
`arg`, with `args` the tokens after it. -/
def stepCalls (c : context) (arg : String) (args : List String) (f : Frame) : List Call :=
  match classify arg with
  | .long name =>
    match c.findLong f.stack name with
    | .error _ => []
    | .ok opt =>
      if opt.Kind = Kind.Bool then [.enable opt]
      else
        match args with
        | [] => []
        | v :: _ => [.set opt v]
  | .short run => runCalls c f.stack args.head? run
  | _ => []

/-- The calls that the argument loop makes on `args` from the frame `f`, in
the order in which it makes them. -/
def calls (c : context) : List String → Frame → List Call
  | [], _ => []
  | arg :: args, f =>
    stepCalls c arg args f ++
      (match step c arg args f with
       | .halt _ => []
       | .next f1 false => calls c args f1
       | .next f1 true =>
         match args with
         | [] => []
         | _ :: args1 => calls c args1 f1)

/-- The storage in which the loop is left. -/
def Exit.mem : Exit → Storage
  | .fail _ _ mem => mem
  | .stop f => f.mem
  | .done f => f.mem

/-- The storage after a sequence of calls that all succeed, or the first
failure. -/
def applyAll : List Call → Storage → Except String Storage
  | [], mem => .ok mem
  | k :: ks, mem =>
    match k.apply mem with
    | .ok mem1 => applyAll ks mem1
    | .error e => .error e

/-- The descriptor `opt` is one that `findLong` or `findShort` answers: a
descriptor `d` declared on some command path, found under the name
`opt.Matched`, which `d` lists among its aliases. -/
def Resolved (c : context) (opt : option) : Prop :=
  ∃ stack d, d ∈ c.visible stack ∧
    opt = ⟨d.Kind, d.Shorts, d.Longs, d.Value, opt.Matched⟩ ∧
    (opt.Matched ∈ d.Longs ∨ opt.Matched ∈ d.Shorts)

/-- The structure of "Simple Boolean Flags, with overridden default values":
`Verify bool` tagged `-v, --verify, --no-verify`. -/
def verifyFlag : GoType :=
  .Struct ["-v, --verify, --no-verify"] [0] [.Bool]

/-- The schema of `verifyFlag`. -/
def verifyFlagSchema : context :=
  .mk "" [⟨.Bool, ["v"], ["verify", "no-verify"], 0, ""⟩] []

/-- The element that a call appends to a list field: the coerced value of a
`set` on a descriptor of slice kind. -/
def Call.item : Call → Option Scalar
  | .set opt v =>
    match opt.Kind with
    | .Slice elem =>
      match coerce elem v with
      | .ok x => some x
      | .error _ => none
    | _ => none
  | .enable _ => none

/-- The calls of a sequence that are made on descriptors bound to `addr`. -/
def callsOn (addr : Nat) (ks : List Call) : List Call :=
  ks.filter (fun k => decide (k.opt.Value = addr))

/-- The elements that a sequence of calls assigns to the list field at
`addr`, in the order of the calls. -/
def assigned (addr : Nat) (ks : List Call) : List Scalar :=
  (callsOn addr ks).filterMap Call.item

/-- The structure of "Simple List Flags, with overridden default values":
`List []int` tagged `-N, --numbers`. -/
def numbersFlag : GoType :=
  .Struct ["-N, --numbers"] [0] [.Slice (.Int 64)]

/-- The schema of `numbersFlag`. -/
def numbersFlagSchema : context :=
  .mk "" [⟨.Slice (.Int 64), ["N"], ["numbers"], 0, ""⟩] []

/-- The default `[4, 8, 15, 16]` of the list of `numbersFlag`. -/
def numbersFlagDefault : List Value :=
  [.many [.int 4, .int 8, .int 15, .int 16]]

/-- The number that a run of decimal digits denotes (most significant digit
first). -/
def digitsValue (ds : List Char) : Nat :=
  Nat.ofDigits 10 (ds.reverse.map (fun ch => ch.toNat - 48))

/-- A non-empty run of decimal digits. -/
def IsDigits (ds : List Char) : Prop :=
  ds ≠ [] ∧ ∀ ch ∈ ds, ch.isDigit = true

/-- The string `s` is a decimal numeral of the integer `n`: a run of digits,
after `-` for the opposite of its value, or after an optional `+`. -/
def SignedNumeral (s : String) (n : Int) : Prop :=
  ∃ ds, IsDigits ds ∧
    ((s.data = ds ∧ n = digitsValue ds) ∨ (s.data = '+' :: ds ∧ n = digitsValue ds) ∨
      (s.data = '-' :: ds ∧ n = -(digitsValue ds : Int)))

/-- The string `s` is an unsigned decimal numeral of `n`: a run of digits. -/
def UnsignedNumeral (s : String) (n : Nat) : Prop :=
  IsDigits s.data ∧ n = digitsValue s.data

/-- The structure of "Complains when the same short option is used more than
once": `Help bool` tagged `-h, --help` and `Host string` tagged `-h, --host`. -/
def reusedShort : GoType :=
  .Struct ["-h, --help", "-h, --host"] [0, 1] [.Bool, .String]

/-- The schema of `reusedShort`, which validation rejects. -/
def reusedShortSchema : context :=
  .mk "" [⟨.Bool, ["h"], ["help"], 0, ""⟩, ⟨.String, ["h"], ["host"], 1, ""⟩] []

/-! ### Notions used to state the properties of validation -/

/-- `Lineage c anc node`: `node` is a level of the tree of `c`, and `anc` lists
its ancestors from `c` down to its parent (`anc` is empty when `node` is `c`
itself). -/
inductive Lineage : context → List context → context → Prop where
  | here (c : context) : Lineage c [] c
  | down (c : context) (key : String) (ch : context) (anc : List context)
      (node : context) (hsub : (key, ch) ∈ c.Subs) (hrest : Lineage ch anc node) :
      Lineage c (c :: anc) node

/-- The aliases that the descriptors of a level declare, as they are written. -/
def context.own (node : context) : List String :=
  node.Options.flatMap option.aliases

/-- The aliases declared on a list of levels. -/
def inherited (anc : List context) : List String :=
  anc.flatMap context.own

/-- The canonical command path of a level, given its ancestors from the root
down: the names of the levels below the root. -/
def commandPath (anc : List context) (node : context) : List String :=
  ((anc ++ [node]).drop 1).map context.Command

/-- Some alias is declared by two different descriptors that sit on the same
level, or on a level and one of its ancestors. -/
def Clash (c : context) : Prop :=
  ∃ anc node name, Lineage c anc node ∧
    ((∃ (i j : Nat) (hi : i < node.Options.length) (hj : j < node.Options.length),
        i < j ∧ name ∈ (node.Options[i]).aliases ∧ name ∈ (node.Options[j]).aliases) ∨
      (∃ a ∈ anc, ∃ d ∈ a.Options, ∃ d1 ∈ node.Options,
        name ∈ d.aliases ∧ name ∈ d1.aliases))

/-- Every descriptor of the tree lists each of its aliases once (the repeats
inside a tag have been collapsed). -/
def Collapsed (c : context) : Prop :=
  ∀ anc node, Lineage c anc node → ∀ d ∈ node.Options, d.aliases.Nodup

/-- No level of the tree of `c` declares an alias twice, nor one that is in
`seen` or declared on one of its ancestors within the tree. -/
def Fresh (seen : List String) (c : context) : Prop :=
  ∀ anc nd, Lineage c anc nd →
    nd.own.Nodup ∧ ∀ a ∈ nd.own, a ∉ seen ∧ a ∉ inherited anc

/-- An alias is among the ones collected so far. -/
def Alias.within : Alias → List String → List String → Prop
  | .short name, shorts, _ => name ∈ shorts
  | .long name, _, longs => name ∈ longs

/-- The malformed alias tokens the spec names: a short one (one hyphen) that is
not exactly one allowed character; a long one (two hyphens) with fewer than two
characters, with a further leading hyphen, or with a disallowed character. -/
def Malformed (item : String) : Prop :=
  (∃ rest, item.data = '-' :: rest ∧ rest.head? ≠ some '-' ∧
      ∀ ch, shortOk ch = true → rest ≠ [ch]) ∨
    (∃ name, item.data = '-' :: '-' :: name ∧
      (name.length < 2 ∨ name.head? = some '-' ∨ ∃ ch ∈ name, longOk ch = false))

/-- The "invalid alias" message for a token of a tag. -/
def invalidAlias (item tag : String) : String :=
  "invalid alias `" ++ item ++ "` in tag `" ++ tag ++ "`"

/-- The short aliases have one character and the long ones at least two, and
neither list repeats an alias. -/
def Distinct (shorts longs : List String) : Prop :=
  shorts.Nodup ∧ longs.Nodup ∧ (∀ x ∈ shorts, x.data.length = 1) ∧
    ∀ x ∈ longs, 2 ≤ x.data.length

/-- The structure of "Complains about a sub-sub-command reusing a global short
option": `Help bool` tagged `-h, --help`, and the command `thing` whose
sub-command `create` holds `Host string` tagged `-h, --host`. -/
def deepReuse : GoType :=
  .Struct ["-h, --help", "thing"] [0, 1]
    [.Bool, .Struct ["create"] [1] [.Struct ["-h, --host"] [1] [.String]]]

/-- The schema of `deepReuse`, which validation rejects. -/
def deepReuseSchema : context :=
  .mk "" [⟨.Bool, ["h"], ["help"], 0, ""⟩]
    [("thing", .mk "thing" []
      [("create", .mk "create" [⟨.String, ["h"], ["host"], 1, ""⟩] [])])]

/-- The structure of "Allows sub-commands to use the same short options" (two
levels): `Help bool` tagged `-h, --help`, the command `do` with `Verbose bool`
tagged `-v, --verbose` and the command `list` with `Verbose bool` tagged `-v`. -/
def sharedShorts : GoType :=
  .Struct ["-h, --help", "do", "list"] [0, 1, 2]
    [.Bool, .Struct ["-v, --verbose"] [1] [.Bool], .Struct ["-v"] [2] [.Bool]]

/-- The schema of `sharedShorts`, which validation accepts. -/
def sharedShortsSchema : context :=
  .mk "" [⟨.Bool, ["h"], ["help"], 0, ""⟩]
    [("do", .mk "do" [⟨.Bool, ["v"], ["verbose"], 1, ""⟩] []),
     ("list", .mk "list" [⟨.Bool, ["v"], [], 2, ""⟩] [])]

/-- `Repeats s1 s2`: the structure `s2` is the structure `s1` with one repeat
of an alias (an item `x` that the tag already lists further left) taken out of
the tag of one option field, at the root or in a sub-command of any depth. -/
inductive Repeats : GoType → GoType → Prop where
  | field (tag1 tag2 : String) (pre post : List String) (x : String)
      (h1 : tagItems tag1 = pre ++ x :: post) (hx : x ∈ pre)
      (h2 : tagItems tag2 = pre ++ post) (ty : GoType) (k : Kind)
      (hk : kindOf ty = some k) (tags0 : List String) (addrs0 : List Nat)
      (types0 : List GoType) (hl1 : tags0.length = types0.length)
      (hl2 : addrs0.length = types0.length) (addr : Nat) (tags : List String)
      (addrs : List Nat) (types : List GoType) :
      Repeats (.Struct (tags0 ++ tag1 :: tags) (addrs0 ++ addr :: addrs) (types0 ++ ty :: types))
        (.Struct (tags0 ++ tag2 :: tags) (addrs0 ++ addr :: addrs) (types0 ++ ty :: types))
  | sub (s1 s2 : GoType) (h : Repeats s1 s2) (cmd : String) (tags0 : List String)
      (addrs0 : List Nat) (types0 : List GoType) (hl1 : tags0.length = types0.length)
      (hl2 : addrs0.length = types0.length) (addr : Nat) (tags : List String)
      (addrs : List Nat) (types : List GoType) :
      Repeats (.Struct (tags0 ++ cmd :: tags) (addrs0 ++ addr :: addrs) (types0 ++ s1 :: types))
        (.Struct (tags0 ++ cmd :: tags) (addrs0 ++ addr :: addrs) (types0 ++ s2 :: types))

/-- `Declares tag ty s`: the structure `s` declares a field of tag `tag` and
type `ty`, at the root or in a sub-command of any depth, and the fields that
follow it in its structure, as those that follow each sub-command on the way
down to it, are well-formed. -/
inductive Declares (tag : String) (ty : GoType) : GoType → Prop where
  | field (tags0 : List String) (addrs0 : List Nat) (types0 : List GoType)
      (hl1 : tags0.length = types0.length) (hl2 : addrs0.length = types0.length)
      (addr : Nat) (tags : List String) (addrs : List Nat) (types : List GoType)
      (r : List option × List (String × context))
      (hrest : reflectFields tags addrs types = .ok r) :
      Declares tag ty
        (.Struct (tags0 ++ tag :: tags) (addrs0 ++ addr :: addrs) (types0 ++ ty :: types))
  | sub (s : GoType) (h : Declares tag ty s) (cmd : String) (hcmd : tagItems cmd ≠ [])
      (tags0 : List String) (addrs0 : List Nat) (types0 : List GoType)
      (hl1 : tags0.length = types0.length) (hl2 : addrs0.length = types0.length)
      (addr : Nat) (tags : List String) (addrs : List Nat) (types : List GoType)
      (r : List option × List (String × context))
      (hrest : reflectFields tags addrs types = .ok r) :
      Declares tag ty
        (.Struct (tags0 ++ cmd :: tags) (addrs0 ++ addr :: addrs) (types0 ++ s :: types))

/-- The structure of "Allows short options to be repeated inside a single field
tag": `Test bool` tagged `-t, --time, -t` and `Time string` tagged `-T`. -/
def repeatedShort : GoType :=
  .Struct ["-t, --time, -t", "-T"] [0, 1] [.Bool, .String]

/-- The structure `repeatedShort` with `-t` listed once. -/
def listedOnce : GoType :=
  .Struct ["-t, --time", "-T"] [0, 1] [.Bool, .String]

/-- The schema of `repeatedShort` and of `listedOnce`. -/
def repeatedShortSchema : context :=
  .mk "" [⟨.Bool, ["t"], ["time"], 0, ""⟩, ⟨.String, ["T"], [], 1, ""⟩] []

/-- The structures of "Malformed tags", in the global context: `Bad bool` with
the given tag. -/
def malformedTag (tag : String) : GoType :=
  .Struct [tag] [0] [.Bool]

/-- The structures of "Malformed tags", in a sub-command context: the command
`sub` holding `Bad bool` with the given tag. -/
def malformedSubTag (tag : String) : GoType :=
  .Struct ["sub"] [0] [malformedTag tag]

/-- The structure of "Full-stop behavior": `Help bool` tagged `-h, -?, --help`,
`Debug bool` tagged `-D, --debug`, and the empty sub-command `FullStop` tagged
`stop!`. -/
def fullStop : GoType :=
  .Struct ["-h, -?, --help", "-D, --debug", "stop!"] [0, 1, 2]
    [.Bool, .Bool, .Struct [] [] []]

/-! ### The iterations of the two loops -/

/-- The number of iterations that the inner loop of `ParseArgs` makes on a run
of short options (parse.go, `for len(arg) > 0`): one for each character read,
up to the first that is unknown or is not a boolean flag. -/
def runSteps (c : context) (stack : List String) : List Char → Nat
  | [] => 0
  | ch :: rest =>
    match c.findShort stack (String.mk [ch]) with
    | .error _ => 1
    | .ok opt => if opt.Kind = Kind.Bool then 1 + runSteps c stack rest else 1

/-- The number of iterations that the argument loop of `ParseArgs` makes on
`args` from the frame `f` (parse.go, `for len(args) > 0`). -/
def loopSteps (c : context) : List String → Frame → Nat
  | [], _ => 0
  | arg :: args, f =>
    1 +
      (match step c arg args f with
       | .halt _ => 0
       | .next f1 false => loopSteps c args f1
       | .next f1 true =>
         match args with
         | [] => 0
         | _ :: args1 => loopSteps c args1 f1)

/-- The number of iterations of the inner loop over the whole scan of `args`
from the frame `f`. -/
def innerSteps (c : context) : List String → Frame → Nat
  | [], _ => 0
  | arg :: args, f =>
    (match classify arg with
     | .short run => runSteps c f.stack run
     | _ => 0) +
      (match step c arg args f with
       | .halt _ => 0
       | .next f1 false => innerSteps c args f1
       | .next f1 true =>
         match args with
         | [] => 0
         | _ :: args1 => innerSteps c args1 f1)

/-- The token `o` is a boolean flag on the command stack `stack`: a long option,
or a single short option, that resolves to a descriptor of boolean kind. -/
def BoolFlag (c : context) (stack : List String) (o : String) : Prop :=
  (∃ name opt, classify o = .long name ∧ c.findLong stack name = .ok opt ∧
      opt.Kind = Kind.Bool) ∨
  (∃ ch opt, classify o = .short [ch] ∧ c.findShort stack (String.mk [ch]) = .ok opt ∧
      opt.Kind = Kind.Bool)

/-- Two command stacks spell the same descent from `level`: they have the same
length and, at each step, the two names lead to the same child. -/
def Alike : context → List String → List String → Prop
  | _, [], [] => True
  | level, a :: s1, b :: s2 =>
    level.sub a = level.sub b ∧
      match level.sub a with
      | some next => Alike next s1 s2
      | none => True
  | _, _, _ => False

/-- Two frames that differ at most by the spelling of the command stack; the
stack of the first leads from `c` to the level reached. -/
def Frame.alike (c : context) (f1 f2 : Frame) : Prop :=
  f1.insub = f2.insub ∧ f1.level = f2.level ∧ f1.remnants = f2.remnants ∧
    f1.mem = f2.mem ∧ Alike c f1.stack f2.stack ∧ c.walk f1.stack = some f1.level

/-- Two ways of leaving the loop that give the same error, leftover list and
storage. -/
def Exit.alike (x1 x2 : Exit) : Prop :=
  x1.result.err = x2.result.err ∧ x1.result.remnants = x2.result.remnants ∧
    x1.result.mem = x2.result.mem

/-! ### The chained parser (section 4.3 of the spec; its code is not among the
sources) -/

/-- Modelled from the spec: the eager scan of construction, "Scanner-style
option application (not full descent)": the iterations of the argument loop,
stopped "the moment a positional is encountered while seeking and it matches a
child of root".  Answers how the scan is left and the tokens from that
positional to the end (none when no positional matched a child of the root). -/
def preamble (c : context) : List String → Frame → Exit × List String
  | [], f => (.done f, [])
  | arg :: args, f =>
    if classify arg = .word ∧ f.insub = true ∧ (c.sub arg).isSome = true then
      (.done f, arg :: args)
    else
      match step c arg args f with
      | .halt x => (x, [])
      | .next f1 false => preamble c args f1
      | .next f1 true =>
        match args with
        | [] => (.done f1, [])
        | _ :: args1 => preamble c args1 f1

/-- Put tokens in front of the first segment of a list of segments. -/
def pushFront (pre : List String) : List (List String) → List (List String)
  | [] => [pre]
  | p :: ps => (pre ++ p) :: ps

/-- Modelled from the spec: the pending segments that the remaining tokens are
cut into, at each "unconditional" `--`.  As in section 4.2 ("every token
following an unconditional `--`"), this is read as a `--` that the scanner,
started at the root on the snapshot `base`, meets as a token, not one that an
option takes as its value; the `--` itself belongs to no segment, and the
tokens after a token at which the scan fails stay in its segment. -/
def pieces (c : context) (base : List Value) : List String → Frame → List (List String)
  | [], _ => [[]]
  | arg :: args, f =>
    match step c arg args f with
    | .halt (.stop _) => [] :: pieces c base args (Frame.init c base)
    | .halt _ => [arg :: args]
    | .next f1 false => pushFront [arg] (pieces c base args f1)
    | .next f1 true =>
      match args with
      | [] => [[arg]]
      | v :: args1 => pushFront [arg, v] (pieces c base args1 f1)

/-- Modelled from the spec: the chained parser.  `base` is the BaseSnapshot,
`pending` the segments not yet scanned, `Command` and `Args` the command path
and the leftover of the most recent `Next()`, `fields` the content of the
caller's structure. -/
structure Parser where
  root : context
  base : List Value
  pending : List (List String)
  Command : String
  Args : List String
  fields : List Value

/-- Modelled from the spec: `construct(root, tokens)`, called `NewParser` in the
tests.  The schema is built and validated, the preamble is applied to the
caller's structure, the snapshot is taken and the remaining tokens are cut
into the pending segments; an error of the schema or of the preamble scan is
returned. -/
def NewParser (thing : GoType) (args : List String) (fields : List Value) :
    Except String Parser :=
  match reflectOnIt thing with
  | .error e => .error e
  | .ok c =>
    match validate c with
    | .error e => .error e
    | .ok _ =>
      match preamble c args (Frame.init c fields) with
      | (.fail e _ _, _) => .error e
      | (x, []) => .ok ⟨c, x.mem.fields, [], "", [], x.mem.fields⟩
      | (x, cmd :: rest) =>
        .ok ⟨c, x.mem.fields,
          pieces c x.mem.fields (cmd :: rest) (Frame.init c x.mem.fields), "", [],
          x.mem.fields⟩

/-- Modelled from the spec: `parser.Next()`.  Without a pending segment the
answer is false; otherwise every field is reset to the snapshot, the scanner
is run from the root over the next pending segment, `Command` and the leftover
are set, and the answer is true. -/
def Parser.Next (p : Parser) : Bool × Parser :=
  match p.pending with
  | [] => (false, p)
  | seg :: more =>
    (true,
      ⟨p.root, p.base, more,
        (loop p.root seg (Frame.init p.root p.base)).result.command,
        (loop p.root seg (Frame.init p.root p.base)).result.remnants,
        (loop p.root seg (Frame.init p.root p.base)).result.mem.fields⟩)

/-- The parser after `n` calls of `Next()`. -/
def Parser.after (p : Parser) : Nat → Parser
  | 0 => p
  | n + 1 => (p.after n).Next.2

/-- `Cut c base toks ps`: the segments `ps` are the token list `toks` cut at
each `--` that the scanner, started at the root on the snapshot `base`, meets
as a token: every segment but the last is scanned to its end and is followed
in `toks` by `--`; the scan of the last one meets no `--` as a token. -/
inductive Cut (c : context) (base : List Value) : List String → List (List String) → Prop where
  | last (p : List String)
      (h : ∀ g, loop c p (Frame.init c base) ≠ .stop g) : Cut c base p [p]
  | more (p rest : List String) (ps : List (List String)) (g : Frame)
      (h : loop c p (Frame.init c base) = .done g) (hrest : Cut c base rest ps) :
      Cut c base (p ++ "--" :: rest) (p :: ps)

/-- The structure of "Chained Commands": `Help bool` tagged `-h, -?, --help`,
`Insecure bool` tagged `-k, --insecure`, `Target string` tagged `-t, --target`,
the command `sub` with `Host string` tagged `-H, --host`, and the empty command
`list`. -/
def chained : GoType :=
  .Struct ["-h, -?, --help", "-k, --insecure", "-t, --target", "sub", "list"]
    [0, 1, 2, 3, 4]
    [.Bool, .Bool, .String, .Struct ["-H, --host"] [3] [.String], .Struct [] [] []]

/-- The schema of `chained`. -/
def chainedSchema : context :=
  .mk ""
    [⟨.Bool, ["h", "?"], ["help"], 0, ""⟩, ⟨.Bool, ["k"], ["insecure"], 1, ""⟩,
     ⟨.String, ["t"], ["target"], 2, ""⟩]
    [("sub", .mk "sub" [⟨.String, ["H"], ["host"], 3, ""⟩] []), ("list", .mk "list" [] [])]

/-- The fields of `chained` as the tests reset them. -/
def chainedZero : List Value :=
  [.one (.bool false), .one (.bool false), .one (.str ""), .one (.str "")]

/-- The tokens of "Allows global option overrides on a per sub-command basis". -/
def overrideTokens : List String :=
  ["-k", "-t", "x", "sub", "--target", "my-target", "--", "sub", "-k"]

/-- The fields of `chained` after the preamble `-k -t x`. -/
def overrideBase : List Value :=
  [.one (.bool false), .one (.bool true), .one (.str "x"), .one (.str "")]

/-- The parser that construction returns on `overrideTokens`. -/
def overrideStart : Parser :=
  ⟨chainedSchema, overrideBase, [["sub", "--target", "my-target"], ["sub", "-k"]], "", [],
    overrideBase⟩

/-- The parser after the first `Next()`. -/
def overrideFirst : Parser :=
  ⟨chainedSchema, overrideBase, [["sub", "-k"]], "sub", [],
    [.one (.bool false), .one (.bool true), .one (.str "my-target"), .one (.str "")]⟩

/-- The parser after the second `Next()`. -/
def overrideSecond : Parser :=
  ⟨chainedSchema, overrideBase, [], "sub", [], overrideBase⟩

/-- The frame in which the scan of `--insecure -t my-target` leaves the loop on
the structure `chained`. -/
def targetFrame : Frame :=
  ⟨[], true, chainedSchema, [],
    ⟨[.one (.bool false), .one (.bool true), .one (.str "my-target"), .one (.str "")], []⟩⟩

/-- The token `o`, met in the frame `f` and followed by a token, is a
non-boolean option that takes that token as its value: a non-boolean long
option, or a short run whose last character is a non-boolean flag and whose
other characters are boolean flags.  `opt` is the descriptor the value is set
on and `mem` the storage when it is set. -/
def TakesNext (c : context) (f : Frame) (o : String) (opt : option) (mem : Storage) : Prop :=
  (∃ name, classify o = .long name ∧ c.findLong f.stack name = .ok opt ∧
      opt.Kind ≠ Kind.Bool ∧ mem = f.mem) ∨
  (∃ run pre x, classify o = .short run ∧ run = pre ++ [x] ∧ allBool c f.stack pre ∧
      c.findShort f.stack (String.mk [x]) = .ok opt ∧ opt.Kind ≠ Kind.Bool ∧
      mem = enableRun c f.stack pre f.mem)

/-- The structure of "Unrecognized arguments": `Help bool` tagged
`-h, -?, --help` and the command `sub` with `Host string` tagged `-H, --host`. -/
def unrecognizedArgs : GoType :=
  .Struct ["-h, -?, --help", "sub"] [0, 1] [.Bool, .Struct ["-H, --host"] [1] [.String]]

/-- The schema of `unrecognizedArgs`. -/
def unrecognizedArgsSchema : context :=
  .mk "" [⟨.Bool, ["h", "?"], ["help"], 0, ""⟩]
    [("sub", .mk "sub" [⟨.String, ["H"], ["host"], 1, ""⟩] [])]

/-- The fields of `unrecognizedArgs` as Go initialises them. -/
def unrecognizedArgsZero : List Value :=
  [.one (.bool false), .one (.str "")]

/-- Four of the integer fields of the structure of "With non-numeric
arguments": `Int int` tagged `--int,-i`, `Int8 int8` tagged `--int8`,
`Uint uint` tagged `--uint,-u` and `Uint8 uint8` tagged `--uint8` (`int` and
`uint` are 64 bits wide). -/
def numericArgs : GoType :=
  .Struct ["--int,-i", "--int8", "--uint,-u", "--uint8"] [0, 1, 2, 3]
    [.Int 64, .Int 8, .Uint 64, .Uint 8]

/-- The schema of `numericArgs`. -/
def numericArgsSchema : context :=
  .mk "" [⟨.Int 64, ["i"], ["int"], 0, ""⟩, ⟨.Int 8, [], ["int8"], 1, ""⟩,
    ⟨.Uint 64, ["u"], ["uint"], 2, ""⟩, ⟨.Uint 8, [], ["uint8"], 3, ""⟩] []

/-- The fields of `numericArgs` as Go initialises them. -/
def numericArgsZero : List Value :=
  [.one (.int 0), .one (.int 0), .one (.uint 0), .one (.uint 0)]

end cli

namespace cli

/-! ## The loop: general facts -/

theorem shortRun_none_done (c : context) (stack : List String) (run : List Char)
    (mem m : Storage) (b : Bool) (h : shortRun c stack none run mem = .done m b)
    (nx : Option String) : shortRun c stack nx run mem = .done m false := by
  induction run generalizing mem with
  | nil =>
    simp only [shortRun] at h ⊢
    cases h
    rfl
  | cons ch rest ih =>
    simp only [shortRun] at h ⊢
    cases hf : c.findShort stack (String.mk [ch]) with
    | error e => simp [hf] at h
    | ok opt =>
      simp only [hf] at h ⊢
      by_cases hk : opt.Kind = Kind.Bool
      · simp only [hk, if_true] at h ⊢
        exact ih _ h
      · simp only [hk, if_false] at h ⊢
        by_cases hr : rest.length > 0
        · simp only [hr, if_true] at h ⊢
          cases hs : opt.set (String.mk rest) mem with
          | error e => simp [hs] at h
          | ok m1 =>
            simp only [hs] at h ⊢
            cases h
            rfl
        · simp [hr] at h

/-- The loop is the iteration of `step`. -/
theorem loop_cons (c : context) (arg : String) (args : List String) (f : Frame) :
    loop c (arg :: args) f =
      match step c arg args f with
      | .halt e => e
      | .next f1 false => loop c args f1
      | .next f1 true => loop c args.tail f1 := by
  cases args with
  | nil =>
    simp only [loop, step, classify, stepWord, stepLong, stepShort, List.head?, List.tail]
    repeat' split
    all_goals simp_all
  | cons v rest =>
    simp only [loop, step, classify, stepWord, stepLong, stepShort, List.head?, List.tail]
    repeat' split
    all_goals simp_all

theorem shortRun_done_false (c : context) (stack : List String) (run : List Char)
    (mem m : Storage) (nx : Option String)
    (h : shortRun c stack nx run mem = .done m false)
    (nx1 : Option String) : shortRun c stack nx1 run mem = .done m false := by
  induction run generalizing mem with
  | nil =>
    simp only [shortRun] at h ⊢
    exact h
  | cons ch rest ih =>
    simp only [shortRun] at h ⊢
    cases hf : c.findShort stack (String.mk [ch]) with
    | error e => simp [hf] at h
    | ok opt =>
      simp only [hf] at h ⊢
      by_cases hk : opt.Kind = Kind.Bool
      · simp only [hk, if_true] at h ⊢
        exact ih _ h
      · simp only [hk, if_false] at h ⊢
        by_cases hr : rest.length > 0
        · simp only [hr, if_true] at h ⊢
          exact h
        · simp only [hr, if_false] at h
          cases nx with
          | none => simp at h
          | some v =>
            simp only at h
            cases hs : opt.set v mem with
            | error e => simp [hs] at h
            | ok m1 => simp [hs] at h

theorem shortRun_done_true (c : context) (stack : List String) (run : List Char)
    (mem m : Storage) (nx : Option String)
    (h : shortRun c stack nx run mem = .done m true) : ∃ v, nx = some v := by
  cases nx with
  | some v => exact ⟨v, rfl⟩
  | none =>
    have := shortRun_none_done c stack run mem m true h none
    rw [h] at this
    cases this

theorem stepLong_next_append (c : context) (arg name : String) (a b : List String)
    (f f1 : Frame) (k : Bool) (h : stepLong c arg name a f = .next f1 k) :
    stepLong c arg name (a ++ b) f = .next f1 k := by
  unfold stepLong at h ⊢
  cases hf : c.findLong f.stack name with
  | error e => simp [hf] at h
  | ok opt =>
    simp only [hf] at h ⊢
    by_cases hk : opt.Kind = Kind.Bool
    · simpa [hk] using h
    · cases a with
      | nil => simp [hk] at h
      | cons v rest => simpa [hk] using h

theorem stepShort_next_append (c : context) (run : List Char) (a b : List String)
    (f f1 : Frame) (k : Bool) (h : stepShort c run a f = .next f1 k) :
    stepShort c run (a ++ b) f = .next f1 k := by
  cases a with
  | cons v rest => simpa [stepShort] using h
  | nil =>
    unfold stepShort at h ⊢
    simp only [List.nil_append] at h ⊢
    have hn : ([] : List String).head? = none := rfl
    rw [hn] at h
    cases hr : shortRun c f.stack none run f.mem with
    | fail e m => simp [hr] at h
    | done m sh =>
      simp only [hr, Step.next.injEq] at h
      rw [shortRun_none_done c f.stack run f.mem m sh hr b.head?]
      have hsh : sh = false := by
        have := shortRun_none_done c f.stack run f.mem m sh hr none
        rw [hr] at this
        cases this
        rfl
      rw [← h.1, ← h.2, hsh]

theorem step_next_append (c : context) (arg : String) (a b : List String) (f f1 : Frame)
    (k : Bool) (h : step c arg a f = .next f1 k) : step c arg (a ++ b) f = .next f1 k := by
  unfold step at h ⊢
  cases hc : classify arg with
  | empty => simpa [hc] using h
  | dashes => simp [hc] at h
  | word => simpa [hc] using h
  | long name =>
    simp only [hc] at h ⊢
    exact stepLong_next_append c arg name a b f f1 k h
  | short run =>
    simp only [hc] at h ⊢
    exact stepShort_next_append c run a b f f1 k h

theorem step_shift (c : context) (arg : String) (a : List String) (f f1 : Frame)
    (h : step c arg a f = .next f1 true) : ∃ v rest, a = v :: rest := by
  cases a with
  | cons v rest => exact ⟨v, rest, rfl⟩
  | nil =>
    exfalso
    unfold step at h
    cases hc : classify arg with
    | empty => simp [hc] at h
    | dashes => simp [hc] at h
    | word => simp [hc] at h
    | long name =>
      simp only [hc, stepLong] at h
      cases hf : c.findLong f.stack name with
      | error e => simp [hf] at h
      | ok opt =>
        simp only [hf] at h
        by_cases hk : opt.Kind = Kind.Bool <;> simp [hk] at h
    | short run =>
      simp only [hc, stepShort, List.head?] at h
      cases hr : shortRun c f.stack none run f.mem with
      | fail e m => simp [hr] at h
      | done m sh =>
        simp only [hr, Step.next.injEq] at h
        obtain ⟨v, hv⟩ := shortRun_done_true c f.stack run f.mem m none (h.2 ▸ hr)
        cases hv

theorem step_halt_not_done (c : context) (arg : String) (a : List String) (f g : Frame)
    (h : step c arg a f = .halt (.done g)) : False := by
  unfold step at h
  cases hc : classify arg with
  | empty => simp [hc] at h
  | dashes => simp [hc] at h
  | word => simp [hc] at h
  | long name =>
    simp only [hc, stepLong] at h
    repeat' split at h
    all_goals simp_all
  | short run =>
    simp only [hc, stepShort] at h
    repeat' split at h
    all_goals simp_all

/-- Induction on a token list in which the hypothesis is available for the
tokens after one token and for the tokens after two. -/
theorem tokens_induction (P : List String → Prop) (nil : P [])
    (cons : ∀ arg args, P args → P args.tail → P (arg :: args)) : ∀ args, P args := by
  intro args
  have key : P args ∧ P args.tail := by
    induction args with
    | nil => exact ⟨nil, nil⟩
    | cons arg args ih => exact ⟨cons arg args ih.1 ih.2, ih.1⟩
  exact key.1

/-- Scanning `a ++ b` when the scan of `a` reaches the end of `a`: the loop goes
on over `b` from the frame in which `a` was left. -/
theorem loop_append (c : context) (a b : List String) (f g : Frame)
    (h : loop c a f = .done g) : loop c (a ++ b) f = loop c b g := by
  induction a using tokens_induction generalizing f with
  | nil =>
    simp only [loop] at h
    cases h
    rfl
  | cons arg args ih1 ih2 =>
    rw [loop_cons] at h
    rw [List.cons_append, loop_cons]
    cases hs : step c arg args f with
    | halt e =>
      simp only [hs] at h
      subst h
      exact (step_halt_not_done c arg args f g hs).elim
    | next f1 k =>
      rw [step_next_append c arg args b f f1 k hs]
      cases k with
      | false =>
        simp only [hs] at h ⊢
        exact ih1 f1 h
      | true =>
        simp only [hs] at h ⊢
        obtain ⟨v, rest, hv⟩ := step_shift c arg args f f1 hs
        subst hv
        simp only [List.tail, List.cons_append] at h ih2 ⊢
        exact ih2 f1 h

theorem step_halt_stop (c : context) (arg : String) (a : List String) (f g : Frame)
    (h : step c arg a f = .halt (.stop g)) :
    classify arg = .dashes ∧ g = ⟨f.stack, f.insub, f.level, f.remnants ++ a, f.mem⟩ := by
  unfold step at h
  cases hc : classify arg with
  | empty => simp [hc] at h
  | dashes =>
    simp only [hc, Step.halt.injEq, Exit.stop.injEq] at h
    exact ⟨rfl, h.symm⟩
  | word => simp [hc] at h
  | long name =>
    simp only [hc, stepLong] at h
    repeat' split at h
    all_goals simp_all
  | short run =>
    simp only [hc, stepShort] at h
    repeat' split at h
    all_goals simp_all

/-- A property of frames that every iteration keeps is kept by the whole loop,
however it is left without error. -/
theorem loop_preserves (c : context) (I : Frame → Prop)
    (hnext : ∀ arg a f f1 k, I f → step c arg a f = .next f1 k → I f1)
    (hstop : ∀ f r, I f → I ⟨f.stack, f.insub, f.level, f.remnants ++ r, f.mem⟩)
    (args : List String) (f g : Frame) (hI : I f)
    (h : loop c args f = .done g ∨ loop c args f = .stop g) : I g := by
  induction args using tokens_induction generalizing f with
  | nil =>
    simp only [loop] at h
    rcases h with h | h
    · cases h
      exact hI
    · cases h
  | cons arg args ih1 ih2 =>
    rw [loop_cons] at h
    cases hs : step c arg args f with
    | halt e =>
      simp only [hs] at h
      rcases h with h | h
      · subst h
        exact (step_halt_not_done c arg args f g hs).elim
      · subst h
        rw [(step_halt_stop c arg args f g hs).2]
        exact hstop f args hI
    | next f1 k =>
      have hI1 := hnext arg args f f1 k hI hs
      cases k with
      | false =>
        simp only [hs] at h
        exact ih1 f1 hI1 h
      | true =>
        simp only [hs] at h
        exact ih2 f1 hI1 h

theorem step_next_frame (c : context) (arg : String) (a : List String) (f f1 : Frame)
    (k : Bool) (h : step c arg a f = .next f1 k) :
    (classify arg = .empty ∧ f1 = ⟨f.stack, false, f.level, f.remnants ++ [arg], f.mem⟩) ∨
    (classify arg = .word ∧ f1 = stepWord arg f) ∨
    (f1.stack = f.stack ∧ f1.insub = f.insub ∧ f1.level = f.level ∧
      f1.remnants = f.remnants) := by
  unfold step at h
  cases hc : classify arg with
  | empty =>
    simp only [hc, Step.next.injEq] at h
    exact Or.inl ⟨rfl, h.1.symm⟩
  | dashes => simp [hc] at h
  | word =>
    simp only [hc, Step.next.injEq] at h
    exact Or.inr (Or.inl ⟨rfl, h.1.symm⟩)
  | long name =>
    simp only [hc, stepLong] at h
    refine Or.inr (Or.inr ?_)
    repeat' split at h
    all_goals
      cases h
      try exact ⟨rfl, rfl, rfl, rfl⟩
  | short run =>
    simp only [hc, stepShort] at h
    refine Or.inr (Or.inr ?_)
    repeat' split at h
    all_goals
      cases h
      try exact ⟨rfl, rfl, rfl, rfl⟩

theorem stepWord_seeking_off (arg : String) (f : Frame) (h : f.insub = false) :
    stepWord arg f = ⟨f.stack, false, f.level, f.remnants ++ [arg], f.mem⟩ := by
  simp [stepWord, h]

/-- Once `insub` is false, the loop never changes the stack, the level or
`insub` again, and the remnants only grow at the end. -/
theorem loop_seeking_off (c : context) (args : List String) (f g : Frame)
    (hoff : f.insub = false)
    (h : loop c args f = .done g ∨ loop c args f = .stop g) :
    g.insub = false ∧ g.stack = f.stack ∧ g.level = f.level ∧
      f.remnants <+: g.remnants := by
  refine loop_preserves c
    (fun x => x.insub = false ∧ x.stack = f.stack ∧ x.level = f.level ∧
      f.remnants <+: x.remnants) ?_ ?_ args f g
    ⟨hoff, rfl, rfl, List.prefix_refl _⟩ h
  · intro arg a x x1 k hx hs
    rcases step_next_frame c arg a x x1 k hs with ⟨_, h1⟩ | ⟨_, h1⟩ | h1
    · subst h1
      exact ⟨rfl, hx.2.1, hx.2.2.1, hx.2.2.2.trans (List.prefix_append _ _)⟩
    · rw [stepWord_seeking_off arg x hx.1] at h1
      subst h1
      exact ⟨rfl, hx.2.1, hx.2.2.1, hx.2.2.2.trans (List.prefix_append _ _)⟩
    · exact ⟨h1.2.1.trans hx.1, h1.1.trans hx.2.1, h1.2.2.1.trans hx.2.2.1,
        h1.2.2.2 ▸ hx.2.2.2⟩
  · intro x r hx
    exact ⟨hx.1, hx.2.1, hx.2.2.1, hx.2.2.2.trans (List.prefix_append _ _)⟩

theorem loop_word (c : context) (arg : String) (args : List String) (f : Frame)
    (h : classify arg = .word) : loop c (arg :: args) f = loop c args (stepWord arg f) := by
  rw [loop_cons]
  simp only [step, h]

theorem loop_empty (c : context) (arg : String) (args : List String) (f : Frame)
    (h : classify arg = .empty) :
    loop c (arg :: args) f
      = loop c args ⟨f.stack, false, f.level, f.remnants ++ [arg], f.mem⟩ := by
  rw [loop_cons]
  simp only [step, h]

theorem loop_dashes (c : context) (arg : String) (args : List String) (f : Frame)
    (h : classify arg = .dashes) :
    loop c (arg :: args) f
      = .stop ⟨f.stack, f.insub, f.level, f.remnants ++ args, f.mem⟩ := by
  rw [loop_cons]
  simp only [step, h]

theorem walk_append (level : context) (stack : List String) (arg : String) :
    level.walk (stack ++ [arg]) = (level.walk stack).bind (fun l => l.sub arg) := by
  induction stack generalizing level with
  | nil =>
    simp only [List.nil_append, context.walk, Option.bind]
    cases level.sub arg <;> rfl
  | cons s rest ih =>
    simp only [List.cons_append, context.walk]
    cases level.sub s with
    | none => rfl
    | some next => exact ih next

theorem descent_loop (c : context) (segs : List (List String × String)) (f g : Frame)
    (h : Descent c segs f g) :
    loop c (segmentTokens segs) f = .done g ∧
      g.stack = f.stack ++ segs.map Prod.snd ∧ g.remnants = f.remnants ∧
      (∀ root : context,
        root.walk f.stack = some f.level → root.walk g.stack = some g.level) := by
  induction h with
  | here f => exact ⟨rfl, by simp, rfl, fun _ h => h⟩
  | down opts cmd segs f g mem1 next hopts hword hsub _ ih =>
    obtain ⟨ih1, ih2, ih3, ih4⟩ := ih
    refine ⟨?_, ?_, ?_, ?_⟩
    · have : segmentTokens ((opts, cmd) :: segs) = opts ++ (cmd :: segmentTokens segs) := by
        simp [segmentTokens]
      rw [this, loop_append c opts _ f _ hopts, loop_word c cmd _ _ hword]
      simpa [stepWord, hsub] using ih1
    · simpa using ih2
    · exact ih3
    · intro root hroot
      apply ih4
      simp only [walk_append, hroot, Option.bind, hsub]

/-- In every frame the loop reaches, the stack leads from the root to the
level. -/
theorem loop_walk (c : context) (args : List String) (f g : Frame)
    (hf : c.walk f.stack = some f.level)
    (h : loop c args f = .done g ∨ loop c args f = .stop g) :
    c.walk g.stack = some g.level := by
  refine loop_preserves c (fun x => c.walk x.stack = some x.level) ?_ ?_ args f g hf h
  · intro arg a x x1 k hx hs
    rcases step_next_frame c arg a x x1 k hs with ⟨_, h1⟩ | ⟨_, h1⟩ | h1
    · subst h1
      exact hx
    · subst h1
      unfold stepWord
      cases hi : x.insub with
      | false => simpa using hx
      | true =>
        cases hsub : x.level.sub arg with
        | none => simpa using hx
        | some next => simp [walk_append, hx, hsub]
    · rw [h1.1, h1.2.2.1]
      exact hx
  · intro x r hx
    exact hx

theorem mem_visible_iff (level : context) (stack : List String) (d : option) :
    d ∈ level.visible stack ↔
      ∃ pre l, pre <+: stack ∧ level.walk pre = some l ∧ d ∈ l.Options := by
  induction stack generalizing level with
  | nil =>
    simp only [context.visible, List.prefix_nil]
    constructor
    · intro h
      exact ⟨[], level, rfl, rfl, h⟩
    · rintro ⟨pre, l, rfl, hw, hd⟩
      simp only [context.walk, Option.some.injEq] at hw
      subst hw
      exact hd
  | cons s rest ih =>
    simp only [context.visible, List.mem_append]
    constructor
    · rintro (h | h)
      · exact ⟨[], level, List.nil_prefix, rfl, h⟩
      · cases hsub : level.sub s with
        | none => simp [hsub] at h
        | some next =>
          simp only [hsub] at h
          obtain ⟨pre, l, hp, hw, hd⟩ := (ih next).1 h
          refine ⟨s :: pre, l, ?_, ?_, hd⟩
          · obtain ⟨t, ht⟩ := hp
            exact ⟨t, by simp [← ht]⟩
          · simp only [context.walk, hsub]
            exact hw
    · rintro ⟨pre, l, hp, hw, hd⟩
      cases pre with
      | nil =>
        simp only [context.walk, Option.some.injEq] at hw
        subst hw
        exact Or.inl hd
      | cons s1 pre1 =>
        obtain ⟨t, ht⟩ := hp
        simp only [List.cons_append, List.cons.injEq] at ht
        obtain ⟨hs, ht⟩ := ht
        subst hs
        simp only [context.walk] at hw
        cases hsub : level.sub s1 with
        | none => simp [hsub] at hw
        | some next =>
          simp only [hsub] at hw
          right
          exact (ih next).2 ⟨pre1, l, ⟨t, ht⟩, hw, hd⟩

theorem findLong_spec (level : context) (stack : List String) (name : String) :
    (∃ d ∈ level.visible stack, name ∈ d.Longs ∧
        level.findLong stack name = .ok ⟨d.Kind, d.Shorts, d.Longs, d.Value, name⟩) ∨
      ((∀ d ∈ level.visible stack, name ∉ d.Longs) ∧
        level.findLong stack name = .error ("unrecognized option `--" ++ name ++ "`")) := by
  induction stack generalizing level with
  | nil =>
    cases hfind : level.Options.find? (fun o => decide (name ∈ o.Longs)) with
    | some d =>
      left
      refine ⟨d, ?_, ?_, ?_⟩
      · simpa [context.visible] using List.mem_of_find?_eq_some hfind
      · simpa using List.find?_some hfind
      · simp only [context.findLong, hfind]
    | none =>
      right
      refine ⟨?_, ?_⟩
      · intro d hd
        simp only [context.visible] at hd
        simpa using List.find?_eq_none.1 hfind d hd
      · simp only [context.findLong, hfind]
  | cons s rest ih =>
    cases hfind : level.Options.find? (fun o => decide (name ∈ o.Longs)) with
    | some d =>
      left
      refine ⟨d, ?_, ?_, ?_⟩
      · simp only [context.visible, List.mem_append]
        exact Or.inl (List.mem_of_find?_eq_some hfind)
      · simpa using List.find?_some hfind
      · simp only [context.findLong, hfind]
    | none =>
      have hown : ∀ d ∈ level.Options, name ∉ d.Longs := by
        intro d hd
        simpa using List.find?_eq_none.1 hfind d hd
      cases hsub : level.sub s with
      | none =>
        right
        refine ⟨?_, ?_⟩
        · intro d hd
          simp only [context.visible, hsub, List.append_nil] at hd
          exact hown d hd
        · simp only [context.findLong, hfind, hsub]
      | some next =>
        rcases ih next with ⟨d, hd, hn, hok⟩ | ⟨hno, herr⟩
        · left
          refine ⟨d, ?_, hn, ?_⟩
          · simp only [context.visible, hsub, List.mem_append]
            exact Or.inr hd
          · simp only [context.findLong, hfind, hsub]
            exact hok
        · right
          refine ⟨?_, ?_⟩
          · intro d hd
            simp only [context.visible, hsub, List.mem_append] at hd
            rcases hd with hd | hd
            · exact hown d hd
            · exact hno d hd
          · simp only [context.findLong, hfind, hsub]
            exact herr

theorem findShort_spec (level : context) (stack : List String) (name : String) :
    (∃ d ∈ level.visible stack, name ∈ d.Shorts ∧
        level.findShort stack name = .ok ⟨d.Kind, d.Shorts, d.Longs, d.Value, name⟩) ∨
      ((∀ d ∈ level.visible stack, name ∉ d.Shorts) ∧
        level.findShort stack name = .error ("unrecognized option `-" ++ name ++ "`")) := by
  induction stack generalizing level with
  | nil =>
    cases hfind : level.Options.find? (fun o => decide (name ∈ o.Shorts)) with
    | some d =>
      left
      refine ⟨d, ?_, ?_, ?_⟩
      · simpa [context.visible] using List.mem_of_find?_eq_some hfind
      · simpa using List.find?_some hfind
      · simp only [context.findShort, hfind]
    | none =>
      right
      refine ⟨?_, ?_⟩
      · intro d hd
        simp only [context.visible] at hd
        simpa using List.find?_eq_none.1 hfind d hd
      · simp only [context.findShort, hfind]
  | cons s rest ih =>
    cases hfind : level.Options.find? (fun o => decide (name ∈ o.Shorts)) with
    | some d =>
      left
      refine ⟨d, ?_, ?_, ?_⟩
      · simp only [context.visible, List.mem_append]
        exact Or.inl (List.mem_of_find?_eq_some hfind)
      · simpa using List.find?_some hfind
      · simp only [context.findShort, hfind]
    | none =>
      have hown : ∀ d ∈ level.Options, name ∉ d.Shorts := by
        intro d hd
        simpa using List.find?_eq_none.1 hfind d hd
      cases hsub : level.sub s with
      | none =>
        right
        refine ⟨?_, ?_⟩
        · intro d hd
          simp only [context.visible, hsub, List.append_nil] at hd
          exact hown d hd
        · simp only [context.findShort, hfind, hsub]
      | some next =>
        rcases ih next with ⟨d, hd, hn, hok⟩ | ⟨hno, herr⟩
        · left
          refine ⟨d, ?_, hn, ?_⟩
          · simp only [context.visible, hsub, List.mem_append]
            exact Or.inr hd
          · simp only [context.findShort, hfind, hsub]
            exact hok
        · right
          refine ⟨?_, ?_⟩
          · intro d hd
            simp only [context.visible, hsub, List.mem_append] at hd
            rcases hd with hd | hd
            · exact hown d hd
            · exact hno d hd
          · simp only [context.findShort, hfind, hsub]
            exact herr

theorem findLong_global (c : context) (stack : List String) (name : String) (d : option)
    (h : c.Options.find? (fun o => decide (name ∈ o.Longs)) = some d) :
    c.findLong stack name = .ok ⟨d.Kind, d.Shorts, d.Longs, d.Value, name⟩ := by
  cases stack <;> simp only [context.findLong, h]

theorem findShort_global (c : context) (stack : List String) (name : String) (d : option)
    (h : c.Options.find? (fun o => decide (name ∈ o.Shorts)) = some d) :
    c.findShort stack name = .ok ⟨d.Kind, d.Shorts, d.Longs, d.Value, name⟩ := by
  cases stack <;> simp only [context.findShort, h]

theorem loop_long_unknown (c : context) (arg name e : String) (args : List String)
    (f : Frame) (h : classify arg = .long name)
    (hf : c.findLong f.stack name = .error e) :
    loop c (arg :: args) f = .fail e f.remnants f.mem := by
  rw [loop_cons]
  simp only [step, h, stepLong, hf]

theorem classify_long (o name : String) (h : classify o = .long name) :
    o = "--" ++ name := by
  unfold classify at h
  split at h
  · cases h
  · split at h
    · cases h
    · split at h
      · cases h
      · rename_i h0 h1 h2
        split at h
        · rename_i h3
          cases h
          apply String.ext
          simp only [String.data_append]
          rcases hd : o.data with _ | ⟨x, _ | ⟨y, rest⟩⟩
          · simp [hd] at h3
          · simp [hd] at h3
          · simp only [hd, List.get?, Option.some.injEq] at h3
            simp only [hd, List.head?, ne_eq, not_or, not_not, Option.some.injEq] at h2
            rw [h3, h2.1]
            rfl
        · cases h

theorem classify_short (o : String) (run : List Char) (h : classify o = .short run) :
    o = "-" ++ String.mk run := by
  unfold classify at h
  split at h
  · cases h
  · split at h
    · cases h
    · split at h
      · cases h
      · rename_i h0 h1 h2
        split at h
        · cases h
        · cases h
          apply String.ext
          simp only [String.data_append]
          rcases hd : o.data with _ | ⟨x, rest⟩
          · simp [String.length, hd] at h0
          · simp only [hd, List.head?, ne_eq, not_or, not_not, Option.some.injEq] at h2
            rw [h2.1]
            rfl

theorem shortRun_bools (c : context) (stack : List String) (nx : Option String)
    (pre rest : List Char) (mem : Storage) (h : allBool c stack pre) :
    shortRun c stack nx (pre ++ rest) mem
      = shortRun c stack nx rest (enableRun c stack pre mem) := by
  induction pre generalizing mem with
  | nil => rfl
  | cons ch pre ih =>
    obtain ⟨opt, hf, hk⟩ := h ch (List.mem_cons_self _ _)
    have h1 : allBool c stack pre := fun x hx => h x (List.mem_cons_of_mem _ hx)
    simp only [List.cons_append, shortRun, hf, hk, if_true, enableRun]
    exact ih _ h1

theorem shortRun_unknown (c : context) (stack : List String) (nx : Option String)
    (x : Char) (post : List Char) (mem : Storage) (e : String)
    (h : c.findShort stack (String.mk [x]) = .error e) :
    shortRun c stack nx (x :: post) mem = .fail e mem := by
  simp only [shortRun, h]

theorem not_missing_of_head (e : String) (ch : Char) (rest : List Char)
    (h : e.data = ch :: rest) (hne : ch ≠ 'm') : ¬ isMissingValue e := by
  intro hm
  unfold isMissingValue at hm
  rw [h] at hm
  have hlit : "missing required value".data = 'm' :: "issing required value".data := rfl
  rw [hlit, List.cons_prefix_cons] at hm
  exact hne hm.1.symm

theorem findLong_error (level : context) (stack : List String) (name e : String)
    (h : level.findLong stack name = .error e) : ¬ isMissingValue e := by
  rcases findLong_spec level stack name with ⟨d, _, _, hok⟩ | ⟨_, herr⟩
  · rw [hok] at h
    cases h
  · rw [herr] at h
    cases h
    exact not_missing_of_head _ 'u' _ (by simp only [String.data_append]; rfl) (by decide)

theorem findShort_error (level : context) (stack : List String) (name e : String)
    (h : level.findShort stack name = .error e) : ¬ isMissingValue e := by
  rcases findShort_spec level stack name with ⟨d, _, _, hok⟩ | ⟨_, herr⟩
  · rw [hok] at h
    cases h
  · rw [herr] at h
    cases h
    exact not_missing_of_head _ 'u' _ (by simp only [String.data_append]; rfl) (by decide)

theorem coerce_error (k : Kind) (v e : String) (h : coerce k v = .error e) :
    ¬ isMissingValue e := by
  unfold coerce at h
  split at h
  · cases h
  · split at h
    · cases h
    · cases h
      exact not_missing_of_head _ 'i' _ (by simp only [String.data_append]; rfl) (by decide)
  · split at h
    · cases h
    · cases h
      exact not_missing_of_head _ 'i' _ (by simp only [String.data_append]; rfl) (by decide)
  · cases h
    exact not_missing_of_head _ 'c' _ rfl (by decide)
  · cases h
    exact not_missing_of_head _ 'c' _ rfl (by decide)

theorem set_error (opt : option) (v e : String) (mem : Storage)
    (h : opt.set v mem = .error e) : ¬ isMissingValue e := by
  unfold option.set at h
  split at h
  · split at h
    · rename_i hc
      cases h
      exact coerce_error _ _ _ hc
    · split at h <;> cases h
  · split at h
    · rename_i hc
      cases h
      exact coerce_error _ _ _ hc
    · cases h

theorem shortRun_fail_missing (c : context) (stack : List String) (nx : Option String)
    (run : List Char) (mem m : Storage) (e : String)
    (h : shortRun c stack nx run mem = .fail e m) (hm : isMissingValue e) :
    nx = none ∧ ∃ pre x opt, run = pre ++ [x] ∧ allBool c stack pre ∧
      c.findShort stack (String.mk [x]) = .ok opt ∧ opt.Kind ≠ Kind.Bool ∧
      e = "missing required value for `-" ++ String.mk [x] ++ "` flag" ∧
      m = enableRun c stack pre mem := by
  induction run generalizing mem with
  | nil => simp [shortRun] at h
  | cons ch rest ih =>
    simp only [shortRun] at h
    cases hf : c.findShort stack (String.mk [ch]) with
    | error e1 =>
      simp only [hf, RunEnd.fail.injEq] at h
      exact (findShort_error c stack _ e1 hf (h.1 ▸ hm)).elim
    | ok opt =>
      simp only [hf] at h
      by_cases hk : opt.Kind = Kind.Bool
      · simp only [hk, if_true] at h
        obtain ⟨hnx, pre, x, opt1, hrun, hall, hfx, hkx, he, hmem⟩ := ih _ h
        refine ⟨hnx, ch :: pre, x, opt1, by simp [hrun], ?_, hfx, hkx, he, ?_⟩
        · intro y hy
          rcases List.mem_cons.1 hy with hy | hy
          · subst hy
            exact ⟨opt, hf, hk⟩
          · exact hall y hy
        · simp only [enableRun, hf]
          exact hmem
      · simp only [hk, if_false] at h
        by_cases hr : rest.length > 0
        · simp only [hr, if_true] at h
          cases hs : opt.set (String.mk rest) mem with
          | error e1 =>
            simp only [hs, RunEnd.fail.injEq] at h
            exact (set_error opt _ e1 mem hs (h.1 ▸ hm)).elim
          | ok m1 => simp [hs] at h
        · simp only [hr, if_false] at h
          have hrest : rest = [] := by
            cases rest with
            | nil => rfl
            | cons y ys => simp at hr
          cases nx with
          | none =>
            simp only [RunEnd.fail.injEq] at h
            refine ⟨rfl, [], ch, opt, by simp [hrest], ?_, hf, hk, h.1.symm, h.2.symm⟩
            intro y hy
            cases hy
          | some v =>
            simp only at h
            cases hs : opt.set v mem with
            | error e1 =>
              simp only [hs, RunEnd.fail.injEq] at h
              exact (set_error opt _ e1 mem hs (h.1 ▸ hm)).elim
            | ok m1 => simp [hs] at h

theorem step_halt_fail_missing (c : context) (arg : String) (args : List String)
    (f : Frame) (e : String) (r : List String) (m : Storage)
    (h : step c arg args f = .halt (.fail e r m)) (hm : isMissingValue e) :
    args = [] ∧ LacksValue c f arg e ∧ r = f.remnants := by
  unfold step at h
  cases hc : classify arg with
  | empty => simp [hc] at h
  | dashes => simp [hc] at h
  | word => simp [hc] at h
  | long name =>
    simp only [hc, stepLong] at h
    cases hf : c.findLong f.stack name with
    | error e1 =>
      simp only [hf, Step.halt.injEq, Exit.fail.injEq] at h
      exact (findLong_error c f.stack name e1 hf (h.1 ▸ hm)).elim
    | ok opt =>
      simp only [hf] at h
      by_cases hk : opt.Kind = Kind.Bool
      · simp [hk] at h
      · simp only [hk, if_false] at h
        cases args with
        | nil =>
          simp only [Step.halt.injEq, Exit.fail.injEq] at h
          exact ⟨rfl, Or.inl ⟨name, opt, hc, hf, hk, h.1.symm⟩, h.2.1.symm⟩
        | cons v rest =>
          simp only at h
          cases hs : opt.set v f.mem with
          | error e1 =>
            simp only [hs, Step.halt.injEq, Exit.fail.injEq] at h
            exact (set_error opt _ e1 f.mem hs (h.1 ▸ hm)).elim
          | ok m1 => simp [hs] at h
  | short run =>
    simp only [hc, stepShort] at h
    cases hr : shortRun c f.stack args.head? run f.mem with
    | done m1 k => simp [hr] at h
    | fail e1 m1 =>
      simp only [hr, Step.halt.injEq, Exit.fail.injEq] at h
      obtain ⟨hnx, pre, x, opt, hrun, hall, hfx, hkx, he, _⟩ :=
        shortRun_fail_missing c f.stack _ run f.mem m1 e1 hr (h.1 ▸ hm)
      refine ⟨?_, Or.inr ⟨run, pre, x, opt, hc, hrun, hall, hfx, hkx, h.1 ▸ he⟩, h.2.1.symm⟩
      cases args with
      | nil => rfl
      | cons v rest => simp at hnx

theorem step_next_head (c : context) (arg : String) (args args1 : List String)
    (f f1 : Frame) (k : Bool) (h : step c arg args f = .next f1 k)
    (hh : args.head? = args1.head?) : step c arg args1 f = .next f1 k := by
  unfold step at h ⊢
  cases hc : classify arg with
  | empty => simpa [hc] using h
  | dashes => simp [hc] at h
  | word => simpa [hc] using h
  | long name =>
    simp only [hc, stepLong] at h ⊢
    cases hf : c.findLong f.stack name with
    | error e1 => simp [hf] at h
    | ok opt =>
      simp only [hf] at h ⊢
      by_cases hk : opt.Kind = Kind.Bool
      · simpa [hk] using h
      · simp only [hk, if_false] at h ⊢
        cases args with
        | nil => simp at h
        | cons v rest =>
          cases args1 with
          | nil => simp at hh
          | cons v1 rest1 =>
            simp only [List.head?, Option.some.injEq] at hh
            subst hh
            exact h
  | short run =>
    simp only [hc, stepShort] at h ⊢
    rw [← hh]
    exact h

theorem step_next_false (c : context) (arg : String) (args args1 : List String)
    (f f1 : Frame) (h : step c arg args f = .next f1 false) :
    step c arg args1 f = .next f1 false := by
  unfold step at h ⊢
  cases hc : classify arg with
  | empty => simpa [hc] using h
  | dashes => simp [hc] at h
  | word => simpa [hc] using h
  | long name =>
    simp only [hc, stepLong] at h ⊢
    cases hf : c.findLong f.stack name with
    | error e1 => simp [hf] at h
    | ok opt =>
      simp only [hf] at h ⊢
      by_cases hk : opt.Kind = Kind.Bool
      · simpa [hk] using h
      · simp only [hk, if_false] at h
        cases args with
        | nil => simp at h
        | cons v rest =>
          simp only at h
          cases hs : opt.set v f.mem <;> simp [hs] at h
  | short run =>
    simp only [hc, stepShort] at h ⊢
    cases hr : shortRun c f.stack args.head? run f.mem with
    | fail e1 m1 => simp [hr] at h
    | done m1 k =>
      simp only [hr, Step.next.injEq] at h
      obtain ⟨h1, h2⟩ := h
      subst h2
      rw [shortRun_done_false c f.stack run f.mem m1 _ hr args1.head?]
      simp only [Step.next.injEq, and_true]
      exact h1

/-- A "missing required value" error of the loop comes from the last token. -/
theorem loop_fail_missing (c : context) (args : List String) (f : Frame) (e : String)
    (r : List String) (m : Storage) (h : loop c args f = .fail e r m)
    (hm : isMissingValue e) :
    ∃ a o g, args = a ++ [o] ∧ loop c a f = .done g ∧ LacksValue c g o e := by
  induction args using tokens_induction generalizing f with
  | nil => simp [loop] at h
  | cons arg args ih1 ih2 =>
    rw [loop_cons] at h
    cases hs : step c arg args f with
    | halt x =>
      simp only [hs] at h
      subst h
      obtain ⟨hnil, hl, _⟩ := step_halt_fail_missing c arg args f e r m hs hm
      subst hnil
      exact ⟨[], arg, f, rfl, rfl, hl⟩
    | next f1 k =>
      cases k with
      | false =>
        simp only [hs] at h
        obtain ⟨a, o, g, hsplit, hdone, hl⟩ := ih1 f1 h
        refine ⟨arg :: a, o, g, by simp [hsplit], ?_, hl⟩
        rw [loop_cons, step_next_false c arg args a f f1 hs]
        exact hdone
      | true =>
        simp only [hs] at h
        obtain ⟨v, rest, hv⟩ := step_shift c arg args f f1 hs
        subst hv
        simp only [List.tail] at h ih2
        obtain ⟨a, o, g, hsplit, hdone, hl⟩ := ih2 f1 h
        refine ⟨arg :: v :: a, o, g, by simp [hsplit], ?_, hl⟩
        rw [loop_cons, step_next_head c arg (v :: rest) (v :: a) f f1 true hs rfl]
        exact hdone

theorem isMissingValue_long (o : String) :
    isMissingValue ("missing required value for `" ++ o ++ "` flag") := by
  unfold isMissingValue
  exact ⟨(" for `" ++ o ++ "` flag").data, by simp [String.data_append]⟩

theorem isMissingValue_short (x : Char) :
    isMissingValue ("missing required value for `-" ++ String.mk [x] ++ "` flag") := by
  unfold isMissingValue
  exact ⟨(" for `-" ++ String.mk [x] ++ "` flag").data, by simp [String.data_append]⟩

theorem loop_long_missing (c : context) (arg name : String) (f : Frame) (opt : option)
    (h : classify arg = .long name) (hf : c.findLong f.stack name = .ok opt)
    (hk : opt.Kind ≠ Kind.Bool) :
    loop c [arg] f
      = .fail ("missing required value for `" ++ arg ++ "` flag") f.remnants f.mem := by
  rw [loop_cons]
  simp only [step, h, stepLong, hf, hk, if_false]

theorem shortRun_all_bool (c : context) (stack : List String) (nx : Option String)
    (run : List Char) (mem : Storage) (h : allBool c stack run) :
    shortRun c stack nx run mem = .done (enableRun c stack run mem) false := by
  have := shortRun_bools c stack nx run [] mem h
  rw [List.append_nil] at this
  rw [this]
  rfl

theorem findShort_matched (level : context) (stack : List String) (name : String)
    (opt : option) (h : level.findShort stack name = .ok opt) : opt.Matched = name := by
  rcases findShort_spec level stack name with ⟨d, _, _, hok⟩ | ⟨_, herr⟩
  · rw [hok] at h
    cases h
    rfl
  · rw [herr] at h
    cases h

theorem enable_short (opt : option) (ch : Char) (mem : Storage)
    (h : opt.Matched = String.mk [ch]) :
    opt.enable mem = ⟨mem.fields.set opt.Value (.one (.bool true)), mem.touched⟩ := by
  have hp : ("no-".data.isPrefixOf (String.mk [ch]).data) = false := by
    have hlit : "no-".data = ['n', 'o', '-'] := rfl
    rw [hlit]
    simp [List.isPrefixOf]
  simp only [option.enable, h, hp, Bool.not_false]

theorem enableRun_true (c : context) (stack : List String) (run : List Char)
    (mem : Storage) (i : Nat) (h : mem.fields[i]? = some (.one (.bool true))) :
    (enableRun c stack run mem).fields[i]? = some (.one (.bool true)) := by
  induction run generalizing mem with
  | nil => exact h
  | cons ch rest ih =>
    simp only [enableRun]
    cases hf : c.findShort stack (String.mk [ch]) with
    | error e => exact h
    | ok opt =>
      simp only
      apply ih
      rw [enable_short opt ch mem (findShort_matched c stack _ opt hf)]
      simp only
      by_cases hi : opt.Value = i
      · subst hi
        have hlt : opt.Value < mem.fields.length := by
          by_contra hge
          rw [List.getElem?_eq_none (Nat.le_of_not_lt hge)] at h
          cases h
        exact List.getElem?_set_self hlt
      · rw [List.getElem?_set_ne hi]
        exact h

theorem enableRun_flags (c : context) (stack : List String) (run : List Char)
    (mem : Storage) (hall : allBool c stack run) (ch : Char) (hch : ch ∈ run)
    (opt : option) (hf : c.findShort stack (String.mk [ch]) = .ok opt)
    (hlt : opt.Value < mem.fields.length) :
    (enableRun c stack run mem).fields[opt.Value]? = some (.one (.bool true)) := by
  induction run generalizing mem with
  | nil => cases hch
  | cons y rest ih =>
    obtain ⟨oy, hfy, _⟩ := hall y (List.mem_cons_self _ _)
    have hrest : allBool c stack rest := fun x hx => hall x (List.mem_cons_of_mem _ hx)
    have hen := enable_short oy y mem (findShort_matched c stack _ oy hfy)
    simp only [enableRun, hfy]
    rcases List.mem_cons.1 hch with hy | hy
    · subst hy
      rw [hf] at hfy
      cases hfy
      apply enableRun_true
      rw [hen]
      exact List.getElem?_set_self hlt
    · apply ih _ hrest hy
      rw [hen]
      simpa using hlt

theorem classify_run (run : List Char) (h0 : run ≠ []) (h1 : run.head? ≠ some '-') :
    classify (String.mk ('-' :: run)) = .short run := by
  rcases run with _ | ⟨x, rest⟩
  · exact (h0 rfl).elim
  · have hx : x ≠ '-' := by
      intro hx
      exact h1 (by simp [hx])
    have hne : (String.mk ('-' :: x :: rest)) ≠ "--" := by
      intro h
      have hd := congrArg String.data h
      have hlit : "--".data = ['-', '-'] := rfl
      rw [hlit] at hd
      simp only [List.cons.injEq, true_and] at hd
      exact hx hd.1
    simp [classify, String.length, hne, hx]

/-! ## The claims -/

/-- C1: for every schema that builds and validates, `ParseArgs` on the empty
token list returns the empty command path, an empty leftover list and no
error, and leaves every bound field at its caller-supplied value. -/
theorem ParseArgs_no_tokens (thing : GoType) (c : context) (fields : List Value)
    (hb : reflectOnIt thing = .ok c) (hv : validate c = .ok ()) :
    ParseArgs thing [] fields = ⟨"", [], none, ⟨fields, []⟩⟩ := by
  simp only [ParseArgs, hb, hv, loop, Frame.init, Exit.result]
  rfl

/-- C1, at the structure of the "Sub-commands" tests. -/
theorem ParseArgs_no_tokens_witness :
    reflectOnIt subcommands = .ok subcommandsSchema ∧
    validate subcommandsSchema = .ok () ∧
    ParseArgs subcommands [] subcommandsZero = ⟨"", [], none, ⟨subcommandsZero, []⟩⟩ :=
  ⟨rfl, rfl, ParseArgs_no_tokens subcommands subcommandsSchema subcommandsZero rfl rfl⟩

/-- C2 (as stated, refuted): in `["--", "--", "x"]`, seen as
`pre ++ ["--"] ++ rest` with `pre = ["--"]`, the scan of `pre` succeeds and no
option value is involved, yet the leftover is `["--", "x"]` and not
`(leftover of pre) ++ rest = ["x"]`: the second `--` is itself in leftover. -/
theorem dashes_after_dashes_are_leftover :
    (ParseArgs aliasing ["--"] aliasingZero).err = none ∧
    (ParseArgs aliasing ["--"] aliasingZero).remnants = [] ∧
    (ParseArgs aliasing (["--"] ++ "--" :: ["x"]) aliasingZero).remnants = ["--", "x"] ∧
    (ParseArgs aliasing (["--"] ++ "--" :: ["x"]) aliasingZero).remnants
      ≠ (ParseArgs aliasing ["--"] aliasingZero).remnants ++ ["x"] := by
  decide

/-- C2 (amended): for every valid schema and every token list
`pre ++ ["--"] ++ rest` in which the scan of `pre` alone reaches the end of
`pre` without error (so `pre` holds no earlier `--` met as a token, and the
`--` after it is not consumed as an option value), `ParseArgs` succeeds with
the command path and bound storage that scanning `pre` alone produces, and
with leftover `(leftover of pre) ++ rest`. -/
theorem ParseArgs_dashes (thing : GoType) (c : context) (fields : List Value)
    (pre rest : List String) (g : Frame)
    (hb : reflectOnIt thing = .ok c) (hv : validate c = .ok ())
    (hpre : loop c pre (Frame.init c fields) = .done g) :
    (ParseArgs thing pre fields).err = none ∧
    ParseArgs thing (pre ++ "--" :: rest) fields =
      ⟨(ParseArgs thing pre fields).command,
       (ParseArgs thing pre fields).remnants ++ rest, none,
       (ParseArgs thing pre fields).mem⟩ := by
  have happ := loop_append c pre ("--" :: rest) _ g hpre
  have hstop : loop c ("--" :: rest) g
      = .stop ⟨g.stack, g.insub, g.level, g.remnants ++ rest, g.mem⟩ := by
    rw [loop_cons]
    rfl
  refine ⟨?_, ?_⟩
  · simp only [ParseArgs, hb, hv, hpre, Exit.result]
  · simp only [ParseArgs, hb, hv, hpre, happ, hstop, Exit.result]

/-- C2 (amended), at `-v --target dev -- hosts --help` of the test "Stops
processing all arguments after the first `--`". -/
theorem ParseArgs_dashes_witness :
    ParseArgs subcommands (["-v", "--target", "dev"] ++ "--" :: ["hosts", "--help"])
        subcommandsZero =
      ⟨(ParseArgs subcommands ["-v", "--target", "dev"] subcommandsZero).command,
       (ParseArgs subcommands ["-v", "--target", "dev"] subcommandsZero).remnants
         ++ ["hosts", "--help"], none,
       (ParseArgs subcommands ["-v", "--target", "dev"] subcommandsZero).mem⟩ ∧
    (ParseArgs subcommands ["-v", "--target", "dev", "--", "hosts", "--help"]
        subcommandsZero).remnants = ["hosts", "--help"] :=
  ⟨(ParseArgs_dashes subcommands subcommandsSchema subcommandsZero
      ["-v", "--target", "dev"] ["hosts", "--help"]
      ⟨[], true, subcommandsSchema, [],
        ⟨[.one (.bool false), .one (.bool true), .one (.str "dev"), .one (.bool false),
          .one (.str ""), .one (.bool false)], []⟩⟩
      rfl rfl rfl).2, by decide⟩

/-- C3 (the code at the failing input): with the command declared as
`list, ls`, whose canonical name is `list`, the tokens `ls --all` are accepted
and the command path returned is the alias typed, `ls`, not `list`. -/
theorem alias_typed_is_returned :
    reflectOnIt aliasing = .ok aliasingSchema ∧
    aliasingSchema.sub "ls" = some aliasingList ∧
    aliasingList.Command = "list" ∧
    ParseArgs aliasing ["ls", "--all"] aliasingZero =
      ⟨"ls", [], none, ⟨[.one (.bool false), .one (.bool true)], []⟩⟩ ∧
    (ParseArgs aliasing ["ls", "--all"] aliasingZero).command ≠ "list" :=
  ⟨rfl, rfl, rfl, by decide, by decide⟩

/-- C4: for every valid schema and token list made of segments `o1 c1 ... on cn`
(each `oi` option tokens with their values, `c1` naming a child of the root
and each later `ci` a child of the command reached before it), followed by
more option tokens and then by nothing, or by a token that ends the descent
(an empty token, `--`, or a non-option that names no child of the command
reached), `ParseArgs`, when the scan does not fail, has descended `n` levels
(its stack is `c1..cn` and its level the one they lead to) and returns the
command path `c1..cn` joined by single spaces. -/
theorem ParseArgs_descends (thing : GoType) (c : context) (fields : List Value)
    (segs : List (List String × String)) (opts rest : List String) (g : Frame)
    (mem1 : Storage)
    (hb : reflectOnIt thing = .ok c) (hv : validate c = .ok ())
    (hd : Descent c segs (Frame.init c fields) g)
    (ho : loop c opts g = .done ⟨g.stack, true, g.level, g.remnants, mem1⟩)
    (hrest : rest = [] ∨ ∃ t rest1, rest = t :: rest1 ∧
      (classify t = .empty ∨ classify t = .dashes ∨
        (classify t = .word ∧ g.level.sub t = none)))
    (hok : (ParseArgs thing (segmentTokens segs ++ opts ++ rest) fields).err = none) :
    (ParseArgs thing (segmentTokens segs ++ opts ++ rest) fields).command
        = String.intercalate " " (segs.map Prod.snd) ∧
      loop c (segmentTokens segs ++ opts ++ rest) (Frame.init c fields)
        = loop c rest ⟨segs.map Prod.snd, true, g.level, [], mem1⟩ ∧
      c.walk (segs.map Prod.snd) = some g.level := by
  obtain ⟨hl, hstack, hrem, hwalk⟩ := descent_loop c segs _ g hd
  have hstack1 : g.stack = segs.map Prod.snd := by simpa [Frame.init] using hstack
  have hrem1 : g.remnants = [] := by simpa [Frame.init] using hrem
  have hloop : loop c (segmentTokens segs ++ opts ++ rest) (Frame.init c fields)
      = loop c rest ⟨segs.map Prod.snd, true, g.level, [], mem1⟩ := by
    rw [List.append_assoc, loop_append c _ _ _ g hl, loop_append c opts rest g _ ho,
      hstack1, hrem1]
  have hlevel : c.walk (segs.map Prod.snd) = some g.level := by
    have := hwalk c rfl
    rwa [hstack1] at this
  refine ⟨?_, hloop, hlevel⟩
  simp only [ParseArgs, hb, hv, hloop] at hok ⊢
  have off : ∀ (args : List String) (r : List String),
      (loop c args ⟨segs.map Prod.snd, false, g.level, r, mem1⟩).result.err = none →
      (loop c args ⟨segs.map Prod.snd, false, g.level, r, mem1⟩).result.command
        = String.intercalate " " (segs.map Prod.snd) := by
    intro args r hnone
    cases hx : loop c args ⟨segs.map Prod.snd, false, g.level, r, mem1⟩ with
    | fail e rem m => simp [hx, Exit.result] at hnone
    | stop x =>
      have := loop_seeking_off c args _ x rfl (Or.inr hx)
      simp only [Exit.result, this.2.1]
    | done x =>
      have := loop_seeking_off c args _ x rfl (Or.inl hx)
      simp only [Exit.result, this.2.1]
  rcases hrest with h | ⟨t, rest1, h, ht⟩
  · subst h
    simp only [loop, Exit.result]
  · subst h
    rcases ht with ht | ht | ⟨ht, hsub⟩
    · rw [loop_empty c t rest1 _ ht] at hok ⊢
      exact off rest1 _ hok
    · rw [loop_dashes c t rest1 _ ht]
      simp only [Exit.result]
    · rw [loop_word c t rest1 _ ht] at hok ⊢
      simp only [stepWord, hsub, if_true] at hok ⊢
      exact off rest1 _ hok

/-- C4, at `-v users --target prod list x`: two levels down, with options
before and between the command names. -/
theorem ParseArgs_descends_witness :
    (ParseArgs subcommands
        (segmentTokens [(["-v"], "users"), (["--target", "prod"], "list")] ++ [] ++ ["x"])
        subcommandsZero).command = "users list" ∧
    (ParseArgs subcommands ["-v", "users", "--target", "prod", "list", "x"]
        subcommandsZero).command = "users list" :=
  ⟨(ParseArgs_descends subcommands subcommandsSchema subcommandsZero
      [(["-v"], "users"), (["--target", "prod"], "list")] [] ["x"]
      ⟨["users", "list"], true, .mk "list" [] [], [],
        ⟨[.one (.bool false), .one (.bool true), .one (.str "prod"), .one (.bool false),
          .one (.str ""), .one (.bool false)], []⟩⟩
      ⟨[.one (.bool false), .one (.bool true), .one (.str "prod"), .one (.bool false),
          .one (.str ""), .one (.bool false)], []⟩
      rfl rfl
      (Descent.down ["-v"] "users" _ _ _
        ⟨[.one (.bool false), .one (.bool true), .one (.str ""), .one (.bool false),
          .one (.str ""), .one (.bool false)], []⟩
        subcommandsUsers rfl rfl rfl
        (Descent.down ["--target", "prod"] "list" _ _ _
          ⟨[.one (.bool false), .one (.bool true), .one (.str "prod"), .one (.bool false),
            .one (.str ""), .one (.bool false)], []⟩
          (.mk "list" [] []) rfl rfl rfl (Descent.here _)))
      rfl (Or.inr ⟨"x", [], rfl, Or.inr (Or.inr ⟨rfl, rfl⟩)⟩) (by decide)).1,
   by decide⟩

/-- C5: once the scan meets a non-option token `t` that names no child of the
current command, command seeking is off for the rest of the scan: `t` is
appended to leftover and the loop goes on with `insub` false; every later
non-option `u` that the scan meets is appended to leftover in its turn, also
when `u` names a sub-command of the current command; and when the scan ends
without error the command path is the one reached before `t`, and leftover
begins with what it was before `t`, followed by `t`. -/
theorem seeking_off_after_word (thing : GoType) (c : context) (fields : List Value)
    (a b : List String) (t : String) (g : Frame)
    (hb : reflectOnIt thing = .ok c) (hv : validate c = .ok ())
    (ha : loop c a (Frame.init c fields) = .done g)
    (ht : classify t = .word) (hnone : g.level.sub t = none) :
    ParseArgs thing (a ++ t :: b) fields
        = (loop c b ⟨g.stack, false, g.level, g.remnants ++ [t], g.mem⟩).result ∧
      (∀ (b1 b2 : List String) (u : String) (h : Frame), b = b1 ++ u :: b2 →
        loop c b1 ⟨g.stack, false, g.level, g.remnants ++ [t], g.mem⟩ = .done h →
        classify u = .word →
        loop c b ⟨g.stack, false, g.level, g.remnants ++ [t], g.mem⟩
            = loop c b2 ⟨g.stack, false, g.level, h.remnants ++ [u], h.mem⟩ ∧
          (g.remnants ++ [t]) <+: h.remnants) ∧
      ((ParseArgs thing (a ++ t :: b) fields).err = none →
        (ParseArgs thing (a ++ t :: b) fields).command = String.intercalate " " g.stack ∧
          (g.remnants ++ [t]) <+: (ParseArgs thing (a ++ t :: b) fields).remnants) := by
  have hstep : stepWord t g = ⟨g.stack, false, g.level, g.remnants ++ [t], g.mem⟩ := by
    cases hi : g.insub <;> simp [stepWord, hi, hnone]
  have hloop : loop c (a ++ t :: b) (Frame.init c fields)
      = loop c b ⟨g.stack, false, g.level, g.remnants ++ [t], g.mem⟩ := by
    rw [loop_append c a _ _ g ha, loop_word c t b g ht, hstep]
  have hpa : ParseArgs thing (a ++ t :: b) fields
      = (loop c b ⟨g.stack, false, g.level, g.remnants ++ [t], g.mem⟩).result := by
    simp only [ParseArgs, hb, hv, hloop]
  refine ⟨hpa, ?_, ?_⟩
  · intro b1 b2 u h hsplit hb1 hu
    have hoff := loop_seeking_off c b1 _ h rfl (Or.inl hb1)
    refine ⟨?_, hoff.2.2.2⟩
    rw [hsplit, loop_append c b1 _ _ h hb1, loop_word c u b2 h hu,
      stepWord_seeking_off u h hoff.1, hoff.2.1, hoff.2.2.1]
  · intro hok
    rw [hpa] at hok ⊢
    cases hx : loop c b ⟨g.stack, false, g.level, g.remnants ++ [t], g.mem⟩ with
    | fail e rem m => simp [hx, Exit.result] at hok
    | stop x =>
      have hoff := loop_seeking_off c b _ x rfl (Or.inr hx)
      simp only [Exit.result, hoff.2.1]
      exact ⟨trivial, hoff.2.2.2⟩
    | done x =>
      have hoff := loop_seeking_off c b _ x rfl (Or.inl hx)
      simp only [Exit.result, hoff.2.1]
      exact ⟨trivial, hoff.2.2.2⟩

/-- C5, at `-v foo hosts -h`: `foo` names no command, so `hosts` is leftover. -/
theorem seeking_off_after_word_witness :
    (ParseArgs subcommands (["-v"] ++ "foo" :: ["hosts", "-h"]) subcommandsZero).command = "" ∧
    ["foo"] <+: (ParseArgs subcommands (["-v"] ++ "foo" :: ["hosts", "-h"])
      subcommandsZero).remnants ∧
    (ParseArgs subcommands ["-v", "foo", "hosts", "-h"] subcommandsZero).remnants
      = ["foo", "hosts"] :=
  ⟨((seeking_off_after_word subcommands subcommandsSchema subcommandsZero
      ["-v"] ["hosts", "-h"] "foo"
      ⟨[], true, subcommandsSchema, [],
        ⟨[.one (.bool false), .one (.bool true), .one (.str ""), .one (.bool false),
          .one (.str ""), .one (.bool false)], []⟩⟩
      rfl rfl rfl rfl rfl).2.2 (by decide)).1,
   ((seeking_off_after_word subcommands subcommandsSchema subcommandsZero
      ["-v"] ["hosts", "-h"] "foo"
      ⟨[], true, subcommandsSchema, [],
        ⟨[.one (.bool false), .one (.bool true), .one (.str ""), .one (.bool false),
          .one (.str ""), .one (.bool false)], []⟩⟩
      rfl rfl rfl rfl rfl).2.2 (by decide)).2,
   by decide⟩

theorem loop_long_bool (c : context) (arg name : String) (args : List String) (f : Frame)
    (opt : option) (h : classify arg = .long name)
    (hf : c.findLong f.stack name = .ok opt) (hk : opt.Kind = Kind.Bool) :
    loop c (arg :: args) f
      = loop c args ⟨f.stack, f.insub, f.level, f.remnants, opt.enable f.mem⟩ := by
  rw [loop_cons]
  simp only [step, h, stepLong, hf, hk, if_true]

theorem loop_long_value (c : context) (arg name v : String) (args : List String)
    (f : Frame) (opt : option) (m : Storage) (h : classify arg = .long name)
    (hf : c.findLong f.stack name = .ok opt) (hk : opt.Kind ≠ Kind.Bool)
    (hs : opt.set v f.mem = .ok m) :
    loop c (arg :: v :: args) f
      = loop c args ⟨f.stack, f.insub, f.level, f.remnants, m⟩ := by
  rw [loop_cons]
  simp only [step, h, stepLong, hf, hk, if_false, hs, List.tail]

theorem loop_short (c : context) (arg : String) (run : List Char) (args : List String)
    (f : Frame) (m : Storage) (k : Bool) (h : classify arg = .short run)
    (hr : shortRun c f.stack args.head? run f.mem = .done m k) :
    loop c (arg :: args) f
      = loop c (if k then args.tail else args)
          ⟨f.stack, f.insub, f.level, f.remnants, m⟩ := by
  rw [loop_cons]
  simp only [step, h, stepShort, hr]
  cases k <;> rfl

theorem loop_short_fail (c : context) (arg : String) (run : List Char)
    (args : List String) (f : Frame) (m : Storage) (e : String)
    (h : classify arg = .short run)
    (hr : shortRun c f.stack args.head? run f.mem = .fail e m) :
    loop c (arg :: args) f = .fail e f.remnants m := by
  rw [loop_cons]
  simp only [step, h, stepShort, hr]

/-- C6: an empty-string token that the scan meets is no error: it is appended
to leftover and turns command seeking off for good, so a following non-option
is put in leftover even if it names a sub-command, while the option tokens
after it are applied as before (a boolean long option is enabled, a long
option with a value is set from the next token, a short run is processed). -/
theorem empty_token_stops_seeking (thing : GoType) (c : context) (fields : List Value)
    (a b : List String) (g : Frame)
    (hb : reflectOnIt thing = .ok c) (hv : validate c = .ok ())
    (ha : loop c a (Frame.init c fields) = .done g) :
    ParseArgs thing (a ++ "" :: b) fields
        = (loop c b ⟨g.stack, false, g.level, g.remnants ++ [""], g.mem⟩).result ∧
      ParseArgs thing (a ++ [""]) fields
        = ⟨String.intercalate " " g.stack, g.remnants ++ [""], none, g.mem⟩ ∧
      (∀ (u : String) (b1 : List String), classify u = .word →
        loop c (u :: b1) ⟨g.stack, false, g.level, g.remnants ++ [""], g.mem⟩
          = loop c b1 ⟨g.stack, false, g.level, g.remnants ++ [""] ++ [u], g.mem⟩) ∧
      (∀ x : Frame,
        loop c b ⟨g.stack, false, g.level, g.remnants ++ [""], g.mem⟩ = .done x ∨
          loop c b ⟨g.stack, false, g.level, g.remnants ++ [""], g.mem⟩ = .stop x →
        x.insub = false ∧ x.stack = g.stack ∧ (g.remnants ++ [""]) <+: x.remnants) ∧
      (∀ (o name : String) (b1 : List String) (opt : option),
        classify o = .long name → c.findLong g.stack name = .ok opt →
        opt.Kind = Kind.Bool →
        loop c (o :: b1) ⟨g.stack, false, g.level, g.remnants ++ [""], g.mem⟩
          = loop c b1 ⟨g.stack, false, g.level, g.remnants ++ [""], opt.enable g.mem⟩) ∧
      (∀ (o name v : String) (b1 : List String) (opt : option) (m : Storage),
        classify o = .long name → c.findLong g.stack name = .ok opt →
        opt.Kind ≠ Kind.Bool → opt.set v g.mem = .ok m →
        loop c (o :: v :: b1) ⟨g.stack, false, g.level, g.remnants ++ [""], g.mem⟩
          = loop c b1 ⟨g.stack, false, g.level, g.remnants ++ [""], m⟩) ∧
      (∀ (o : String) (run : List Char) (b1 : List String) (m : Storage) (k : Bool),
        classify o = .short run →
        shortRun c g.stack b1.head? run g.mem = .done m k →
        loop c (o :: b1) ⟨g.stack, false, g.level, g.remnants ++ [""], g.mem⟩
          = loop c (if k then b1.tail else b1)
              ⟨g.stack, false, g.level, g.remnants ++ [""], m⟩) := by
  have hloop : ∀ rest, loop c (a ++ "" :: rest) (Frame.init c fields)
      = loop c rest ⟨g.stack, false, g.level, g.remnants ++ [""], g.mem⟩ := by
    intro rest
    rw [loop_append c a _ _ g ha, loop_empty c "" rest g rfl]
  refine ⟨?_, ?_, ?_, ?_, ?_, ?_, ?_⟩
  · simp only [ParseArgs, hb, hv, hloop]
  · simp only [ParseArgs, hb, hv, hloop, loop, Exit.result]
  · intro u b1 hu
    rw [loop_word c u b1 _ hu, stepWord_seeking_off u _ rfl]
  · intro x hx
    have hoff := loop_seeking_off c b _ x rfl hx
    exact ⟨hoff.1, hoff.2.1, hoff.2.2.2⟩
  · intro o name b1 opt ho hf hk
    exact loop_long_bool c o name b1 _ opt ho hf hk
  · intro o name v b1 opt m ho hf hk hs
    exact loop_long_value c o name v b1 _ opt m ho hf hk hs
  · intro o run b1 m k ho hr
    exact loop_short c o run b1 _ m k ho hr

/-- C6, at `-v --target prod "" hosts --help` of the test "Stops processing
sub-commands after an empty argument". -/
theorem empty_token_stops_seeking_witness :
    ParseArgs subcommands (["-v", "--target", "prod"] ++ "" :: ["hosts", "--help"])
        subcommandsZero
      = ⟨"", ["", "hosts"], none,
          ⟨[.one (.bool true), .one (.bool true), .one (.str "prod"), .one (.bool false),
            .one (.str ""), .one (.bool false)], []⟩⟩ :=
  (empty_token_stops_seeking subcommands subcommandsSchema subcommandsZero
      ["-v", "--target", "prod"] ["hosts", "--help"]
      ⟨[], true, subcommandsSchema, [],
        ⟨[.one (.bool false), .one (.bool true), .one (.str "prod"), .one (.bool false),
          .one (.str ""), .one (.bool false)], []⟩⟩
      rfl rfl rfl).1.trans (by decide)

/-- C8: for every valid schema, when the scan meets a long token `--name` whose
name no level on the current path declares, `ParseArgs` returns the error
"unrecognized option" followed by the token as typed; and when in a short run
it reaches (after boolean flags only) a character `x` that no level on the
path declares as a short alias, it returns "unrecognized option" followed by
`-x`.  The frame `g` is any frame the scan reaches, at the root or inside a
sub-command. -/
theorem unrecognized_option_error (thing : GoType) (c : context) (fields : List Value)
    (a b : List String) (g : Frame)
    (hb : reflectOnIt thing = .ok c) (hv : validate c = .ok ())
    (ha : loop c a (Frame.init c fields) = .done g) :
    (∀ o name : String, classify o = .long name →
      (∀ d ∈ c.visible g.stack, name ∉ d.Longs) →
      ParseArgs thing (a ++ o :: b) fields
        = ⟨"", g.remnants, some ("unrecognized option `" ++ o ++ "`"), g.mem⟩) ∧
    (∀ (o : String) (run pre post : List Char) (x : Char), classify o = .short run →
      run = pre ++ x :: post → allBool c g.stack pre →
      (∀ d ∈ c.visible g.stack, String.mk [x] ∉ d.Shorts) →
      ParseArgs thing (a ++ o :: b) fields
        = ⟨"", g.remnants, some ("unrecognized option `-" ++ String.mk [x] ++ "`"),
            enableRun c g.stack pre g.mem⟩) := by
  refine ⟨?_, ?_⟩
  · intro o name ho hno
    have herr : c.findLong g.stack name
        = .error ("unrecognized option `--" ++ name ++ "`") := by
      rcases findLong_spec c g.stack name with ⟨d, hd, hn, _⟩ | ⟨_, herr⟩
      · exact (hno d hd hn).elim
      · exact herr
    have hmsg : "unrecognized option `--" ++ name = "unrecognized option `" ++ o := by
      rw [classify_long o name ho]
      apply String.ext
      simp only [String.data_append]
      rfl
    simp only [ParseArgs, hb, hv, loop_append c a _ _ g ha,
      loop_long_unknown c o name _ b g ho herr, Exit.result, hmsg]
  · intro o run pre post x ho hrun hpre hno
    have herr : c.findShort g.stack (String.mk [x])
        = .error ("unrecognized option `-" ++ String.mk [x] ++ "`") := by
      rcases findShort_spec c g.stack (String.mk [x]) with ⟨d, hd, hn, _⟩ | ⟨_, herr⟩
      · exact (hno d hd hn).elim
      · exact herr
    have hr : shortRun c g.stack b.head? run g.mem
        = .fail ("unrecognized option `-" ++ String.mk [x] ++ "`")
            (enableRun c g.stack pre g.mem) := by
      rw [hrun, shortRun_bools c g.stack _ pre _ g.mem hpre]
      exact shortRun_unknown c g.stack _ x post _ _ herr
    simp only [ParseArgs, hb, hv, loop_append c a _ _ g ha,
      loop_short_fail c o run b g _ _ ho hr, Exit.result]

/-- C8, at the "Sub-commands" structure: `--exclude` at the root and `-x`
inside the sub-command `hosts`. -/
theorem unrecognized_option_error_witness :
    ParseArgs subcommands (["-v"] ++ "--exclude" :: ["whatever"]) subcommandsZero
      = ⟨"", [], some "unrecognized option `--exclude`",
          ⟨[.one (.bool false), .one (.bool true), .one (.str ""), .one (.bool false),
            .one (.str ""), .one (.bool false)], []⟩⟩ ∧
    ParseArgs subcommands (["-v", "hosts", "-H", "test"] ++ "-Rx" :: []) subcommandsZero
      = ⟨"", [], some "unrecognized option `-x`",
          ⟨[.one (.bool false), .one (.bool true), .one (.str ""), .one (.bool true),
            .one (.str "test"), .one (.bool false)], []⟩⟩ :=
  ⟨(unrecognized_option_error subcommands subcommandsSchema subcommandsZero
      ["-v"] ["whatever"]
      ⟨[], true, subcommandsSchema, [],
        ⟨[.one (.bool false), .one (.bool true), .one (.str ""), .one (.bool false),
          .one (.str ""), .one (.bool false)], []⟩⟩
      rfl rfl rfl).1 "--exclude" "exclude" rfl (by decide),
   (unrecognized_option_error subcommands subcommandsSchema subcommandsZero
      ["-v", "hosts", "-H", "test"] []
      ⟨["hosts"], true, subcommandsHosts, [],
        ⟨[.one (.bool false), .one (.bool true), .one (.str ""), .one (.bool false),
          .one (.str "test"), .one (.bool false)], []⟩⟩
      rfl rfl rfl).2 "-Rx" ['R', 'x'] ['R'] [] 'x' rfl rfl
      (by
        intro ch hch
        simp only [List.mem_singleton] at hch
        subst hch
        exact ⟨⟨.Bool, ["R"], ["raw"], 3, "R"⟩, rfl, rfl⟩)
      (by decide)⟩

/-- C9: `ParseArgs` returns the "missing required value" error naming the
flag exactly when the last token is a non-boolean option that needs the next
token as its value: a non-boolean long option (the message names the token
`--name`), or a short run whose last character `x` is a non-boolean flag (the
message names `-x`).  A boolean long option, or a run of boolean flags, as
last token gives no error. -/
theorem missing_value_error (thing : GoType) (c : context) (fields : List Value)
    (hb : reflectOnIt thing = .ok c) (hv : validate c = .ok ()) :
    (∀ (a : List String) (o e : String) (g : Frame),
      loop c a (Frame.init c fields) = .done g → LacksValue c g o e →
      (ParseArgs thing (a ++ [o]) fields).err = some e ∧ isMissingValue e ∧
        (ParseArgs thing (a ++ [o]) fields).command = "" ∧
        (ParseArgs thing (a ++ [o]) fields).remnants = g.remnants) ∧
    (∀ (args : List String) (e : String),
      (ParseArgs thing args fields).err = some e → isMissingValue e →
      ∃ a o g, args = a ++ [o] ∧ loop c a (Frame.init c fields) = .done g ∧
        LacksValue c g o e) ∧
    (∀ (a : List String) (o name : String) (opt : option) (g : Frame),
      loop c a (Frame.init c fields) = .done g → classify o = .long name →
      c.findLong g.stack name = .ok opt → opt.Kind = Kind.Bool →
      (ParseArgs thing (a ++ [o]) fields).err = none) ∧
    (∀ (a : List String) (o : String) (run : List Char) (g : Frame),
      loop c a (Frame.init c fields) = .done g → classify o = .short run →
      allBool c g.stack run →
      (ParseArgs thing (a ++ [o]) fields).err = none) := by
  refine ⟨?_, ?_, ?_, ?_⟩
  · intro a o e g ha hl
    rcases hl with ⟨name, opt, ho, hf, hk, he⟩ | ⟨run, pre, x, opt, ho, hrun, hall, hf, hk, he⟩
    · subst he
      simp only [ParseArgs, hb, hv, loop_append c a _ _ g ha,
        loop_long_missing c o name g opt ho hf hk, Exit.result]
      exact ⟨trivial, isMissingValue_long o, trivial, trivial⟩
    · have hr : shortRun c g.stack ([] : List String).head? run g.mem
          = .fail e (enableRun c g.stack pre g.mem) := by
        rw [hrun, shortRun_bools c g.stack _ pre [x] g.mem hall]
        simp only [shortRun, hf, hk, if_false, List.length_nil, gt_iff_lt, lt_self_iff_false,
          List.head?, he]
      simp only [ParseArgs, hb, hv, loop_append c a _ _ g ha,
        loop_short_fail c o run [] g _ _ ho hr, Exit.result]
      refine ⟨trivial, ?_, trivial, trivial⟩
      rw [he]
      exact isMissingValue_short x
  · intro args e herr hm
    simp only [ParseArgs, hb, hv] at herr
    cases hx : loop c args (Frame.init c fields) with
    | fail e1 r m =>
      simp only [hx, Exit.result, Option.some.injEq] at herr
      subst herr
      exact loop_fail_missing c args _ e1 r m hx hm
    | stop x => simp [hx, Exit.result] at herr
    | done x => simp [hx, Exit.result] at herr
  · intro a o name opt g ha ho hf hk
    simp only [ParseArgs, hb, hv, loop_append c a _ _ g ha,
      loop_long_bool c o name [] g opt ho hf hk, loop, Exit.result]
  · intro a o run g ha ho hall
    have hr := shortRun_all_bool c g.stack ([] : List String).head? run g.mem hall
    simp only [ParseArgs, hb, hv, loop_append c a _ _ g ha,
      loop_short c o run [] g _ _ ho hr]
    simp only [Bool.false_eq_true, if_false, loop, Exit.result]

/-- C9, at the "Simple String Flags" structure: `--long` and `-s` as last
token; and at the boolean one, `--long` as last token. -/
theorem missing_value_error_witness :
    (ParseArgs stringFlags ([] ++ ["--long"]) stringFlagsZero).err
      = some "missing required value for `--long` flag" ∧
    (ParseArgs stringFlags (["--long", "x"] ++ ["-s"]) stringFlagsZero).err
      = some "missing required value for `-s` flag" ∧
    (ParseArgs boolFlags (["-s"] ++ ["--long"]) boolFlagsZero).err = none :=
  ⟨((missing_value_error stringFlags stringFlagsSchema stringFlagsZero rfl rfl).1
      [] "--long" "missing required value for `--long` flag"
      (Frame.init stringFlagsSchema stringFlagsZero) rfl
      (Or.inl ⟨"long", ⟨.String, [], ["long"], 1, "long"⟩, rfl, rfl, by decide, rfl⟩)).1,
   ((missing_value_error stringFlags stringFlagsSchema stringFlagsZero rfl rfl).1
      ["--long", "x"] "-s" "missing required value for `-s` flag"
      ⟨[], true, stringFlagsSchema, [],
        ⟨[.one (.str ""), .one (.str "x"), .one (.str "")], []⟩⟩ rfl
      (Or.inr ⟨['s'], [], 's', ⟨.String, ["s"], [], 0, "s"⟩, rfl, rfl,
        (fun _ h => nomatch h), rfl, by decide, rfl⟩)).1,
   (missing_value_error boolFlags boolFlagsSchema boolFlagsZero rfl rfl).2.2.1
      ["-s"] "--long" "long" ⟨.Bool, [], ["long"], 1, "long"⟩
      ⟨[], true, boolFlagsSchema, [],
        ⟨[.one (.bool true), .one (.bool false), .one (.bool false)], []⟩⟩
      rfl rfl rfl rfl⟩

/-- C10: in a short-option run the characters are resolved from left to
right.  Each boolean flag met is set to true and the run goes on; at the first
non-boolean flag that is not the last character, the whole remainder of the
run is coerced as its value and none of its characters is resolved as a flag.
So a run of boolean flags only sets each of them to true (`-sb`), and
`-sbundled` with a string-typed `-s` sets that field to "bundled". -/
theorem short_run_bundling (c : context) (stack : List String) (nx : Option String)
    (mem : Storage) :
    (∀ (pre rest : List Char) (x : Char) (opt : option), allBool c stack pre →
      c.findShort stack (String.mk [x]) = .ok opt → opt.Kind ≠ Kind.Bool → rest ≠ [] →
      shortRun c stack nx (pre ++ x :: rest) mem =
        match opt.set (String.mk rest) (enableRun c stack pre mem) with
        | .ok m => .done m false
        | .error e => .fail e (enableRun c stack pre mem)) ∧
    (∀ (ch : Char) (rest : List Char) (opt : option),
      c.findShort stack (String.mk [ch]) = .ok opt → opt.Kind = Kind.Bool →
      shortRun c stack nx (ch :: rest) mem
        = shortRun c stack nx rest
            ⟨mem.fields.set opt.Value (.one (.bool true)), mem.touched⟩) ∧
    (∀ run : List Char, allBool c stack run →
      shortRun c stack nx run mem = .done (enableRun c stack run mem) false ∧
        ∀ ch ∈ run, ∀ opt : option, c.findShort stack (String.mk [ch]) = .ok opt →
          opt.Value < mem.fields.length →
          (enableRun c stack run mem).fields[opt.Value]? = some (.one (.bool true))) ∧
    (∀ (o : String) (run : List Char) (args : List String) (f : Frame),
      classify o = .short run →
      loop c (o :: args) f =
        match shortRun c f.stack args.head? run f.mem with
        | .fail e m => .fail e f.remnants m
        | .done m k =>
          loop c (if k then args.tail else args)
            ⟨f.stack, f.insub, f.level, f.remnants, m⟩) ∧
    (∀ run : List Char, run ≠ [] → run.head? ≠ some '-' →
      classify (String.mk ('-' :: run)) = .short run) ∧
    ParseArgs boolFlags ["-sb"] boolFlagsZero
      = ⟨"", [], none,
          ⟨[.one (.bool true), .one (.bool false), .one (.bool true)], []⟩⟩ ∧
    ParseArgs stringFlags ["-sbundled"] stringFlagsZero
      = ⟨"", [], none,
          ⟨[.one (.str "bundled"), .one (.str ""), .one (.str "")], []⟩⟩ := by
  refine ⟨?_, ?_, ?_, ?_, ?_, by decide, by decide⟩
  · intro pre rest x opt hall hf hk hrest
    have hlen : rest.length > 0 := List.length_pos.2 hrest
    rw [shortRun_bools c stack nx pre (x :: rest) mem hall]
    simp only [shortRun, hf, hk, if_false, hlen, if_true]
    cases opt.set (String.mk rest) (enableRun c stack pre mem) <;> rfl
  · intro ch rest opt hf hk
    simp only [shortRun, hf, hk, if_true]
    rw [enable_short opt ch mem (findShort_matched c stack _ opt hf)]
  · intro run hall
    exact ⟨shortRun_all_bool c stack nx run mem hall,
      fun ch hch opt hf hlt => enableRun_flags c stack run mem hall ch hch opt hf hlt⟩
  · intro o run args f ho
    cases hr : shortRun c f.stack args.head? run f.mem with
    | fail e m => exact loop_short_fail c o run args f m e ho hr
    | done m k => exact loop_short c o run args f m k ho hr
  · intro run h0 h1
    exact classify_run run h0 h1

/-- C10, at the "Simple String Flags" structure: in `sbundled` the flag `s`
takes `bundled` as its value. -/
theorem short_run_bundling_witness :
    shortRun stringFlagsSchema [] none ([] ++ 's' :: ['b', 'u', 'n', 'd', 'l', 'e', 'd'])
        ⟨stringFlagsZero, []⟩
      = .done ⟨[.one (.str "bundled"), .one (.str ""), .one (.str "")], []⟩ false :=
  (short_run_bundling stringFlagsSchema [] none ⟨stringFlagsZero, []⟩).1
    [] ['b', 'u', 'n', 'd', 'l', 'e', 'd'] 's' ⟨.String, ["s"], [], 0, "s"⟩
    (fun _ h => nomatch h) rfl (by decide) (by decide)

/-! ## The calls of the scan -/

theorem replay_append (ks1 ks2 : List Call) (mem m : Storage)
    (h : applyAll ks1 mem = .ok m) : replay (ks1 ++ ks2) mem = replay ks2 m := by
  induction ks1 generalizing mem with
  | nil =>
    simp only [applyAll, Except.ok.injEq] at h
    subst h
    rfl
  | cons k ks ih =>
    simp only [applyAll] at h
    cases hk : k.apply mem with
    | error e => simp [hk] at h
    | ok m1 =>
      simp only [hk] at h
      simp only [List.cons_append, replay, hk]
      exact ih m1 h

theorem applyAll_append (ks1 ks2 : List Call) (mem m : Storage)
    (h : applyAll ks1 mem = .ok m) : applyAll (ks1 ++ ks2) mem = applyAll ks2 m := by
  induction ks1 generalizing mem with
  | nil =>
    simp only [applyAll, Except.ok.injEq] at h
    subst h
    rfl
  | cons k ks ih =>
    simp only [applyAll] at h
    cases hk : k.apply mem with
    | error e => simp [hk] at h
    | ok m1 =>
      simp only [hk] at h
      simp only [List.cons_append, applyAll, hk]
      exact ih m1 h

theorem replay_of_applyAll (ks : List Call) (mem m : Storage)
    (h : applyAll ks mem = .ok m) : replay ks mem = m := by
  have := replay_append ks [] mem m h
  simpa [replay] using this

theorem shortRun_calls_done (c : context) (stack : List String) (nx : Option String)
    (run : List Char) (mem m : Storage) (k : Bool)
    (h : shortRun c stack nx run mem = .done m k) :
    applyAll (runCalls c stack nx run) mem = .ok m := by
  induction run generalizing mem with
  | nil =>
    simp only [shortRun, RunEnd.done.injEq] at h
    simp only [runCalls, applyAll, h.1]
  | cons ch rest ih =>
    simp only [shortRun] at h
    simp only [runCalls]
    cases hf : c.findShort stack (String.mk [ch]) with
    | error e => simp [hf] at h
    | ok opt =>
      simp only [hf] at h ⊢
      by_cases hk : opt.Kind = Kind.Bool
      · simp only [hk, if_true] at h ⊢
        simp only [applyAll, Call.apply]
        exact ih _ h
      · simp only [hk, if_false] at h ⊢
        by_cases hr : rest.length > 0
        · simp only [hr, if_true] at h ⊢
          cases hs : opt.set (String.mk rest) mem with
          | error e => simp [hs] at h
          | ok m1 =>
            simp only [hs, RunEnd.done.injEq] at h
            simp only [applyAll, Call.apply, hs, h.1]
        · simp only [hr, if_false] at h ⊢
          cases nx with
          | none => simp at h
          | some v =>
            simp only at h ⊢
            cases hs : opt.set v mem with
            | error e => simp [hs] at h
            | ok m1 =>
              simp only [hs, RunEnd.done.injEq] at h
              simp only [applyAll, Call.apply, hs, h.1]

theorem shortRun_calls_fail (c : context) (stack : List String) (nx : Option String)
    (run : List Char) (mem m : Storage) (e : String)
    (h : shortRun c stack nx run mem = .fail e m) :
    replay (runCalls c stack nx run) mem = m := by
  induction run generalizing mem with
  | nil => simp [shortRun] at h
  | cons ch rest ih =>
    simp only [shortRun] at h
    simp only [runCalls]
    cases hf : c.findShort stack (String.mk [ch]) with
    | error e1 =>
      simp only [hf, RunEnd.fail.injEq] at h
      simp only [replay, h.2]
    | ok opt =>
      simp only [hf] at h ⊢
      by_cases hk : opt.Kind = Kind.Bool
      · simp only [hk, if_true] at h ⊢
        simp only [replay, Call.apply]
        exact ih _ h
      · simp only [hk, if_false] at h ⊢
        by_cases hr : rest.length > 0
        · simp only [hr, if_true] at h ⊢
          cases hs : opt.set (String.mk rest) mem with
          | error e1 =>
            simp only [hs, RunEnd.fail.injEq] at h
            obtain ⟨_, hm⟩ := h
            subst hm
            simp only [replay, Call.apply, hs]
          | ok m1 => simp [hs] at h
        · simp only [hr, if_false] at h ⊢
          cases nx with
          | none =>
            simp only [RunEnd.fail.injEq] at h
            simp only [replay, h.2]
          | some v =>
            simp only at h ⊢
            cases hs : opt.set v mem with
            | error e1 =>
              simp only [hs, RunEnd.fail.injEq] at h
              obtain ⟨_, hm⟩ := h
              subst hm
              simp only [replay, Call.apply, hs]
            | ok m1 => simp [hs] at h

theorem step_calls_next (c : context) (arg : String) (args : List String) (f f1 : Frame)
    (k : Bool) (h : step c arg args f = .next f1 k) :
    applyAll (stepCalls c arg args f) f.mem = .ok f1.mem := by
  unfold step at h
  unfold stepCalls
  cases hc : classify arg with
  | empty =>
    simp only [hc, Step.next.injEq] at h
    simp only [applyAll, ← h.1]
  | dashes => simp [hc] at h
  | word =>
    simp only [hc, Step.next.injEq] at h
    have : (stepWord arg f).mem = f.mem := by
      unfold stepWord
      repeat' split
      all_goals rfl
    simp only [applyAll, ← h.1, this]
  | long name =>
    simp only [hc, stepLong] at h ⊢
    cases hf : c.findLong f.stack name with
    | error e => simp [hf] at h
    | ok opt =>
      simp only [hf] at h ⊢
      by_cases hk : opt.Kind = Kind.Bool
      · simp only [hk, if_true, Step.next.injEq] at h ⊢
        simp only [applyAll, Call.apply, ← h.1]
      · simp only [hk, if_false] at h ⊢
        cases args with
        | nil => simp at h
        | cons v rest =>
          simp only at h ⊢
          cases hs : opt.set v f.mem with
          | error e => simp [hs] at h
          | ok m1 =>
            simp only [hs, Step.next.injEq] at h
            simp only [applyAll, Call.apply, hs, ← h.1]
  | short run =>
    simp only [hc, stepShort] at h ⊢
    cases hr : shortRun c f.stack args.head? run f.mem with
    | fail e m => simp [hr] at h
    | done m k1 =>
      simp only [hr, Step.next.injEq] at h
      rw [← h.1]
      exact shortRun_calls_done c f.stack _ run f.mem m k1 hr

theorem step_calls_fail (c : context) (arg : String) (args : List String) (f : Frame)
    (e : String) (r : List String) (m : Storage)
    (h : step c arg args f = .halt (.fail e r m)) :
    replay (stepCalls c arg args f) f.mem = m ∧ r = f.remnants := by
  unfold step at h
  unfold stepCalls
  cases hc : classify arg with
  | empty => simp [hc] at h
  | dashes => simp [hc] at h
  | word => simp [hc] at h
  | long name =>
    simp only [hc, stepLong] at h ⊢
    cases hf : c.findLong f.stack name with
    | error e1 =>
      simp only [hf, Step.halt.injEq, Exit.fail.injEq] at h
      exact ⟨by simp only [replay, h.2.2], h.2.1.symm⟩
    | ok opt =>
      simp only [hf] at h ⊢
      by_cases hk : opt.Kind = Kind.Bool
      · simp [hk] at h
      · simp only [hk, if_false] at h ⊢
        cases args with
        | nil =>
          simp only [Step.halt.injEq, Exit.fail.injEq] at h
          exact ⟨by simp only [replay, h.2.2], h.2.1.symm⟩
        | cons v rest =>
          simp only at h ⊢
          cases hs : opt.set v f.mem with
          | error e1 =>
            simp only [hs, Step.halt.injEq, Exit.fail.injEq] at h
            obtain ⟨_, hr1, hm⟩ := h
            subst hm
            exact ⟨by simp only [replay, Call.apply, hs], hr1.symm⟩
          | ok m1 => simp [hs] at h
  | short run =>
    simp only [hc, stepShort] at h ⊢
    cases hr : shortRun c f.stack args.head? run f.mem with
    | done m1 k1 => simp [hr] at h
    | fail e1 m1 =>
      simp only [hr, Step.halt.injEq, Exit.fail.injEq] at h
      rw [← h.2.2]
      exact ⟨shortRun_calls_fail c f.stack _ run f.mem m1 e1 hr, h.2.1.symm⟩

theorem step_calls_stop (c : context) (arg : String) (args : List String) (f g : Frame)
    (h : step c arg args f = .halt (.stop g)) :
    stepCalls c arg args f = [] ∧ g.mem = f.mem := by
  obtain ⟨hc, hg⟩ := step_halt_stop c arg args f g h
  subst hg
  simp only [stepCalls, hc, and_self]

/-- The storage in which the loop is left is the one its calls produce, made
in order from the storage in which it was entered. -/
theorem loop_mem (c : context) (args : List String) (f : Frame) :
    (loop c args f).mem = replay (calls c args f) f.mem := by
  induction args using tokens_induction generalizing f with
  | nil => rfl
  | cons arg args ih1 ih2 =>
    rw [loop_cons]
    simp only [calls]
    cases hs : step c arg args f with
    | halt x =>
      simp only [List.append_nil]
      cases x with
      | fail e r m =>
        simp only [Exit.mem]
        exact (step_calls_fail c arg args f e r m hs).1.symm
      | stop g =>
        obtain ⟨h1, h2⟩ := step_calls_stop c arg args f g hs
        simp only [Exit.mem, h1, replay, h2]
      | done g => exact (step_halt_not_done c arg args f g hs).elim
    | next f1 k =>
      have hok := step_calls_next c arg args f f1 k hs
      cases k with
      | false =>
        simp only
        rw [replay_append _ _ f.mem f1.mem hok]
        exact ih1 f1
      | true =>
        obtain ⟨v, rest, hv⟩ := step_shift c arg args f f1 hs
        subst hv
        simp only [List.tail] at ih2 ⊢
        rw [replay_append _ _ f.mem f1.mem hok]
        exact ih2 f1

theorem shortRun_last_value (c : context) (stack : List String) (v : String)
    (pre : List Char) (x : Char) (opt : option) (mem : Storage)
    (hall : allBool c stack pre) (hf : c.findShort stack (String.mk [x]) = .ok opt)
    (hk : opt.Kind ≠ Kind.Bool) :
    shortRun c stack (some v) (pre ++ [x]) mem =
      match opt.set v (enableRun c stack pre mem) with
      | .ok m => .done m true
      | .error e => .fail e (enableRun c stack pre mem) := by
  rw [shortRun_bools c stack _ pre [x] mem hall]
  simp only [shortRun, hf, hk, if_false, List.length_nil, gt_iff_lt, lt_self_iff_false]
  cases opt.set v (enableRun c stack pre mem) <;> rfl

/-- C11: when a non-boolean option takes its value from the following token
`v` (a non-boolean long option, or a short run whose last character is a
non-boolean flag after boolean flags only), `v` is handed to `set` and the
loop resumes at the token after `v` in a frame whose stack, level, `insub`
and remnants are those before the option: whatever `v` looks like, it is not
appended to leftover and not matched as a command name. -/
theorem value_token_consumed (thing : GoType) (c : context) (fields : List Value)
    (a rest : List String) (o v : String) (g : Frame)
    (hb : reflectOnIt thing = .ok c) (hv : validate c = .ok ())
    (ha : loop c a (Frame.init c fields) = .done g) :
    (∀ (name : String) (opt : option), classify o = .long name →
      c.findLong g.stack name = .ok opt → opt.Kind ≠ Kind.Bool →
      ParseArgs thing (a ++ o :: v :: rest) fields =
        match opt.set v g.mem with
        | .ok m => (loop c rest ⟨g.stack, g.insub, g.level, g.remnants, m⟩).result
        | .error e => ⟨"", g.remnants, some e, g.mem⟩) ∧
    (∀ (run pre : List Char) (x : Char) (opt : option), classify o = .short run →
      run = pre ++ [x] → allBool c g.stack pre →
      c.findShort g.stack (String.mk [x]) = .ok opt → opt.Kind ≠ Kind.Bool →
      ParseArgs thing (a ++ o :: v :: rest) fields =
        match opt.set v (enableRun c g.stack pre g.mem) with
        | .ok m => (loop c rest ⟨g.stack, g.insub, g.level, g.remnants, m⟩).result
        | .error e => ⟨"", g.remnants, some e, enableRun c g.stack pre g.mem⟩) := by
  refine ⟨?_, ?_⟩
  · intro name opt ho hf hk
    simp only [ParseArgs, hb, hv, loop_append c a _ _ g ha]
    cases hs : opt.set v g.mem with
    | ok m => rw [loop_long_value c o name v rest g opt m ho hf hk hs]
    | error e =>
      rw [loop_cons]
      simp only [step, ho, stepLong, hf, hk, if_false, hs, Exit.result]
  · intro run pre x opt ho hrun hall hf hk
    have hr := shortRun_last_value c g.stack v pre x opt g.mem hall hf hk
    rw [← hrun] at hr
    simp only [ParseArgs, hb, hv, loop_append c a _ _ g ha]
    cases hs : opt.set v (enableRun c g.stack pre g.mem) with
    | ok m =>
      rw [hs] at hr
      rw [loop_short c o run (v :: rest) g m true ho hr]
      rfl
    | error e =>
      rw [hs] at hr
      rw [loop_short_fail c o run (v :: rest) g _ e ho hr]
      rfl

/-- C11, at the "Sub-commands" structure: in `--target hosts x` the token
`hosts`, although it names a sub-command, is the value of `--target`; and in
`-vt hosts x` it is the value of `-t`. -/
theorem value_token_consumed_witness :
    ParseArgs subcommands ([] ++ "--target" :: "hosts" :: ["x"]) subcommandsZero
      = ⟨"", ["x"], none,
          ⟨[.one (.bool false), .one (.bool false), .one (.str "hosts"), .one (.bool false),
            .one (.str ""), .one (.bool false)], []⟩⟩ ∧
    ParseArgs subcommands ([] ++ "-vt" :: "hosts" :: ["x"]) subcommandsZero
      = ⟨"", ["x"], none,
          ⟨[.one (.bool false), .one (.bool true), .one (.str "hosts"), .one (.bool false),
            .one (.str ""), .one (.bool false)], []⟩⟩ :=
  ⟨((value_token_consumed subcommands subcommandsSchema subcommandsZero [] ["x"]
      "--target" "hosts" (Frame.init subcommandsSchema subcommandsZero) rfl rfl rfl).1
      "target" ⟨.String, ["t"], ["target"], 2, "target"⟩ rfl rfl (by decide)).trans
      (by decide),
   ((value_token_consumed subcommands subcommandsSchema subcommandsZero [] ["x"]
      "-vt" "hosts" (Frame.init subcommandsSchema subcommandsZero) rfl rfl rfl).2
      ['v', 't'] ['v'] 't' ⟨.String, ["t"], ["target"], 2, "t"⟩ rfl rfl
      (by
        intro ch hch
        simp only [List.mem_singleton] at hch
        subst hch
        exact ⟨⟨.Bool, ["v"], ["version"], 1, "v"⟩, rfl, rfl⟩)
      rfl (by decide)).trans (by decide)⟩

theorem findLong_matched (level : context) (stack : List String) (name : String)
    (opt : option) (h : level.findLong stack name = .ok opt) : opt.Matched = name := by
  rcases findLong_spec level stack name with ⟨d, _, _, hok⟩ | ⟨_, herr⟩
  · rw [hok] at h
    cases h
    rfl
  · rw [herr] at h
    cases h

theorem findLong_resolved (c : context) (stack : List String) (name : String)
    (opt : option) (h : c.findLong stack name = .ok opt) : Resolved c opt := by
  rcases findLong_spec c stack name with ⟨d, hd, hn, hok⟩ | ⟨_, herr⟩
  · rw [hok] at h
    cases h
    exact ⟨stack, d, hd, rfl, Or.inl hn⟩
  · rw [herr] at h
    cases h

theorem findShort_resolved (c : context) (stack : List String) (name : String)
    (opt : option) (h : c.findShort stack name = .ok opt) : Resolved c opt := by
  rcases findShort_spec c stack name with ⟨d, hd, hn, hok⟩ | ⟨_, herr⟩
  · rw [hok] at h
    cases h
    exact ⟨stack, d, hd, rfl, Or.inr hn⟩
  · rw [herr] at h
    cases h

theorem runCalls_resolved (c : context) (stack : List String) (nx : Option String)
    (run : List Char) (k : Call) (hk : k ∈ runCalls c stack nx run) :
    Resolved c k.opt := by
  induction run with
  | nil => simp [runCalls] at hk
  | cons ch rest ih =>
    simp only [runCalls] at hk
    cases hf : c.findShort stack (String.mk [ch]) with
    | error e => simp [hf] at hk
    | ok opt =>
      have hres := findShort_resolved c stack _ opt hf
      simp only [hf] at hk
      by_cases hb : opt.Kind = Kind.Bool
      · simp only [hb, if_true, List.mem_cons] at hk
        rcases hk with hk | hk
        · subst hk
          exact hres
        · exact ih hk
      · simp only [hb, if_false] at hk
        by_cases hr : rest.length > 0
        · simp only [hr, if_true, List.mem_singleton] at hk
          subst hk
          exact hres
        · simp only [hr, if_false] at hk
          cases nx with
          | none => simp at hk
          | some v =>
            simp only [List.mem_singleton] at hk
            subst hk
            exact hres

theorem stepCalls_resolved (c : context) (arg : String) (args : List String) (f : Frame)
    (k : Call) (hk : k ∈ stepCalls c arg args f) : Resolved c k.opt := by
  unfold stepCalls at hk
  cases hc : classify arg with
  | empty => simp [hc] at hk
  | dashes => simp [hc] at hk
  | word => simp [hc] at hk
  | long name =>
    simp only [hc] at hk
    cases hf : c.findLong f.stack name with
    | error e => simp [hf] at hk
    | ok opt =>
      have hres := findLong_resolved c f.stack name opt hf
      simp only [hf] at hk
      by_cases hb : opt.Kind = Kind.Bool
      · simp only [hb, if_true, List.mem_singleton] at hk
        subst hk
        exact hres
      · simp only [hb, if_false] at hk
        cases args with
        | nil => simp at hk
        | cons v rest =>
          simp only [List.mem_singleton] at hk
          subst hk
          exact hres
  | short run =>
    simp only [hc] at hk
    exact runCalls_resolved c f.stack _ run k hk

/-- Every call of the scan is made on a descriptor resolved by one of its
aliases. -/
theorem calls_resolved (c : context) (args : List String) (f : Frame) (k : Call)
    (hk : k ∈ calls c args f) : Resolved c k.opt := by
  induction args using tokens_induction generalizing f with
  | nil => simp [calls] at hk
  | cons arg args ih1 ih2 =>
    simp only [calls, List.mem_append] at hk
    rcases hk with hk | hk
    · exact stepCalls_resolved c arg args f k hk
    · cases hs : step c arg args f with
      | halt x => simp [hs] at hk
      | next f1 b =>
        cases b with
        | false =>
          simp only [hs] at hk
          exact ih1 f1 hk
        | true =>
          simp only [hs] at hk
          cases args with
          | nil => simp at hk
          | cons v rest =>
            simp only [List.tail] at ih2
            exact ih2 f1 hk

theorem enable_frame (opt : option) (mem : Storage) (i : Nat) (h : opt.Value ≠ i) :
    (opt.enable mem).fields[i]? = mem.fields[i]? := by
  simp only [option.enable]
  exact List.getElem?_set_ne h

theorem set_frame (opt : option) (v : String) (mem m : Storage) (i : Nat)
    (h : opt.Value ≠ i) (hs : opt.set v mem = .ok m) : m.fields[i]? = mem.fields[i]? := by
  unfold option.set at hs
  split at hs
  · split at hs
    · cases hs
    · split at hs
      · cases hs
        exact List.getElem?_set_ne h
      · cases hs
        exact List.getElem?_set_ne h
  · split at hs
    · cases hs
    · cases hs
      exact List.getElem?_set_ne h

/-- A field that no call is bound to keeps its content. -/
theorem replay_frame (ks : List Call) (mem : Storage) (i : Nat)
    (h : ∀ k ∈ ks, k.opt.Value ≠ i) : (replay ks mem).fields[i]? = mem.fields[i]? := by
  induction ks generalizing mem with
  | nil => rfl
  | cons k ks ih =>
    have hk := h k (List.mem_cons_self _ _)
    have hks : ∀ x ∈ ks, x.opt.Value ≠ i := fun x hx => h x (List.mem_cons_of_mem _ hx)
    simp only [replay]
    cases ha : k.apply mem with
    | error e => rfl
    | ok m1 =>
      simp only
      rw [ih m1 hks]
      cases k with
      | enable opt =>
        simp only [Call.apply, Except.ok.injEq] at ha
        subst ha
        exact enable_frame opt mem i hk
      | set opt v =>
        simp only [Call.apply] at ha
        exact set_frame opt v mem m1 i hk ha

theorem result_mem (x : Exit) : x.result.mem = x.mem := by
  cases x <;> rfl

theorem ParseArgs_mem (thing : GoType) (c : context) (args : List String)
    (fields : List Value) (hb : reflectOnIt thing = .ok c) (hv : validate c = .ok ()) :
    (ParseArgs thing args fields).mem
      = replay (calls c args (Frame.init c fields)) ⟨fields, []⟩ := by
  simp only [ParseArgs, hb, hv, result_mem]
  exact loop_mem c args (Frame.init c fields)
theorem enable_long (opt : option) (name : String) (mem : Storage)
    (h : opt.Matched = name) :
    ("no-".data <+: name.data →
        opt.enable mem = ⟨mem.fields.set opt.Value (.one (.bool false)), mem.touched⟩) ∧
      (¬ "no-".data <+: name.data →
        opt.enable mem = ⟨mem.fields.set opt.Value (.one (.bool true)), mem.touched⟩) := by
  refine ⟨?_, ?_⟩
  · intro hp
    have : "no-".data.isPrefixOf name.data = true := List.isPrefixOf_iff_prefix.2 hp
    simp only [option.enable, h, this, Bool.not_true]
  · intro hp
    have : "no-".data.isPrefixOf name.data = false := by
      cases hx : "no-".data.isPrefixOf name.data with
      | false => rfl
      | true => exact (hp (List.isPrefixOf_iff_prefix.1 hx)).elim
    simp only [option.enable, h, this, Bool.not_false]

theorem runCalls_kind (c : context) (stack : List String) (nx : Option String)
    (run : List Char) (k : Call) (hk : k ∈ runCalls c stack nx run) :
    (∃ opt, k = .enable opt ∧ opt.Kind = Kind.Bool) ∨
      (∃ opt v, k = .set opt v ∧ opt.Kind ≠ Kind.Bool) := by
  induction run with
  | nil => simp [runCalls] at hk
  | cons ch rest ih =>
    simp only [runCalls] at hk
    cases hf : c.findShort stack (String.mk [ch]) with
    | error e => simp [hf] at hk
    | ok opt =>
      simp only [hf] at hk
      by_cases hb : opt.Kind = Kind.Bool
      · simp only [hb, if_true, List.mem_cons] at hk
        rcases hk with hk | hk
        · exact Or.inl ⟨opt, hk, hb⟩
        · exact ih hk
      · simp only [hb, if_false] at hk
        by_cases hr : rest.length > 0
        · simp only [hr, if_true, List.mem_singleton] at hk
          exact Or.inr ⟨opt, _, hk, hb⟩
        · simp only [hr, if_false] at hk
          cases nx with
          | none => simp at hk
          | some v =>
            simp only [List.mem_singleton] at hk
            exact Or.inr ⟨opt, _, hk, hb⟩

theorem stepCalls_kind (c : context) (arg : String) (args : List String) (f : Frame)
    (k : Call) (hk : k ∈ stepCalls c arg args f) :
    (∃ opt, k = .enable opt ∧ opt.Kind = Kind.Bool) ∨
      (∃ opt v, k = .set opt v ∧ opt.Kind ≠ Kind.Bool) := by
  unfold stepCalls at hk
  cases hc : classify arg with
  | empty => simp [hc] at hk
  | dashes => simp [hc] at hk
  | word => simp [hc] at hk
  | long name =>
    simp only [hc] at hk
    cases hf : c.findLong f.stack name with
    | error e => simp [hf] at hk
    | ok opt =>
      simp only [hf] at hk
      by_cases hb : opt.Kind = Kind.Bool
      · simp only [hb, if_true, List.mem_singleton] at hk
        exact Or.inl ⟨opt, hk, hb⟩
      · simp only [hb, if_false] at hk
        cases args with
        | nil => simp at hk
        | cons v rest =>
          simp only [List.mem_singleton] at hk
          exact Or.inr ⟨opt, _, hk, hb⟩
  | short run =>
    simp only [hc] at hk
    exact runCalls_kind c f.stack _ run k hk

/-- The scan calls `enable` on boolean descriptors and `set` on the others. -/
theorem calls_kind (c : context) (args : List String) (f : Frame) (k : Call)
    (hk : k ∈ calls c args f) :
    (∃ opt, k = .enable opt ∧ opt.Kind = Kind.Bool) ∨
      (∃ opt v, k = .set opt v ∧ opt.Kind ≠ Kind.Bool) := by
  induction args using tokens_induction generalizing f with
  | nil => simp [calls] at hk
  | cons arg args ih1 ih2 =>
    simp only [calls, List.mem_append] at hk
    rcases hk with hk | hk
    · exact stepCalls_kind c arg args f k hk
    · cases hs : step c arg args f with
      | halt x => simp [hs] at hk
      | next f1 b =>
        cases b with
        | false =>
          simp only [hs] at hk
          exact ih1 f1 hk
        | true =>
          simp only [hs] at hk
          cases args with
          | nil => simp at hk
          | cons v rest =>
            simp only [List.tail] at ih2
            exact ih2 f1 hk

theorem enable_touched (opt : option) (mem : Storage) :
    (opt.enable mem).touched = mem.touched ∧
      (opt.enable mem).fields.length = mem.fields.length := by
  simp [option.enable]

theorem set_other (opt : option) (v : String) (mem m : Storage) (i : Nat)
    (h : opt.Value ≠ i) (hs : opt.set v mem = .ok m) :
    (i ∈ m.touched ↔ i ∈ mem.touched) ∧ m.fields.length = mem.fields.length := by
  unfold option.set at hs
  split at hs
  · split at hs
    · cases hs
    · split at hs
      · cases hs
        simp
      · cases hs
        simp only [List.mem_cons, List.length_set, and_true]
        constructor
        · rintro (h1 | h1)
          · exact (h h1.symm).elim
          · exact h1
        · exact Or.inr
  · split at hs
    · cases hs
    · cases hs
      simp

theorem listAt_eq (mem m : Storage) (i : Nat) (h : m.fields[i]? = mem.fields[i]?) :
    m.listAt i = mem.listAt i := by
  simp only [Storage.listAt, List.get?_eq_getElem?, h]

theorem set_slice (opt : option) (elem : Kind) (v : String) (mem m : Storage)
    (hk : opt.Kind = .Slice elem) (hlt : opt.Value < mem.fields.length)
    (hs : opt.set v mem = .ok m) :
    ∃ x, coerce elem v = .ok x ∧ opt.Value ∈ m.touched ∧
      m.fields.length = mem.fields.length ∧
      m.fields[opt.Value]? = some (.many
        ((if opt.Value ∈ mem.touched then mem.listAt opt.Value else []) ++ [x])) := by
  unfold option.set at hs
  simp only [hk] at hs
  cases hc : coerce elem v with
  | error e => simp [hc] at hs
  | ok x =>
    simp only [hc] at hs
    refine ⟨x, rfl, ?_⟩
    by_cases ht : opt.Value ∈ mem.touched
    · simp only [ht, if_true, Except.ok.injEq] at hs ⊢
      subst hs
      exact ⟨ht, by simp, List.getElem?_set_self hlt⟩
    · simp only [ht, if_false, Except.ok.injEq] at hs ⊢
      subst hs
      exact ⟨List.mem_cons_self _ _, by simp, by simpa using List.getElem?_set_self hlt⟩
theorem apply_other (k : Call) (mem m : Storage) (i : Nat) (h : k.opt.Value ≠ i)
    (ha : k.apply mem = .ok m) :
    m.fields[i]? = mem.fields[i]? ∧ (i ∈ m.touched ↔ i ∈ mem.touched) ∧
      m.fields.length = mem.fields.length := by
  cases k with
  | enable opt =>
    simp only [Call.apply, Except.ok.injEq] at ha
    subst ha
    exact ⟨enable_frame opt mem i h, by rw [(enable_touched opt mem).1],
      (enable_touched opt mem).2⟩
  | set opt v =>
    simp only [Call.apply] at ha
    exact ⟨set_frame opt v mem m i h ha, (set_other opt v mem m i h ha).1,
      (set_other opt v mem m i h ha).2⟩

theorem listAt_of_many (mem : Storage) (i : Nat) (l : List Scalar)
    (h : mem.fields[i]? = some (.many l)) : mem.listAt i = l := by
  simp only [Storage.listAt, List.get?_eq_getElem?, h]

/-- What a sequence of successful calls leaves in a list field: the field as
it was if no call is made on it; otherwise the elements assigned, after the
elements it already held if it had been assigned before in the scan. -/
theorem applyAll_list (addr : Nat) (ks : List Call) (mem m : Storage)
    (hlist : ∀ k ∈ ks, k.opt.Value = addr →
      ∃ opt v elem, k = .set opt v ∧ opt.Kind = .Slice elem)
    (hlt : addr < mem.fields.length) (h : applyAll ks mem = .ok m) :
    m.fields.length = mem.fields.length ∧
      (callsOn addr ks).length = (assigned addr ks).length ∧
      (assigned addr ks = [] →
        m.fields[addr]? = mem.fields[addr]? ∧ (addr ∈ m.touched ↔ addr ∈ mem.touched)) ∧
      (assigned addr ks ≠ [] →
        addr ∈ m.touched ∧
          m.fields[addr]? = some (.many
            ((if addr ∈ mem.touched then mem.listAt addr else []) ++ assigned addr ks))) := by
  induction ks generalizing mem with
  | nil =>
    simp only [applyAll, Except.ok.injEq] at h
    subst h
    simp [callsOn, assigned]
  | cons k ks ih =>
    simp only [applyAll] at h
    cases ha : k.apply mem with
    | error e => simp [ha] at h
    | ok m1 =>
      simp only [ha] at h
      have hks : ∀ x ∈ ks, x.opt.Value = addr →
          ∃ opt v elem, x = .set opt v ∧ opt.Kind = .Slice elem :=
        fun x hx => hlist x (List.mem_cons_of_mem _ hx)
      by_cases hv : k.opt.Value = addr
      · obtain ⟨opt, v, elem, hk, hkind⟩ := hlist k (List.mem_cons_self _ _) hv
        subst hk
        simp only [Call.opt] at hv
        subst hv
        simp only [Call.apply] at ha
        obtain ⟨x, hx, htouched, hlen, hget⟩ := set_slice opt elem v mem m1 hkind hlt ha
        obtain ⟨ih1, ih2, ih3, ih4⟩ := ih m1 hks (hlen ▸ hlt) h
        have hitem : Call.item (.set opt v) = some x := by
          simp only [Call.item, hkind, hx]
        have hon : callsOn opt.Value (.set opt v :: ks)
            = .set opt v :: callsOn opt.Value ks := by
          simp [callsOn, Call.opt]
        have hass : assigned opt.Value (.set opt v :: ks) = x :: assigned opt.Value ks := by
          simp only [assigned, hon, List.filterMap_cons, hitem]
        refine ⟨ih1.trans hlen, ?_, ?_, ?_⟩
        · rw [hon, hass, List.length_cons, List.length_cons, ih2]
        · intro hnil
          rw [hass] at hnil
          cases hnil
        · intro _
          rw [hass]
          by_cases hrest : assigned opt.Value ks = []
          · obtain ⟨h1, h2⟩ := ih3 hrest
            rw [hrest]
            exact ⟨h2.2 htouched, h1.trans hget⟩
          · obtain ⟨h1, h2⟩ := ih4 hrest
            refine ⟨h1, ?_⟩
            rw [h2, if_pos htouched, listAt_of_many m1 opt.Value _ hget]
            simp
      · obtain ⟨h1, h2, h3⟩ := apply_other k mem m1 addr hv ha
        obtain ⟨ih1, ih2, ih3, ih4⟩ := ih m1 hks (h3 ▸ hlt) h
        have hon : callsOn addr (k :: ks) = callsOn addr ks := by
          simp [callsOn, hv]
        have hass : assigned addr (k :: ks) = assigned addr ks := by
          simp only [assigned, hon]
        rw [hon, hass]
        refine ⟨ih1.trans h3, ih2, ?_, ?_⟩
        · intro hnil
          obtain ⟨a1, a2⟩ := ih3 hnil
          exact ⟨a1.trans h1, a2.trans h2⟩
        · intro hne
          obtain ⟨a1, a2⟩ := ih4 hne
          refine ⟨a1, ?_⟩
          rw [a2, listAt_eq mem m1 addr h1]
          by_cases ht : addr ∈ mem.touched
          · rw [if_pos ht, if_pos (h2.2 ht)]
          · rw [if_neg ht, if_neg (fun hx => ht (h2.1 hx))]

/-- C13: for a list field (every descriptor bound to its address is of slice
kind) of a valid schema, with any content `D` supplied by the caller, and a
scan all of whose calls succeed (every value is coercible): if the scan makes
no assignment to the field, the field still holds `D`; if it makes `k >= 1`
assignments, the field holds exactly the `k` coerced values in the order of
assignment, and no element of `D`. -/
theorem list_field_replaced (thing : GoType) (c : context) (fields : List Value)
    (args : List String) (addr : Nat) (m : Storage)
    (hb : reflectOnIt thing = .ok c) (hv : validate c = .ok ())
    (hlist : ∀ (stack : List String), ∀ d ∈ c.visible stack, d.Value = addr →
      ∃ elem, d.Kind = .Slice elem)
    (hlt : addr < fields.length)
    (hok : applyAll (calls c args (Frame.init c fields)) ⟨fields, []⟩ = .ok m) :
    (ParseArgs thing args fields).mem = m ∧
      (callsOn addr (calls c args (Frame.init c fields))).length
        = (assigned addr (calls c args (Frame.init c fields))).length ∧
      (callsOn addr (calls c args (Frame.init c fields)) = [] →
        (ParseArgs thing args fields).mem.fields[addr]? = fields[addr]?) ∧
      (callsOn addr (calls c args (Frame.init c fields)) ≠ [] →
        (ParseArgs thing args fields).mem.fields[addr]?
          = some (.many (assigned addr (calls c args (Frame.init c fields))))) := by
  have hmem : (ParseArgs thing args fields).mem = m := by
    rw [ParseArgs_mem thing c args fields hb hv]
    exact replay_of_applyAll _ _ m hok
  have hsets : ∀ k ∈ calls c args (Frame.init c fields), k.opt.Value = addr →
      ∃ opt v elem, k = .set opt v ∧ opt.Kind = .Slice elem := by
    intro k hk hval
    obtain ⟨stack, d, hd, hopt, _⟩ := calls_resolved c args _ k hk
    have hdv : d.Value = addr := by
      rw [hopt] at hval
      exact hval
    obtain ⟨elem, helem⟩ := hlist stack d hd hdv
    have hkind : k.opt.Kind = .Slice elem := by
      rw [hopt]
      exact helem
    rcases calls_kind c args _ k hk with ⟨opt, hk1, hb1⟩ | ⟨opt, v, hk1, _⟩
    · subst hk1
      simp only [Call.opt] at hkind
      rw [hkind] at hb1
      cases hb1
    · subst hk1
      exact ⟨opt, v, elem, rfl, hkind⟩
  obtain ⟨_, h2, h3, h4⟩ := applyAll_list addr _ ⟨fields, []⟩ m hsets hlt hok
  refine ⟨hmem, h2, ?_, ?_⟩
  · intro hnone
    have : assigned addr (calls c args (Frame.init c fields)) = [] := by
      simp only [assigned, hnone, List.filterMap_nil]
    rw [hmem]
    exact (h3 this).1
  · intro hsome
    have : assigned addr (calls c args (Frame.init c fields)) ≠ [] := by
      intro hnil
      rw [hnil, List.length_nil] at h2
      exact hsome (List.length_eq_zero.1 h2)
    rw [hmem]
    simpa using (h4 this).2

/-- C13, at `List []int` tagged `-N, --numbers` with default `[4, 8, 15, 16]`:
`-N 23 -N 42` leaves exactly `[23, 42]`. -/
theorem list_field_replaced_witness :
    (ParseArgs numbersFlag ["-N", "23", "-N", "42"] numbersFlagDefault).mem.fields[0]?
      = some (.many [.int 23, .int 42]) ∧
    (ParseArgs numbersFlag [] numbersFlagDefault).mem.fields[0]?
      = some (.many [.int 4, .int 8, .int 15, .int 16]) :=
  ⟨((list_field_replaced numbersFlag numbersFlagSchema numbersFlagDefault
      ["-N", "23", "-N", "42"] 0 ⟨[.many [.int 23, .int 42]], [0]⟩ rfl rfl
      (by
        intro stack d hd _
        have hd1 : d = ⟨.Slice (.Int 64), ["N"], ["numbers"], 0, ""⟩ := by
          cases stack with
          | nil => simpa [context.visible, numbersFlagSchema, context.Options] using hd
          | cons s rest =>
            simpa [context.visible, numbersFlagSchema, context.Options, context.sub,
              context.Subs] using hd
        exact ⟨.Int 64, by rw [hd1]⟩)
      (by decide) rfl).2.2.2 (by decide)).trans (by decide),
   by decide⟩

theorem parseDigits_fold_none (ds : List Char) :
    ds.foldl
      (fun acc ch =>
        match acc with
        | none => none
        | some n => if ch.isDigit then some (n * 10 + (ch.toNat - 48)) else none)
      (none : Option Nat) = none := by
  induction ds with
  | nil => rfl
  | cons ch rest ih => simpa [List.foldl] using ih

theorem parseDigits_fold (ds : List Char) (h : ∀ ch ∈ ds, ch.isDigit = true) :
    ds.foldl
      (fun acc ch =>
        match acc with
        | none => none
        | some n => if ch.isDigit then some (n * 10 + (ch.toNat - 48)) else none)
      (some 0) = some (digitsValue ds) := by
  induction ds using List.reverseRecOn with
  | nil => rfl
  | append_singleton l a ih =>
    have hl : ∀ ch ∈ l, ch.isDigit = true := fun ch hch => h ch (List.mem_append_left _ hch)
    have ha : a.isDigit = true := h a (by simp)
    rw [List.foldl_append, ih hl]
    simp only [List.foldl, ha, if_true, digitsValue, List.reverse_append, List.reverse_cons,
      List.reverse_nil, List.nil_append, List.singleton_append, List.map_cons,
      Nat.ofDigits_cons, Option.some.injEq]
    omega

theorem parseDigits_digits (ds : List Char) (h : IsDigits ds) :
    parseDigits ds = some (digitsValue ds) := by
  obtain ⟨hne, hall⟩ := h
  cases ds with
  | nil => exact (hne rfl).elim
  | cons ch rest =>
    simp only [parseDigits]
    exact parseDigits_fold (ch :: rest) hall

theorem parseDigits_fold_bad (ds : List Char) (acc : Option Nat)
    (h : ∃ ch ∈ ds, ch.isDigit = false) :
    ds.foldl
      (fun acc ch =>
        match acc with
        | none => none
        | some n => if ch.isDigit then some (n * 10 + (ch.toNat - 48)) else none)
      acc = none := by
  induction ds generalizing acc with
  | nil =>
    obtain ⟨ch, hch, _⟩ := h
    cases hch
  | cons x rest ih =>
    simp only [List.foldl]
    by_cases hx : x.isDigit = true
    · obtain ⟨ch, hch, hbad⟩ := h
      rcases List.mem_cons.1 hch with hch | hch
      · subst hch
        rw [hx] at hbad
        cases hbad
      · exact ih _ ⟨ch, hch, hbad⟩
    · cases acc with
      | none => exact parseDigits_fold_none rest
      | some n =>
        simp only [hx]
        exact parseDigits_fold_none rest

theorem parseDigits_some (ds : List Char) (n : Nat) (h : parseDigits ds = some n) :
    IsDigits ds ∧ n = digitsValue ds := by
  have hd : IsDigits ds := by
    refine ⟨?_, ?_⟩
    · intro hnil
      subst hnil
      simp [parseDigits] at h
    · intro ch hch
      by_contra hbad
      have hbad1 : ch.isDigit = false := by simpa using hbad
      cases ds with
      | nil => cases hch
      | cons x rest =>
        simp only [parseDigits] at h
        have hnone := parseDigits_fold_bad (x :: rest) (some 0) ⟨ch, hch, hbad1⟩
        exact Option.noConfusion (hnone.symm.trans h)
  refine ⟨hd, ?_⟩
  rw [parseDigits_digits ds hd] at h
  cases h
  rfl
theorem not_digit_sign (ds : List Char) (h : IsDigits ds) :
    ds.head? ≠ some '-' ∧ ds.head? ≠ some '+' := by
  obtain ⟨hne, hall⟩ := h
  cases ds with
  | nil => exact (hne rfl).elim
  | cons x rest =>
    have hx := hall x (List.mem_cons_self _ _)
    simp only [List.head?, ne_eq, Option.some.injEq]
    constructor
    · intro hm
      subst hm
      exact absurd hx (by decide)
    · intro hp
      subst hp
      exact absurd hx (by decide)

theorem ParseInt_minus (s : String) (ds : List Char) (bits : Nat) (h : s.data = '-' :: ds) :
    ParseInt s bits =
      match parseDigits ds with
      | none => none
      | some n => if n ≤ 2 ^ (bits - 1) then some (-(n : Int)) else none := by
  simp only [ParseInt, h]

theorem ParseInt_plus (s : String) (ds : List Char) (bits : Nat) (h : s.data = '+' :: ds) :
    ParseInt s bits =
      match parseDigits ds with
      | none => none
      | some n => if n < 2 ^ (bits - 1) then some (n : Int) else none := by
  simp only [ParseInt, h]

theorem ParseInt_plain (s : String) (bits : Nat) (h1 : s.data.head? ≠ some '-')
    (h2 : s.data.head? ≠ some '+') :
    ParseInt s bits =
      match parseDigits s.data with
      | none => none
      | some n => if n < 2 ^ (bits - 1) then some (n : Int) else none := by
  unfold ParseInt
  split
  · rename_i ds hd
    simp [hd] at h1
  · rename_i ds hd
    simp [hd] at h2
  · rfl

/-- The signed parse succeeds exactly on the numerals of the integers of the
width. -/
theorem ParseInt_iff (s : String) (bits : Nat) (n : Int) :
    ParseInt s bits = some n ↔
      SignedNumeral s n ∧ -(2 : Int) ^ (bits - 1) ≤ n ∧ n ≤ (2 : Int) ^ (bits - 1) - 1 := by
  have hpow : ((2 ^ (bits - 1) : Nat) : Int) = (2 : Int) ^ (bits - 1) := by push_cast; rfl
  generalize (2 : Int) ^ (bits - 1) = P at hpow ⊢
  have hQpos : 0 < 2 ^ (bits - 1) := by positivity
  generalize hQ : 2 ^ (bits - 1) = Q at hpow hQpos
  constructor
  · intro h
    by_cases hm : s.data.head? = some '-'
    · obtain ⟨ds, hd⟩ : ∃ ds, s.data = '-' :: ds := by
        cases hs : s.data with
        | nil => simp [hs] at hm
        | cons x rest =>
          simp only [hs, List.head?, Option.some.injEq] at hm
          exact ⟨rest, by rw [hm]⟩
      rw [ParseInt_minus s ds bits hd, hQ] at h
      cases hp : parseDigits ds with
      | none => simp [hp] at h
      | some v =>
        simp only [hp] at h
        obtain ⟨hdig, hval⟩ := parseDigits_some ds v hp
        by_cases hr : v ≤ Q
        · simp only [hr, if_true, Option.some.injEq] at h
          refine ⟨⟨ds, hdig, Or.inr (Or.inr ⟨hd, by rw [← h, hval]⟩)⟩, ?_, ?_⟩ <;> omega
        · simp [hr] at h
    · by_cases hp : s.data.head? = some '+'
      · obtain ⟨ds, hd⟩ : ∃ ds, s.data = '+' :: ds := by
          cases hs : s.data with
          | nil => simp [hs] at hp
          | cons x rest =>
            simp only [hs, List.head?, Option.some.injEq] at hp
            exact ⟨rest, by rw [hp]⟩
        rw [ParseInt_plus s ds bits hd, hQ] at h
        cases hpd : parseDigits ds with
        | none => simp [hpd] at h
        | some v =>
          simp only [hpd] at h
          obtain ⟨hdig, hval⟩ := parseDigits_some ds v hpd
          by_cases hr : v < Q
          · simp only [hr, if_true, Option.some.injEq] at h
            refine ⟨⟨ds, hdig, Or.inr (Or.inl ⟨hd, by rw [← h, hval]⟩)⟩, ?_, ?_⟩ <;> omega
          · simp [hr] at h
      · rw [ParseInt_plain s bits hm hp, hQ] at h
        cases hpd : parseDigits s.data with
        | none => simp [hpd] at h
        | some v =>
          simp only [hpd] at h
          obtain ⟨hdig, hval⟩ := parseDigits_some s.data v hpd
          by_cases hr : v < Q
          · simp only [hr, if_true, Option.some.injEq] at h
            refine ⟨⟨s.data, hdig, Or.inl ⟨rfl, by rw [← h, hval]⟩⟩, ?_, ?_⟩ <;> omega
          · simp [hr] at h
  · rintro ⟨⟨ds, hdig, hform⟩, hlo, hhi⟩
    have hpd := parseDigits_digits ds hdig
    rcases hform with ⟨hd, hn⟩ | ⟨hd, hn⟩ | ⟨hd, hn⟩
    · subst hd
      have hsign := not_digit_sign s.data hdig
      rw [ParseInt_plain s bits hsign.1 hsign.2, hpd, hQ]
      have hr : digitsValue s.data < Q := by omega
      simp only [hr, if_true, hn]
    · rw [ParseInt_plus s ds bits hd, hpd, hQ]
      have hr : digitsValue ds < Q := by omega
      simp only [hr, if_true, hn]
    · rw [ParseInt_minus s ds bits hd, hpd, hQ]
      have hr : digitsValue ds ≤ Q := by omega
      simp only [hr, if_true, hn]

/-- The unsigned parse succeeds exactly on the numerals of the naturals of the
width. -/
theorem ParseUint_iff (s : String) (bits n : Nat) :
    ParseUint s bits = some n ↔ UnsignedNumeral s n ∧ n ≤ 2 ^ bits - 1 := by
  have hpos : 0 < 2 ^ bits := by positivity
  unfold ParseUint
  constructor
  · intro h
    cases hp : parseDigits s.data with
    | none => simp [hp] at h
    | some v =>
      simp only [hp] at h
      obtain ⟨hdig, hval⟩ := parseDigits_some s.data v hp
      by_cases hr : v < 2 ^ bits
      · simp only [hr, if_true, Option.some.injEq] at h
        subst h
        exact ⟨⟨hdig, hval⟩, by omega⟩
      · simp [hr] at h
  · rintro ⟨⟨hdig, hn⟩, hle⟩
    rw [parseDigits_digits s.data hdig]
    have hr : digitsValue s.data < 2 ^ bits := by omega
    simp only [hr, if_true, hn]
theorem set_scalar (opt : option) (v : String) (mem : Storage)
    (h : ∀ elem, opt.Kind ≠ .Slice elem) :
    opt.set v mem =
      match coerce opt.Kind v with
      | .ok x => .ok ⟨mem.fields.set opt.Value (.one x), mem.touched⟩
      | .error e => .error e := by
  unfold option.set
  split
  · rename_i elem hk
    exact (h elem hk).elim
  · cases coerce opt.Kind v <;> rfl

theorem coerce_int_none (s : String) (w : Nat) (h : ParseInt s w = none) :
    coerce (.Int w) s = .error ("invalid value `" ++ s ++ "` for a signed integer") := by
  simp only [coerce, h]

theorem coerce_uint_none (s : String) (w : Nat) (h : ParseUint s w = none) :
    coerce (.Uint w) s = .error ("invalid value `" ++ s ++ "` for an unsigned integer") := by
  simp only [coerce, h]

theorem SignedNumeral_unique (s : String) (n k : Int) (hn : SignedNumeral s n)
    (hk : SignedNumeral s k) : k = n := by
  obtain ⟨ds, hd, hf⟩ := hn
  obtain ⟨ds1, hd1, hf1⟩ := hk
  have s0 := not_digit_sign ds hd
  have s1 := not_digit_sign ds1 hd1
  rcases hf with ⟨e, hn⟩ | ⟨e, hn⟩ | ⟨e, hn⟩ <;>
    rcases hf1 with ⟨e1, hn1⟩ | ⟨e1, hn1⟩ | ⟨e1, hn1⟩
  · have h : ds = ds1 := e.symm.trans e1
    subst h
    rw [hn, hn1]
  · have h : ds = '+' :: ds1 := e.symm.trans e1
    rw [h] at s0
    simp at s0
  · have h : ds = '-' :: ds1 := e.symm.trans e1
    rw [h] at s0
    simp at s0
  · have h : ds1 = '+' :: ds := e1.symm.trans e
    rw [h] at s1
    simp at s1
  · have h : '+' :: ds = '+' :: ds1 := e.symm.trans e1
    simp only [List.cons.injEq, true_and] at h
    subst h
    rw [hn, hn1]
  · have h : '+' :: ds = '-' :: ds1 := e.symm.trans e1
    simp at h
  · have h : ds1 = '-' :: ds := e1.symm.trans e
    rw [h] at s1
    simp at s1
  · have h : '-' :: ds = '+' :: ds1 := e.symm.trans e1
    simp at h
  · have h : '-' :: ds = '-' :: ds1 := e.symm.trans e1
    simp only [List.cons.injEq, true_and] at h
    subst h
    rw [hn, hn1]

theorem step_fail_head (c : context) (arg : String) (args args1 : List String)
    (f : Frame) (e : String) (r : List String) (m : Storage)
    (h : step c arg args f = .halt (.fail e r m)) (hh : args1.head? = args.head?) :
    step c arg args1 f = .halt (.fail e r m) := by
  unfold step at h ⊢
  cases hc : classify arg with
  | empty => simp [hc] at h
  | dashes => simp [hc] at h
  | word => simp [hc] at h
  | long name =>
    simp only [hc, stepLong] at h ⊢
    cases hf : c.findLong f.stack name with
    | error e1 => simpa [hf] using h
    | ok opt =>
      simp only [hf] at h ⊢
      by_cases hk : opt.Kind = Kind.Bool
      · simp [hk] at h
      · simp only [hk, if_false] at h ⊢
        cases args with
        | nil =>
          cases args1 with
          | nil => exact h
          | cons v1 rest1 => simp at hh
        | cons v rest =>
          cases args1 with
          | nil => simp at hh
          | cons v1 rest1 =>
            simp only [List.head?, Option.some.injEq] at hh
            subst hh
            exact h
  | short run =>
    simp only [hc, stepShort] at h ⊢
    rw [hh]
    exact h

theorem allBool_nil (c : context) (stack : List String) : allBool c stack [] :=
  fun _ h => nomatch h

theorem shortRun_fail_shape (c : context) (stack : List String) (nx : Option String)
    (run : List Char) (mem m : Storage) (e : String)
    (h : shortRun c stack nx run mem = .fail e m) :
    ∃ pre x post, run = pre ++ x :: post ∧ allBool c stack pre ∧
      m = enableRun c stack pre mem ∧
      ((c.findShort stack (String.mk [x]) = .error e ∧
          ∀ post1 nx1, shortRun c stack nx1 (pre ++ x :: post1) mem = .fail e m) ∨
        ∃ opt, c.findShort stack (String.mk [x]) = .ok opt ∧ opt.Kind ≠ Kind.Bool ∧
          ((post ≠ [] ∧ opt.set (String.mk post) m = .error e) ∨
            (post = [] ∧ nx = none ∧
              e = "missing required value for `-" ++ String.mk [x] ++ "` flag") ∨
            (post = [] ∧ ∃ v, nx = some v ∧ opt.set v m = .error e))) := by
  induction run generalizing mem with
  | nil => simp [shortRun] at h
  | cons ch rest ih =>
    simp only [shortRun] at h
    cases hf : c.findShort stack (String.mk [ch]) with
    | error e1 =>
      simp only [hf, RunEnd.fail.injEq] at h
      obtain ⟨h1, h2⟩ := h
      subst h1
      subst h2
      refine ⟨[], ch, rest, rfl, allBool_nil c stack, rfl, Or.inl ⟨hf, ?_⟩⟩
      intro post1 nx1
      exact shortRun_unknown c stack nx1 ch post1 mem e1 hf
    | ok opt =>
      simp only [hf] at h
      by_cases hk : opt.Kind = Kind.Bool
      · simp only [hk, if_true] at h
        obtain ⟨pre, x, post, hrun, hall, hm, hcase⟩ := ih _ h
        have hall1 : allBool c stack (ch :: pre) := by
          intro y hy
          rcases List.mem_cons.1 hy with hy | hy
          · subst hy
            exact ⟨opt, hf, hk⟩
          · exact hall y hy
        refine ⟨ch :: pre, x, post, by simp [hrun], hall1, ?_, ?_⟩
        · simp only [enableRun, hf]
          exact hm
        · rcases hcase with ⟨hx, hany⟩ | hcase
          · refine Or.inl ⟨hx, ?_⟩
            intro post1 nx1
            have := hany post1 nx1
            simp only [List.cons_append, shortRun, hf, hk, if_true]
            exact this
          · exact Or.inr hcase
      · simp only [hk, if_false] at h
        by_cases hr : rest.length > 0
        · simp only [hr, if_true] at h
          cases hs : opt.set (String.mk rest) mem with
          | error e1 =>
            simp only [hs, RunEnd.fail.injEq] at h
            obtain ⟨h1, h2⟩ := h
            subst h1
            subst h2
            refine ⟨[], ch, rest, rfl, allBool_nil c stack, rfl,
              Or.inr ⟨opt, hf, hk, Or.inl ⟨List.length_pos.1 hr, hs⟩⟩⟩
          | ok m1 => simp [hs] at h
        · simp only [hr, if_false] at h
          have hrest : rest = [] := by
            cases rest with
            | nil => rfl
            | cons y ys => simp at hr
          subst hrest
          cases nx with
          | none =>
            simp only [RunEnd.fail.injEq] at h
            obtain ⟨h1, h2⟩ := h
            subst h2
            refine ⟨[], ch, [], rfl, allBool_nil c stack, rfl,
              Or.inr ⟨opt, hf, hk, Or.inr (Or.inl ⟨rfl, rfl, h1.symm⟩)⟩⟩
          | some v =>
            simp only at h
            cases hs : opt.set v mem with
            | error e1 =>
              simp only [hs, RunEnd.fail.injEq] at h
              obtain ⟨h1, h2⟩ := h
              subst h1
              subst h2
              refine ⟨[], ch, [], rfl, allBool_nil c stack, rfl,
                Or.inr ⟨opt, hf, hk, Or.inr (Or.inr ⟨rfl, v, rfl, hs⟩)⟩⟩
            | ok m1 => simp [hs] at h

theorem step_fail_cause (c : context) (arg : String) (args : List String) (f : Frame)
    (e : String) (r : List String) (m : Storage)
    (h : step c arg args f = .halt (.fail e r m)) :
    (∃ name, classify arg = .long name ∧ m = f.mem ∧
        (c.findLong f.stack name = .error e ∨
          ∃ opt, c.findLong f.stack name = .ok opt ∧ opt.Kind ≠ Kind.Bool ∧
            ((args = [] ∧ e = "missing required value for `" ++ arg ++ "` flag") ∨
              ∃ v, args.head? = some v ∧ opt.set v f.mem = .error e))) ∨
      (∃ run, classify arg = .short run ∧
        shortRun c f.stack args.head? run f.mem = .fail e m) := by
  unfold step at h
  cases hc : classify arg with
  | empty => simp [hc] at h
  | dashes => simp [hc] at h
  | word => simp [hc] at h
  | long name =>
    left
    simp only [hc, stepLong] at h
    cases hf : c.findLong f.stack name with
    | error e1 =>
      simp only [hf, Step.halt.injEq, Exit.fail.injEq] at h
      obtain ⟨h1, _, h3⟩ := h
      subst h1
      exact ⟨name, rfl, h3.symm, Or.inl hf⟩
    | ok opt =>
      simp only [hf] at h
      by_cases hk : opt.Kind = Kind.Bool
      · simp [hk] at h
      · simp only [hk, if_false] at h
        cases args with
        | nil =>
          simp only [Step.halt.injEq, Exit.fail.injEq] at h
          exact ⟨name, rfl, h.2.2.symm, Or.inr ⟨opt, hf, hk, Or.inl ⟨rfl, h.1.symm⟩⟩⟩
        | cons v rest =>
          simp only at h
          cases hs : opt.set v f.mem with
          | error e1 =>
            simp only [hs, Step.halt.injEq, Exit.fail.injEq] at h
            obtain ⟨h1, _, h3⟩ := h
            subst h1
            exact ⟨name, rfl, h3.symm, Or.inr ⟨opt, hf, hk, Or.inr ⟨v, rfl, hs⟩⟩⟩
          | ok m1 => simp [hs] at h
  | short run =>
    right
    simp only [hc, stepShort] at h
    cases hr : shortRun c f.stack args.head? run f.mem with
    | done m1 k1 => simp [hr] at h
    | fail e1 m1 =>
      simp only [hr, Step.halt.injEq, Exit.fail.injEq] at h
      obtain ⟨h1, _, h3⟩ := h
      subst h1
      subst h3
      exact ⟨run, rfl, hr⟩
/-- C15: when the scan fails at the token `t` (the iteration of the loop for
`t`, entered in the frame `g` that the tokens before it lead to, returns an
error), `ParseArgs` returns that error at once: the result is the same
whatever follows the token after `t` (that token is only looked at as the
value of `t`), the storage returned holds every write of the earlier tokens
and of the earlier flags of the run of `t` (nothing is rolled back), and in a
short run that fails at an unknown character the rest of the run is not
read. -/
theorem fails_at_once (thing : GoType) (c : context) (fields : List Value)
    (a b : List String) (t e : String) (g : Frame) (r : List String) (m : Storage)
    (hb : reflectOnIt thing = .ok c) (hv : validate c = .ok ())
    (ha : loop c a (Frame.init c fields) = .done g)
    (hs : step c t b g = .halt (.fail e r m)) :
    (∀ b1 : List String, b1.head? = b.head? →
      ParseArgs thing (a ++ t :: b1) fields = ⟨"", g.remnants, some e, m⟩) ∧
    g.mem = replay (calls c a (Frame.init c fields)) ⟨fields, []⟩ ∧
    m = replay (stepCalls c t b g) g.mem ∧
    ((∃ name, classify t = .long name ∧ m = g.mem ∧
        (c.findLong g.stack name = .error e ∨
          ∃ opt, c.findLong g.stack name = .ok opt ∧ opt.Kind ≠ Kind.Bool ∧
            ((b = [] ∧ e = "missing required value for `" ++ t ++ "` flag") ∨
              ∃ v, b.head? = some v ∧ opt.set v g.mem = .error e))) ∨
      (∃ run pre x post, classify t = .short run ∧ run = pre ++ x :: post ∧
        allBool c g.stack pre ∧ m = enableRun c g.stack pre g.mem ∧
        ((c.findShort g.stack (String.mk [x]) = .error e ∧
            ∀ post1 nx1, shortRun c g.stack nx1 (pre ++ x :: post1) g.mem = .fail e m) ∨
          ∃ opt, c.findShort g.stack (String.mk [x]) = .ok opt ∧ opt.Kind ≠ Kind.Bool ∧
            ((post ≠ [] ∧ opt.set (String.mk post) m = .error e) ∨
              (post = [] ∧ b.head? = none ∧
                e = "missing required value for `-" ++ String.mk [x] ++ "` flag") ∨
              (post = [] ∧ ∃ v, b.head? = some v ∧ opt.set v m = .error e))))) := by
  have hr : r = g.remnants := (step_calls_fail c t b g e r m hs).2
  subst hr
  refine ⟨?_, ?_, (step_calls_fail c t b g e _ m hs).1.symm, ?_⟩
  · intro b1 hh
    have hs1 := step_fail_head c t b b1 g e _ m hs hh
    simp only [ParseArgs, hb, hv, loop_append c a _ _ g ha]
    rw [loop_cons, hs1]
    rfl
  · have := loop_mem c a (Frame.init c fields)
    rw [ha] at this
    exact this
  · rcases step_fail_cause c t b g e _ m hs with hlong | ⟨run, hc, hrun⟩
    · exact Or.inl hlong
    · obtain ⟨pre, x, post, hsplit, hall, hm, hcase⟩ :=
        shortRun_fail_shape c g.stack _ run g.mem m e hrun
      exact Or.inr ⟨run, pre, x, post, hc, hsplit, hall, hm, hcase⟩

/-- C15, at `-v --target prod -hx hosts` of the "Sub-commands" structure: the
scan fails at `x`; `Version`, `Target` and the `Help` of the same run stay
written. -/
theorem fails_at_once_witness :
    ParseArgs subcommands (["-v", "--target", "prod"] ++ "-hx" :: ["hosts"]) subcommandsZero
      = ⟨"", [], some "unrecognized option `-x`",
          ⟨[.one (.bool true), .one (.bool true), .one (.str "prod"), .one (.bool false),
            .one (.str ""), .one (.bool false)], []⟩⟩ :=
  (fails_at_once subcommands subcommandsSchema subcommandsZero
    ["-v", "--target", "prod"] ["hosts"] "-hx" "unrecognized option `-x`"
    ⟨[], true, subcommandsSchema, [],
      ⟨[.one (.bool false), .one (.bool true), .one (.str "prod"), .one (.bool false),
        .one (.str ""), .one (.bool false)], []⟩⟩
    []
    ⟨[.one (.bool true), .one (.bool true), .one (.str "prod"), .one (.bool false),
      .one (.str ""), .one (.bool false)], []⟩
    rfl rfl rfl rfl).1 ["hosts"] rfl

/-- C16: schema construction and validation come before the scan of any token:
if `reflectOnIt` fails, or if `validate` fails on the schema built,
`ParseArgs` returns the empty command path, an empty leftover list and that
error, for every token list, and the storage is as the caller supplied it. -/
theorem schema_errors_first (thing : GoType) (args : List String) (fields : List Value)
    (e : String) :
    (reflectOnIt thing = .error e →
      ParseArgs thing args fields = ⟨"", [], some e, ⟨fields, []⟩⟩) ∧
    (∀ c : context, reflectOnIt thing = .ok c → validate c = .error e →
      ParseArgs thing args fields = ⟨"", [], some e, ⟨fields, []⟩⟩) := by
  refine ⟨?_, ?_⟩
  · intro h
    simp only [ParseArgs, h]
  · intro c h hval
    simp only [ParseArgs, h, hval]

/-- C16, at the structure of "Complains when the same short option is used
more than once": whatever the tokens, the reuse of `-h` is reported and
nothing is written. -/
theorem schema_errors_first_witness :
    ParseArgs reusedShort ["-h", "x"] [.one (.bool false), .one (.str "")]
      = ⟨"", [], some "`-h` reused in global command",
          ⟨[.one (.bool false), .one (.str "")], []⟩⟩ :=
  (schema_errors_first reusedShort ["-h", "x"] [.one (.bool false), .one (.str "")]
    "`-h` reused in global command").2 reusedShortSchema rfl rfl

/-! ## Validation -/

theorem collide_ok_iff (p : String) (seen as s : List String) :
    collide p seen as = .ok s ↔
      as.Nodup ∧ (∀ a ∈ as, a ∉ seen) ∧ s = as.reverse ++ seen := by
  induction as generalizing seen with
  | nil =>
    simp only [collide, Except.ok.injEq, List.nodup_nil, List.not_mem_nil, false_implies,
      implies_true, List.reverse_nil, List.nil_append, true_and]
    exact eq_comm
  | cons a rest ih =>
    simp only [collide]
    by_cases ha : a ∈ seen
    · simp only [ha, if_true]
      constructor
      · intro h
        cases h
      · rintro ⟨_, h, _⟩
        exact (h a (List.mem_cons_self _ _) ha).elim
    · simp only [ha, if_false, ih, List.nodup_cons, List.mem_cons, List.reverse_cons,
        List.append_assoc, List.singleton_append]
      constructor
      · rintro ⟨h1, h2, h3⟩
        refine ⟨⟨fun hin => (h2 a hin) (Or.inl rfl), h1⟩, ?_, h3⟩
        intro x hx
        rcases hx with hx | hx
        · subst hx
          exact ha
        · exact fun hin => (h2 x hx) (Or.inr hin)
      · rintro ⟨⟨h1, h2⟩, h3, h4⟩
        refine ⟨h2, ?_, h4⟩
        intro x hx hin
        rcases hin with hin | hin
        · subst hin
          exact h1 hx
        · exact h3 x (Or.inr hx) hin

theorem collide_error (p : String) (seen as : List String) (e : String)
    (h : collide p seen as = .error e) :
    ∃ a l1 l2, as = l1 ++ a :: l2 ∧ (a ∈ seen ∨ a ∈ l1) ∧
      e = "`" ++ a ++ "` reused in " ++ p ++ " command" := by
  induction as generalizing seen with
  | nil => simp [collide] at h
  | cons a rest ih =>
    simp only [collide] at h
    by_cases ha : a ∈ seen
    · simp only [ha, if_true, Except.error.injEq] at h
      exact ⟨a, [], rest, rfl, Or.inl ha, h.symm⟩
    · simp only [ha, if_false] at h
      obtain ⟨b, l1, l2, hsplit, hb, he⟩ := ih (a :: seen) h
      refine ⟨b, a :: l1, l2, by simp [hsplit], ?_, he⟩
      rcases hb with hb | hb
      · rcases List.mem_cons.1 hb with hb | hb
        · right
          rw [hb]
          exact List.mem_cons_self _ _
        · exact Or.inl hb
      · exact Or.inr (List.mem_cons_of_mem _ hb)

theorem collide_cases (p : String) (seen as : List String) :
    (∃ s, collide p seen as = .ok s) ∨ (∃ e, collide p seen as = .error e) := by
  cases h : collide p seen as with
  | ok s => exact Or.inl ⟨s, rfl⟩
  | error e => exact Or.inr ⟨e, rfl⟩

theorem lineage_cases (c : context) (anc : List context) (node : context)
    (h : Lineage c anc node) :
    (anc = [] ∧ node = c) ∨
      ∃ key ch anc1, (key, ch) ∈ c.Subs ∧ anc = c :: anc1 ∧ Lineage ch anc1 node := by
  cases h with
  | here => exact Or.inl ⟨rfl, rfl⟩
  | down _ key ch anc1 _ hsub hrest => exact Or.inr ⟨key, ch, anc1, hsub, rfl, hrest⟩

theorem lineage_head (c : context) (anc : List context) (node : context)
    (h : Lineage c anc node) : anc ++ [node] = c :: (anc ++ [node]).drop 1 := by
  cases h with
  | here => rfl
  | down _ key ch anc1 _ hsub hrest => rfl

theorem inherited_cons (c : context) (anc : List context) :
    inherited (c :: anc) = c.own ++ inherited anc := by
  simp [inherited]

mutual
theorem validateAt_ok_iff : ∀ (c : context) (seen path : List String),
    validateAt seen path c = .ok () ↔ Fresh seen c
  | .mk n opts subs, seen, path => by
    have ih := validateSubs_ok_iff subs
    simp only [validateAt]
    rcases collide_cases (renderPath path) seen (opts.flatMap option.aliases) with
      ⟨s, hs⟩ | ⟨e, he⟩
    · simp only [hs]
      obtain ⟨hnd, hfresh, hseen⟩ := (collide_ok_iff _ _ _ _).1 hs
      rw [ih]
      constructor
      · intro h anc nd hl
        rcases lineage_cases _ _ _ hl with ⟨ha, hn⟩ | ⟨key, ch, anc1, hsub, ha, hrest⟩
        · subst ha hn
          refine ⟨hnd, fun a ha => ⟨hfresh a ha, ?_⟩⟩
          simp [inherited]
        · subst ha
          obtain ⟨h1, h2⟩ := h key ch hsub anc1 nd hrest
          refine ⟨h1, fun a ha => ?_⟩
          obtain ⟨h3, h4⟩ := h2 a ha
          rw [hseen] at h3
          simp only [List.mem_append, List.mem_reverse, not_or] at h3
          refine ⟨h3.2, ?_⟩
          rw [inherited_cons, List.mem_append, not_or]
          exact ⟨h3.1, h4⟩
      · intro h key ch hsub anc nd hl
        obtain ⟨h1, h2⟩ := h (.mk n opts subs :: anc) nd (Lineage.down _ key ch anc nd hsub hl)
        refine ⟨h1, fun a ha => ?_⟩
        obtain ⟨h3, h4⟩ := h2 a ha
        rw [inherited_cons, List.mem_append, not_or] at h4
        rw [hseen]
        simp only [List.mem_append, List.mem_reverse, not_or]
        exact ⟨⟨h4.1, h3⟩, h4.2⟩
    · simp only [he]
      constructor
      · intro h
        cases h
      · intro h
        obtain ⟨h1, h2⟩ := h [] (.mk n opts subs) (Lineage.here _)
        have hok := (collide_ok_iff (renderPath path) seen (opts.flatMap option.aliases)
          ((opts.flatMap option.aliases).reverse ++ seen)).2
            ⟨h1, fun a ha => (h2 a ha).1, rfl⟩
        rw [he] at hok
        cases hok
theorem validateSubs_ok_iff : ∀ (subs : List (String × context)) (seen path : List String),
    validateSubs seen path subs = .ok () ↔
      ∀ key ch, (key, ch) ∈ subs → Fresh seen ch
  | [], seen, path => by
    simp [validateSubs]
  | (key, child) :: rest, seen, path => by
    have ih1 := validateAt_ok_iff child seen (path ++ [child.Command])
    have ih2 := validateSubs_ok_iff rest seen path
    simp only [validateSubs]
    cases hv : validateAt seen (path ++ [child.Command]) child with
    | error e =>
      simp only
      constructor
      · intro h
        cases h
      · intro h
        have := ih1.2 (h key child (List.mem_cons_self _ _))
        rw [hv] at this
        cases this
    | ok u =>
      simp only
      rw [ih2]
      have hc : Fresh seen child := ih1.1 hv
      constructor
      · intro h k ch hm
        rcases List.mem_cons.1 hm with hm | hm
        · cases hm
          exact hc
        · exact h k ch hm
      · intro h k ch hm
        exact h k ch (List.mem_cons_of_mem _ hm)
end

theorem commandPath_down (c ch : context) (anc : List context) (node : context)
    (h : Lineage ch anc node) :
    commandPath (c :: anc) node = ch.Command :: commandPath anc node := by
  have hh := lineage_head ch anc node h
  simp only [commandPath, List.cons_append, List.drop_succ_cons, List.drop_zero]
  rw [hh]
  simp

mutual
theorem validateAt_error : ∀ (c : context) (seen path : List String) (e : String),
    validateAt seen path c = .error e →
      ∃ anc nd name l1 l2, Lineage c anc nd ∧ nd.own = l1 ++ name :: l2 ∧
        (name ∈ seen ∨ name ∈ inherited anc ∨ name ∈ l1) ∧
        e = "`" ++ name ++ "` reused in " ++ renderPath (path ++ commandPath anc nd) ++
          " command"
  | .mk n opts subs, seen, path, e => by
    have ih := validateSubs_error subs
    intro h
    simp only [validateAt] at h
    rcases collide_cases (renderPath path) seen (opts.flatMap option.aliases) with
      ⟨s, hs⟩ | ⟨e1, he⟩
    · simp only [hs] at h
      obtain ⟨_, _, hseen⟩ := (collide_ok_iff _ _ _ _).1 hs
      obtain ⟨key, ch, hsub, anc, nd, name, l1, l2, hl, hown, hin, hmsg⟩ := ih s path e h
      refine ⟨.mk n opts subs :: anc, nd, name, l1, l2,
        Lineage.down _ key ch anc nd hsub hl, hown, ?_, ?_⟩
      · rw [inherited_cons]
        rcases hin with hin | hin | hin
        · rw [hseen] at hin
          simp only [List.mem_append, List.mem_reverse] at hin
          rcases hin with hin | hin
          · exact Or.inr (Or.inl (List.mem_append_left _ hin))
          · exact Or.inl hin
        · exact Or.inr (Or.inl (List.mem_append_right _ hin))
        · exact Or.inr (Or.inr hin)
      · rw [hmsg, commandPath_down _ ch anc nd hl]
        simp
    · simp only [he, Except.error.injEq] at h
      subst h
      obtain ⟨a, l1, l2, hsplit, hin, hmsg⟩ := collide_error _ _ _ _ he
      refine ⟨[], .mk n opts subs, a, l1, l2, Lineage.here _, hsplit, ?_, ?_⟩
      · rcases hin with hin | hin
        · exact Or.inl hin
        · exact Or.inr (Or.inr hin)
      · rw [hmsg]
        simp [commandPath]
theorem validateSubs_error : ∀ (subs : List (String × context)) (seen path : List String)
    (e : String), validateSubs seen path subs = .error e →
      ∃ key ch, (key, ch) ∈ subs ∧
        ∃ anc nd name l1 l2, Lineage ch anc nd ∧ nd.own = l1 ++ name :: l2 ∧
          (name ∈ seen ∨ name ∈ inherited anc ∨ name ∈ l1) ∧
          e = "`" ++ name ++ "` reused in " ++
            renderPath (path ++ [ch.Command] ++ commandPath anc nd) ++ " command"
  | [], seen, path, e => by
    intro h
    simp [validateSubs] at h
  | (key, child) :: rest, seen, path, e => by
    have ih1 := validateAt_error child seen (path ++ [child.Command]) e
    have ih2 := validateSubs_error rest seen path e
    intro h
    simp only [validateSubs] at h
    cases hv : validateAt seen (path ++ [child.Command]) child with
    | error e1 =>
      simp only [hv, Except.error.injEq] at h
      subst h
      exact ⟨key, child, List.mem_cons_self _ _, ih1 hv⟩
    | ok u =>
      simp only [hv] at h
      obtain ⟨k, ch, hm, hrest⟩ := ih2 h
      exact ⟨k, ch, List.mem_cons_of_mem _ hm, hrest⟩
end

theorem validate_cases (c : context) :
    validate c = .ok () ∨ ∃ e, validate c = .error e := by
  cases h : validate c with
  | ok u => exact Or.inl rfl
  | error e => exact Or.inr ⟨e, rfl⟩

theorem fresh_iff_not_clash (c : context) (hc : Collapsed c) :
    Fresh [] c ↔ ¬ Clash c := by
  constructor
  · rintro hf ⟨anc, nd, name, hl, h⟩
    obtain ⟨hnd, hfr⟩ := hf anc nd hl
    rcases h with ⟨i, j, hi, hj, hij, h1, h2⟩ | ⟨a, ha, d, hd, d1, hd1, h1, h2⟩
    · have hp := (List.nodup_flatMap.1 hnd).2
      exact List.pairwise_iff_getElem.1 hp i j hi hj hij h1 h2
    · have hown : name ∈ nd.own := List.mem_flatMap.2 ⟨d1, hd1, h2⟩
      refine (hfr name hown).2 ?_
      exact List.mem_flatMap.2 ⟨a, ha, List.mem_flatMap.2 ⟨d, hd, h1⟩⟩
  · intro hn anc nd hl
    refine ⟨?_, fun a ha => ⟨List.not_mem_nil _, ?_⟩⟩
    · refine List.nodup_flatMap.2 ⟨hc anc nd hl, ?_⟩
      refine List.pairwise_iff_getElem.2 ?_
      intro i j hi hj hij name h1 h2
      exact hn ⟨anc, nd, name, hl, Or.inl ⟨i, j, hi, hj, hij, h1, h2⟩⟩
    · intro hin
      obtain ⟨x, hx, hax⟩ := List.mem_flatMap.1 hin
      obtain ⟨d, hd, had⟩ := List.mem_flatMap.1 hax
      obtain ⟨d1, hd1, had1⟩ := List.mem_flatMap.1 ha
      exact hn ⟨anc, nd, a, hl, Or.inr ⟨x, hx, d, hd, d1, hd1, had, had1⟩⟩

theorem validate_error_iff (c : context) (hc : Collapsed c) :
    (∃ e, validate c = .error e) ↔ Clash c := by
  have hok : validate c = .ok () ↔ ¬ Clash c :=
    (validateAt_ok_iff c [] []).trans (fresh_iff_not_clash c hc)
  constructor
  · rintro ⟨e, he⟩
    by_contra hn
    rw [hok.2 hn] at he
    cases he
  · intro h
    rcases validate_cases c with hv | hv
    · exact (hok.1 hv h).elim
    · exact hv

/-! ## Tags -/

theorem malformed_aliasOf (item : String) (h : Malformed item) : aliasOf item = none := by
  rcases h with ⟨rest, hd, hh, hs⟩ | ⟨name, hd, hn⟩
  · unfold aliasOf
    rw [hd]
    match rest, hh, hs with
    | [], _, _ => rfl
    | [ch], hh, hs =>
      have hne : ch ≠ '-' := fun he => hh (by rw [he]; rfl)
      have hno : shortOk ch = false := by
        cases hok : shortOk ch with
        | false => rfl
        | true => exact (hs ch hok rfl).elim
      simp [hno]
    | ch :: c2 :: more, hh, _ =>
      have hne : ch ≠ '-' := fun he => hh (by rw [he]; rfl)
      simp [hne]
  · unfold aliasOf
    rw [hd]
    match name, hn with
    | [], _ => rfl
    | [ch], _ => simp
    | n0 :: n1 :: more, hn =>
      simp only
      rcases hn with hn | hn | ⟨ch, hch, hbad⟩
      · simp only [List.length_cons] at hn
        omega
      · simp only [List.head?_cons, Option.some.injEq] at hn
        subst hn
        simp [Char.isAlpha, Char.isUpper, Char.isLower]
      · have : (n0 :: n1 :: more).all longOk = false := by
          rw [List.all_eq_false]
          exact ⟨ch, hch, by simp [hbad]⟩
        simp [this]

theorem aliasOf_short (item name : String) (h : aliasOf item = some (.short name)) :
    name.data.length = 1 := by
  unfold aliasOf at h
  split at h
  · split at h
    · split at h
      · cases h
      · cases h
    · cases h
  · split at h
    · cases h
      rfl
    · cases h
  · cases h

theorem aliasOf_long (item name : String) (h : aliasOf item = some (.long name)) :
    2 ≤ name.data.length := by
  unfold aliasOf at h
  split at h
  · split at h
    · split at h
      · cases h
        simp
      · cases h
    · cases h
  · split at h
    · cases h
    · cases h
  · cases h

theorem distinct_nil : Distinct [] [] := by
  refine ⟨List.nodup_nil, List.nodup_nil, ?_, ?_⟩ <;> intro x hx <;> cases hx

theorem nodup_snoc (l : List String) (x : String) (hl : l.Nodup) (hx : x ∉ l) :
    (l ++ [x]).Nodup := by
  rw [List.nodup_append]
  refine ⟨hl, List.nodup_singleton x, ?_⟩
  intro y hy hy1
  rw [List.mem_singleton] at hy1
  subst hy1
  exact hx hy

theorem tagAliases_distinct (tag : String) (items shorts longs s l : List String)
    (hd : Distinct shorts longs) (h : tagAliases tag items shorts longs = .ok (s, l)) :
    Distinct s l := by
  induction items generalizing shorts longs with
  | nil =>
    simp only [tagAliases, Except.ok.injEq, Prod.mk.injEq] at h
    obtain ⟨h1, h2⟩ := h
    subst h1 h2
    exact hd
  | cons item items ih =>
    obtain ⟨hs, hl, hs1, hl2⟩ := hd
    simp only [tagAliases] at h
    cases ha : aliasOf item with
    | none => simp [ha] at h
    | some a =>
      cases a with
      | short name =>
        simp only [ha] at h
        refine ih _ _ ?_ h
        by_cases hm : name ∈ shorts
        · simp only [hm, if_true]
          exact ⟨hs, hl, hs1, hl2⟩
        · simp only [hm, if_false]
          refine ⟨nodup_snoc _ _ hs hm, hl, ?_, hl2⟩
          intro x hx
          rcases List.mem_append.1 hx with hx | hx
          · exact hs1 x hx
          · rw [List.mem_singleton] at hx
            subst hx
            exact aliasOf_short item _ ha
      | long name =>
        simp only [ha] at h
        refine ih _ _ ?_ h
        by_cases hm : name ∈ longs
        · simp only [hm, if_true]
          exact ⟨hs, hl, hs1, hl2⟩
        · simp only [hm, if_false]
          refine ⟨hs, nodup_snoc _ _ hl hm, hs1, ?_⟩
          intro x hx
          rcases List.mem_append.1 hx with hx | hx
          · exact hl2 x hx
          · rw [List.mem_singleton] at hx
            subst hx
            exact aliasOf_long item _ ha

theorem append_left_injective (p : String) : Function.Injective (fun a : String => p ++ a) := by
  intro a b h
  have hd : (p ++ a).data = (p ++ b).data := congrArg String.data h
  simp only [String.data_append, List.append_cancel_left_eq] at hd
  exact String.ext hd

theorem aliases_nodup (d : option) (h : Distinct d.Shorts d.Longs) : d.aliases.Nodup := by
  obtain ⟨hs, hl, hs1, hl2⟩ := h
  unfold option.aliases
  rw [List.nodup_append]
  refine ⟨hs.map (append_left_injective "-"), hl.map (append_left_injective "--"), ?_⟩
  intro x hx hx1
  obtain ⟨a, ha, rfl⟩ := List.mem_map.1 hx
  obtain ⟨b, hb, hab⟩ := List.mem_map.1 hx1
  have hd : ("--" ++ b).data = ("-" ++ a).data := congrArg String.data hab
  have hlen := congrArg List.length hd
  simp only [String.data_append, List.length_append] at hlen
  have h1 := hs1 a ha
  have h2 := hl2 b hb
  have e1 : "--".data.length = 2 := rfl
  have e2 : "-".data.length = 1 := rfl
  simp only [e1, e2] at hlen
  omega

theorem tagAliases_invalid (tag : String) (pre : List String) (item : String)
    (post shorts longs : List String) (hpre : ∀ y ∈ pre, aliasOf y ≠ none)
    (hbad : aliasOf item = none) :
    tagAliases tag (pre ++ item :: post) shorts longs = .error (invalidAlias item tag) := by
  induction pre generalizing shorts longs with
  | nil =>
    simp only [List.nil_append, tagAliases, hbad]
    rfl
  | cons p pre ih =>
    have hp := hpre p (List.mem_cons_self _ _)
    have ih1 := fun s l => ih s l (fun y hy => hpre y (List.mem_cons_of_mem _ hy))
    simp only [List.cons_append, tagAliases]
    cases ha : aliasOf p with
    | none => exact (hp ha).elim
    | some a =>
      cases a with
      | short name => exact ih1 _ _
      | long name => exact ih1 _ _

theorem within_mono (a b : Alias) (shorts longs : List String) (h : a.within shorts longs) :
    (match b with
      | .short name => a.within (if name ∈ shorts then shorts else shorts ++ [name]) longs
      | .long name => a.within shorts (if name ∈ longs then longs else longs ++ [name])) := by
  cases b with
  | short name =>
    cases a with
    | short n =>
      simp only [Alias.within] at h ⊢
      split
      · exact h
      · exact List.mem_append_left _ h
    | long n => exact h
  | long name =>
    cases a with
    | short n => exact h
    | long n =>
      simp only [Alias.within] at h ⊢
      split
      · exact h
      · exact List.mem_append_left _ h

theorem tagAliases_known (tag : String) (pre : List String) (x : String) (a : Alias)
    (post shorts longs : List String) (ha : aliasOf x = some a)
    (hin : a.within shorts longs) :
    tagAliases tag (pre ++ x :: post) shorts longs =
      tagAliases tag (pre ++ post) shorts longs := by
  induction pre generalizing shorts longs with
  | nil =>
    simp only [List.nil_append, tagAliases, ha]
    cases a with
    | short name =>
      simp only [Alias.within] at hin
      simp only [hin, if_true]
    | long name =>
      simp only [Alias.within] at hin
      simp only [hin, if_true]
  | cons p pre ih =>
    simp only [List.cons_append, tagAliases]
    cases hp : aliasOf p with
    | none => rfl
    | some b =>
      cases b with
      | short name => exact ih _ _ (within_mono a (.short name) shorts longs hin)
      | long name => exact ih _ _ (within_mono a (.long name) shorts longs hin)

theorem tagAliases_repeat (tag : String) (pre : List String) (x : String)
    (post shorts longs : List String) (hx : x ∈ pre) :
    tagAliases tag (pre ++ x :: post) shorts longs =
      tagAliases tag (pre ++ post) shorts longs := by
  induction pre generalizing shorts longs with
  | nil => cases hx
  | cons p pre ih =>
    simp only [List.cons_append, tagAliases]
    cases hp : aliasOf p with
    | none => rfl
    | some b =>
      rcases List.mem_cons.1 hx with hx | hx
      · subst hx
        cases b with
        | short name =>
          refine tagAliases_known tag pre x (.short name) post _ _ hp ?_
          simp only [Alias.within]
          split
          · assumption
          · simp
        | long name =>
          refine tagAliases_known tag pre x (.long name) post _ _ hp ?_
          simp only [Alias.within]
          split
          · assumption
          · simp
      · cases b with
        | short name => exact ih _ _ hx
        | long name => exact ih _ _ hx

/-! ## Schema construction -/

theorem reflectLevel_struct (cmd : String) (tags : List String) (addrs : List Nat)
    (types : List GoType) :
    reflectLevel cmd (.Struct tags addrs types) =
      match reflectFields tags addrs types with
      | .error e => .error e
      | .ok (opts, subs) => .ok (.mk cmd opts subs) := rfl

theorem reflectFields_cons (tag : String) (tags : List String) (addr : Nat)
    (addrs : List Nat) (ty : GoType) (types : List GoType) :
    reflectFields (tag :: tags) (addr :: addrs) (ty :: types) =
      match reflectFields tags addrs types with
      | .error e => .error e
      | .ok (opts, subs) =>
        match tagItems tag with
        | [] => .ok (opts, subs)
        | item :: items =>
          match ty with
          | .Struct t a y =>
            match reflectLevel item (.Struct t a y) with
            | .error e => .error e
            | .ok child => .ok (opts, (item :: items).map (fun al => (al, child)) ++ subs)
          | _ =>
            match kindOf ty with
            | none => .error "cli cannot operate on this type"
            | some k =>
              match tagAliases tag (item :: items) [] [] with
              | .error e => .error e
              | .ok (shorts, longs) => .ok (⟨k, shorts, longs, addr, ""⟩ :: opts, subs) := by
  cases ty <;> rfl

theorem reflectFields_short (tags : List String) (addrs : List Nat) (types : List GoType)
    (h : tags = [] ∨ addrs = [] ∨ types = []) :
    reflectFields tags addrs types = .ok ([], []) := by
  cases types with
  | nil => cases tags <;> cases addrs <;> rfl
  | cons ty types =>
    cases tags with
    | nil => rfl
    | cons tag tags =>
      cases addrs with
      | nil => rfl
      | cons addr addrs => simp at h

theorem collapsed_mk (cmd : String) (opts : List option) (subs : List (String × context))
    (ho : ∀ d ∈ opts, d.aliases.Nodup) (hs : ∀ k ch, (k, ch) ∈ subs → Collapsed ch) :
    Collapsed (.mk cmd opts subs) := by
  intro anc nd hl
  rcases lineage_cases _ _ _ hl with ⟨_, hn⟩ | ⟨key, ch, anc1, hsub, _, hrest⟩
  · subst hn
    exact ho
  · exact hs key ch hsub anc1 nd hrest

mutual
theorem reflectLevel_collapsed : ∀ (ty : GoType) (cmd : String) (c : context),
    reflectLevel cmd ty = .ok c → Collapsed c
  | .Struct tags addrs types, cmd, c => by
    have ih := reflectFields_collapsed types tags addrs
    intro h
    rw [reflectLevel_struct] at h
    cases hf : reflectFields tags addrs types with
    | error e => simp [hf] at h
    | ok r =>
      obtain ⟨opts, subs⟩ := r
      simp only [hf, Except.ok.injEq] at h
      subst h
      obtain ⟨h1, h2⟩ := ih opts subs hf
      exact collapsed_mk cmd opts subs h1 h2
  | .Bool, cmd, c => fun h => Except.noConfusion h
  | .String, cmd, c => fun h => Except.noConfusion h
  | .Int _, cmd, c => fun h => Except.noConfusion h
  | .Uint _, cmd, c => fun h => Except.noConfusion h
  | .Slice _, cmd, c => fun h => Except.noConfusion h
  | .Interface, cmd, c => fun h => Except.noConfusion h
theorem reflectFields_collapsed : ∀ (types : List GoType) (tags : List String)
    (addrs : List Nat) (opts : List option) (subs : List (String × context)),
    reflectFields tags addrs types = .ok (opts, subs) →
      (∀ d ∈ opts, d.aliases.Nodup) ∧ ∀ k ch, (k, ch) ∈ subs → Collapsed ch
  | [], tags, addrs, opts, subs => by
    intro h
    rw [reflectFields_short tags addrs [] (Or.inr (Or.inr rfl))] at h
    cases h
    exact ⟨fun _ hd => (nomatch hd), fun _ _ hd => (nomatch hd)⟩
  | ty :: types, [], addrs, opts, subs => by
    intro h
    rw [reflectFields_short [] addrs _ (Or.inl rfl)] at h
    cases h
    exact ⟨fun _ hd => (nomatch hd), fun _ _ hd => (nomatch hd)⟩
  | ty :: types, tag :: tags, [], opts, subs => by
    intro h
    rw [reflectFields_short _ [] _ (Or.inr (Or.inl rfl))] at h
    cases h
    exact ⟨fun _ hd => (nomatch hd), fun _ _ hd => (nomatch hd)⟩
  | ty :: types, tag :: tags, addr :: addrs, opts, subs => by
    have ih := reflectFields_collapsed types tags addrs
    have ihl := reflectLevel_collapsed ty
    intro h
    rw [reflectFields_cons] at h
    cases hf : reflectFields tags addrs types with
    | error e => simp [hf] at h
    | ok r =>
      obtain ⟨opts0, subs0⟩ := r
      obtain ⟨h1, h2⟩ := ih opts0 subs0 hf
      simp only [hf] at h
      cases hti : tagItems tag with
      | nil =>
        simp only [hti, Except.ok.injEq, Prod.mk.injEq] at h
        obtain ⟨e1, e2⟩ := h
        subst e1 e2
        exact ⟨h1, h2⟩
      | cons item items =>
        simp only [hti] at h
        split at h
        · rename_i t a y
          cases hl : reflectLevel item (.Struct t a y) with
          | error e => simp [hl] at h
          | ok child =>
            simp only [hl, Except.ok.injEq, Prod.mk.injEq] at h
            obtain ⟨e1, e2⟩ := h
            subst e1 e2
            refine ⟨h1, ?_⟩
            intro k ch hm
            rcases List.mem_append.1 hm with hm | hm
            · obtain ⟨al, _, hal⟩ := List.mem_map.1 hm
              cases hal
              exact ihl item child hl
            · exact h2 k ch hm
        · cases hk : kindOf ty with
          | none => simp [hk] at h
          | some k =>
            simp only [hk] at h
            cases hta : tagAliases tag (item :: items) [] [] with
            | error e => simp [hta] at h
            | ok r =>
              obtain ⟨shorts, longs⟩ := r
              simp only [hta, Except.ok.injEq, Prod.mk.injEq] at h
              obtain ⟨e1, e2⟩ := h
              subst e1 e2
              refine ⟨?_, h2⟩
              intro d hd
              rcases List.mem_cons.1 hd with hd | hd
              · subst hd
                exact aliases_nodup _ (tagAliases_distinct tag _ [] [] shorts longs
                  distinct_nil hta)
              · exact h1 d hd
end

theorem reflectOnIt_collapsed (thing : GoType) (c : context) (h : reflectOnIt thing = .ok c) :
    Collapsed c :=
  reflectLevel_collapsed thing "" c h

theorem renderPath_commandPath (anc : List context) (nd : context) :
    renderPath (commandPath anc nd) =
      if anc.isEmpty then "global" else String.intercalate " " (commandPath anc nd) := by
  cases anc with
  | nil => rfl
  | cons a rest => simp [renderPath, commandPath]

/-- C17: for the command tree that schema construction builds from any
structure, whatever its depth, validation fails exactly when some alias is
declared by two different descriptors of the same level, or of a level and one
of its ancestors; it succeeds exactly when there is no such pair, so that
levels which are not on one line of descent (siblings and their descendants)
may share aliases; and an alias shared by a level and an ancestor, however
many levels apart, makes validation fail. -/
theorem validation_fails_iff_clash (thing : GoType) (c : context)
    (h : reflectOnIt thing = .ok c) :
    ((∃ e, validate c = .error e) ↔ Clash c) ∧
    (validate c = .ok () ↔ ¬ Clash c) ∧
    (∀ anc node a d d1 name, Lineage c anc node → a ∈ anc → d ∈ a.Options →
      d1 ∈ node.Options → name ∈ d.aliases → name ∈ d1.aliases →
      ∃ e, validate c = .error e) := by
  have hc := reflectOnIt_collapsed thing c h
  have hiff := validate_error_iff c hc
  refine ⟨hiff, (validateAt_ok_iff c [] []).trans (fresh_iff_not_clash c hc), ?_⟩
  intro anc node a d d1 name hl ha hd hd1 hn hn1
  exact hiff.2 ⟨anc, node, name, hl, Or.inr ⟨a, ha, d, hd, d1, hd1, hn, hn1⟩⟩

/-- C17, at two structures of the tests: the commands `do` and `list` both
declare `-v` and the schema is accepted, hence holds no clash; `-h` declared
at the root and two levels below, in `thing create`, is rejected. -/
theorem validation_fails_iff_clash_witness :
    reflectOnIt sharedShorts = .ok sharedShortsSchema ∧
    ¬ Clash sharedShortsSchema ∧
    reflectOnIt deepReuse = .ok deepReuseSchema ∧
    ∃ e, validate deepReuseSchema = .error e :=
  ⟨rfl, (validation_fails_iff_clash sharedShorts sharedShortsSchema rfl).2.1.1 rfl, rfl,
    (validation_fails_iff_clash deepReuse deepReuseSchema rfl).2.2
      [deepReuseSchema, .mk "thing" [] [("create", .mk "create" [⟨.String, ["h"], ["host"], 1, ""⟩] [])]]
      (.mk "create" [⟨.String, ["h"], ["host"], 1, ""⟩] [])
      deepReuseSchema ⟨.Bool, ["h"], ["help"], 0, ""⟩ ⟨.String, ["h"], ["host"], 1, ""⟩ "-h"
      (Lineage.down _ "thing" _ _ _ (List.mem_cons_self _ _)
        (Lineage.down _ "create" _ _ _ (List.mem_cons_self _ _) (Lineage.here _)))
      (List.mem_cons_self _ _) (List.mem_cons_self _ _) (List.mem_cons_self _ _)
      (by decide) (by decide)⟩

/-- C18: when validation fails, the message is made of an alias as it is
written on a level of the tree, where it is declared for the second time on
that level or is already declared on an ancestor, then of `reused in`, then of
the place of that level, the word `global` for the root and otherwise the
canonical names of the commands from below the root down to the level, joined
by single spaces, and then of the word `command`. -/
theorem collision_message (c : context) (e : String) (h : validate c = .error e) :
    ∃ anc nd name l1 l2, Lineage c anc nd ∧ nd.own = l1 ++ name :: l2 ∧
      (name ∈ inherited anc ∨ name ∈ l1) ∧
      e = "`" ++ name ++ "` reused in " ++
        (if anc.isEmpty then "global" else String.intercalate " " (commandPath anc nd)) ++
        " command" := by
  obtain ⟨anc, nd, name, l1, l2, hl, hown, hin, hmsg⟩ := validateAt_error c [] [] e h
  refine ⟨anc, nd, name, l1, l2, hl, hown, ?_, ?_⟩
  · rcases hin with hin | hin | hin
    · cases hin
    · exact Or.inl hin
    · exact Or.inr hin
  · rw [hmsg, List.nil_append, renderPath_commandPath]

/-- C18, at two structures of the tests: `-h` declared twice at the root is
reported for the `global` command, and `-h` declared at the root and again in
`thing create` is reported for the `thing create` command. -/
theorem collision_message_witness :
    validate reusedShortSchema = .error "`-h` reused in global command" ∧
    validate deepReuseSchema = .error "`-h` reused in thing create command" ∧
    ∃ anc nd name l1 l2, Lineage deepReuseSchema anc nd ∧ nd.own = l1 ++ name :: l2 ∧
      (name ∈ inherited anc ∨ name ∈ l1) ∧
      "`-h` reused in thing create command" = "`" ++ name ++ "` reused in " ++
        (if anc.isEmpty then "global" else String.intercalate " " (commandPath anc nd)) ++
        " command" :=
  ⟨rfl, rfl, collision_message deepReuseSchema "`-h` reused in thing create command" rfl⟩

theorem reflectLevel_error (cmd : String) (tags : List String) (addrs : List Nat)
    (types : List GoType) (e : String) (h : reflectFields tags addrs types = .error e) :
    reflectLevel cmd (.Struct tags addrs types) = .error e := by
  rw [reflectLevel_struct, h]

theorem reflectFields_scalar (tag : String) (tags : List String) (addr : Nat)
    (addrs : List Nat) (ty : GoType) (types : List GoType) (k : Kind)
    (hk : kindOf ty = some k) (opts : List option) (subs : List (String × context))
    (htail : reflectFields tags addrs types = .ok (opts, subs)) (item : String)
    (items : List String) (hti : tagItems tag = item :: items) :
    reflectFields (tag :: tags) (addr :: addrs) (ty :: types) =
      match tagAliases tag (item :: items) [] [] with
      | .error e => .error e
      | .ok (shorts, longs) => .ok (⟨k, shorts, longs, addr, ""⟩ :: opts, subs) := by
  rw [reflectFields_cons, htail]
  simp only [hti]
  cases ty with
  | Struct t a y => simp [kindOf] at hk
  | Bool =>
    simp only [hk]
    try rfl
  | String =>
    simp only [hk]
    try rfl
  | Int bits =>
    simp only [hk]
    try rfl
  | Uint bits =>
    simp only [hk]
    try rfl
  | Slice elem =>
    simp only [hk]
    try rfl
  | Interface =>
    simp only [hk]
    try rfl

theorem reflectFields_sub_error (tag : String) (tags : List String) (addr : Nat)
    (addrs : List Nat) (t : List String) (a : List Nat) (y : List GoType)
    (types : List GoType) (r : List option × List (String × context))
    (htail : reflectFields tags addrs types = .ok r) (hcmd : tagItems tag ≠ []) (e : String)
    (h : reflectFields t a y = .error e) :
    reflectFields (tag :: tags) (addr :: addrs) (.Struct t a y :: types) = .error e := by
  rw [reflectFields_cons, htail]
  obtain ⟨opts, subs⟩ := r
  cases hti : tagItems tag with
  | nil => exact (hcmd hti).elim
  | cons item items =>
    simp only
    rw [reflectLevel_error item t a y e h]

theorem reflectFields_append_error (types0 : List GoType) (tags0 : List String)
    (addrs0 : List Nat) (hl1 : tags0.length = types0.length)
    (hl2 : addrs0.length = types0.length) (tags : List String) (addrs : List Nat)
    (types : List GoType) (e : String) (h : reflectFields tags addrs types = .error e) :
    reflectFields (tags0 ++ tags) (addrs0 ++ addrs) (types0 ++ types) = .error e := by
  induction types0 generalizing tags0 addrs0 with
  | nil =>
    cases tags0 with
    | cons _ _ => cases hl1
    | nil =>
      cases addrs0 with
      | cons _ _ => cases hl2
      | nil => exact h
  | cons ty types0 ih =>
    cases tags0 with
    | nil => cases hl1
    | cons tag tags0 =>
      cases addrs0 with
      | nil => cases hl2
      | cons addr addrs0 =>
        simp only [List.length_cons, Nat.add_right_cancel_iff] at hl1 hl2
        simp only [List.cons_append]
        rw [reflectFields_cons, ih tags0 addrs0 hl1 hl2]

theorem reflectFields_append_congr (types0 : List GoType) (tags0 : List String)
    (addrs0 : List Nat) (hl1 : tags0.length = types0.length)
    (hl2 : addrs0.length = types0.length) (tags1 tags2 : List String)
    (addrs1 addrs2 : List Nat) (types1 types2 : List GoType)
    (h : ∀ r, reflectFields tags1 addrs1 types1 = .ok r ↔
      reflectFields tags2 addrs2 types2 = .ok r) :
    ∀ r, reflectFields (tags0 ++ tags1) (addrs0 ++ addrs1) (types0 ++ types1) = .ok r ↔
      reflectFields (tags0 ++ tags2) (addrs0 ++ addrs2) (types0 ++ types2) = .ok r := by
  induction types0 generalizing tags0 addrs0 with
  | nil =>
    cases tags0 with
    | cons _ _ => cases hl1
    | nil =>
      cases addrs0 with
      | cons _ _ => cases hl2
      | nil => exact h
  | cons ty types0 ih =>
    cases tags0 with
    | nil => cases hl1
    | cons tag tags0 =>
      cases addrs0 with
      | nil => cases hl2
      | cons addr addrs0 =>
        simp only [List.length_cons, Nat.add_right_cancel_iff] at hl1 hl2
        have ih1 := ih tags0 addrs0 hl1 hl2
        intro r
        simp only [List.cons_append]
        rw [reflectFields_cons, reflectFields_cons]
        cases hA : reflectFields (tags0 ++ tags1) (addrs0 ++ addrs1) (types0 ++ types1) with
        | ok ra => rw [(ih1 ra).1 hA]
        | error ea =>
          cases hB : reflectFields (tags0 ++ tags2) (addrs0 ++ addrs2) (types0 ++ types2) with
          | ok rb =>
            rw [(ih1 rb).2 hB] at hA
            cases hA
          | error eb =>
            constructor <;> intro hh <;> cases hh

theorem tagAliases_tag (tag1 tag2 : String) (items shorts longs : List String)
    (r : List String × List String) :
    tagAliases tag1 items shorts longs = .ok r ↔ tagAliases tag2 items shorts longs = .ok r := by
  induction items generalizing shorts longs with
  | nil => simp only [tagAliases]
  | cons item items ih =>
    simp only [tagAliases]
    cases ha : aliasOf item with
    | none =>
      constructor <;> intro hh <;> cases hh
    | some a =>
      cases a with
      | short name => exact ih _ _
      | long name => exact ih _ _

theorem reflectFields_repeat (tag1 tag2 : String) (pre post : List String) (x : String)
    (h1 : tagItems tag1 = pre ++ x :: post) (hx : x ∈ pre) (h2 : tagItems tag2 = pre ++ post)
    (ty : GoType) (k : Kind) (hk : kindOf ty = some k) (addr : Nat) (tags : List String)
    (addrs : List Nat) (types : List GoType) :
    ∀ r, reflectFields (tag1 :: tags) (addr :: addrs) (ty :: types) = .ok r ↔
      reflectFields (tag2 :: tags) (addr :: addrs) (ty :: types) = .ok r := by
  intro r
  cases htail : reflectFields tags addrs types with
  | error e =>
    have e1 : reflectFields (tag1 :: tags) (addr :: addrs) (ty :: types) = .error e := by
      rw [reflectFields_cons, htail]
    have e2 : reflectFields (tag2 :: tags) (addr :: addrs) (ty :: types) = .error e := by
      rw [reflectFields_cons, htail]
    rw [e1, e2]
  | ok r0 =>
    obtain ⟨opts, subs⟩ := r0
    cases pre with
    | nil => cases hx
    | cons p pre =>
      rw [reflectFields_scalar tag1 tags addr addrs ty types k hk opts subs htail p
          (pre ++ x :: post) h1,
        reflectFields_scalar tag2 tags addr addrs ty types k hk opts subs htail p
          (pre ++ post) h2]
      have hrep := tagAliases_repeat tag1 (p :: pre) x post [] [] hx
      simp only [List.cons_append] at hrep
      rw [hrep]
      cases hA : tagAliases tag1 (p :: (pre ++ post)) [] [] with
      | ok ra => rw [(tagAliases_tag tag1 tag2 _ [] [] ra).1 hA]
      | error ea =>
        cases hB : tagAliases tag2 (p :: (pre ++ post)) [] [] with
        | ok rb =>
          rw [(tagAliases_tag tag1 tag2 _ [] [] rb).2 hB] at hA
          cases hA
        | error eb =>
          constructor <;> intro hh <;> cases hh

theorem reflectFields_invalid (tag item : String) (pre post : List String)
    (hitems : tagItems tag = pre ++ item :: post) (hpre : ∀ y ∈ pre, aliasOf y ≠ none)
    (hbad : aliasOf item = none) (ty : GoType) (k : Kind) (hk : kindOf ty = some k)
    (addr : Nat) (tags : List String) (addrs : List Nat) (types : List GoType)
    (r : List option × List (String × context))
    (hrest : reflectFields tags addrs types = .ok r) :
    reflectFields (tag :: tags) (addr :: addrs) (ty :: types) =
      .error (invalidAlias item tag) := by
  obtain ⟨opts, subs⟩ := r
  have herr := tagAliases_invalid tag pre item post [] [] hpre hbad
  cases pre with
  | nil =>
    rw [reflectFields_scalar tag tags addr addrs ty types k hk opts subs hrest item post hitems]
    rw [List.nil_append] at herr
    rw [herr]
  | cons p pre =>
    rw [reflectFields_scalar tag tags addr addrs ty types k hk opts subs hrest p
      (pre ++ item :: post) hitems]
    rw [List.cons_append] at herr
    rw [herr]

theorem repeats_struct (s1 s2 : GoType) (h : Repeats s1 s2) :
    (∃ t a y, s1 = .Struct t a y) ∧ ∃ t a y, s2 = .Struct t a y := by
  cases h with
  | field => exact ⟨⟨_, _, _, rfl⟩, ⟨_, _, _, rfl⟩⟩
  | sub => exact ⟨⟨_, _, _, rfl⟩, ⟨_, _, _, rfl⟩⟩

theorem reflectLevel_congr (cmd : String) (tags1 tags2 : List String) (addrs1 addrs2 : List Nat)
    (types1 types2 : List GoType)
    (h : ∀ r, reflectFields tags1 addrs1 types1 = .ok r ↔
      reflectFields tags2 addrs2 types2 = .ok r) (c : context) :
    reflectLevel cmd (.Struct tags1 addrs1 types1) = .ok c ↔
      reflectLevel cmd (.Struct tags2 addrs2 types2) = .ok c := by
  rw [reflectLevel_struct, reflectLevel_struct]
  cases hA : reflectFields tags1 addrs1 types1 with
  | ok ra => rw [(h ra).1 hA]
  | error ea =>
    cases hB : reflectFields tags2 addrs2 types2 with
    | ok rb =>
      rw [(h rb).2 hB] at hA
      cases hA
    | error eb =>
      constructor <;> intro hh <;> cases hh

theorem reflectFields_sub_congr (tag : String) (tags : List String) (addr : Nat)
    (addrs : List Nat) (t1 t2 : List String) (a1 a2 : List Nat) (y1 y2 : List GoType)
    (types : List GoType)
    (h : ∀ cmd c, reflectLevel cmd (.Struct t1 a1 y1) = .ok c ↔
      reflectLevel cmd (.Struct t2 a2 y2) = .ok c) :
    ∀ r, reflectFields (tag :: tags) (addr :: addrs) (.Struct t1 a1 y1 :: types) = .ok r ↔
      reflectFields (tag :: tags) (addr :: addrs) (.Struct t2 a2 y2 :: types) = .ok r := by
  intro r
  rw [reflectFields_cons, reflectFields_cons]
  cases htail : reflectFields tags addrs types with
  | error e => exact Iff.rfl
  | ok r0 =>
    obtain ⟨opts, subs⟩ := r0
    cases hti : tagItems tag with
    | nil => exact Iff.rfl
    | cons item items =>
      simp only
      cases hA : reflectLevel item (.Struct t1 a1 y1) with
      | ok ca => rw [(h item ca).1 hA]
      | error ea =>
        cases hB : reflectLevel item (.Struct t2 a2 y2) with
        | ok cb =>
          rw [(h item cb).2 hB] at hA
          cases hA
        | error eb =>
          constructor <;> intro hh <;> cases hh

theorem reflectLevel_repeats (s1 s2 : GoType) (h : Repeats s1 s2) :
    ∀ cmd c, reflectLevel cmd s1 = .ok c ↔ reflectLevel cmd s2 = .ok c := by
  induction h with
  | field tag1 tag2 pre post x h1 hx h2 ty k hk tags0 addrs0 types0 hl1 hl2 addr tags addrs
      types =>
    intro cmd c
    exact reflectLevel_congr cmd _ _ _ _ _ _
      (reflectFields_append_congr types0 tags0 addrs0 hl1 hl2 _ _ _ _ _ _
        (reflectFields_repeat tag1 tag2 pre post x h1 hx h2 ty k hk addr tags addrs types)) c
  | sub s1 s2 h cmd0 tags0 addrs0 types0 hl1 hl2 addr tags addrs types ih =>
    intro cmd c
    obtain ⟨⟨t1, a1, y1, e1⟩, ⟨t2, a2, y2, e2⟩⟩ := repeats_struct s1 s2 h
    subst e1 e2
    exact reflectLevel_congr cmd _ _ _ _ _ _
      (reflectFields_append_congr types0 tags0 addrs0 hl1 hl2 _ _ _ _ _ _
        (reflectFields_sub_congr cmd0 tags addr addrs t1 t2 a1 a2 y1 y2 types ih)) c

theorem reflectLevel_declares (tag item : String) (pre post : List String)
    (hitems : tagItems tag = pre ++ item :: post) (hpre : ∀ y ∈ pre, aliasOf y ≠ none)
    (hbad : aliasOf item = none) (ty : GoType) (k : Kind) (hk : kindOf ty = some k)
    (s : GoType) (h : Declares tag ty s) :
    ∀ cmd, reflectLevel cmd s = .error (invalidAlias item tag) := by
  induction h with
  | field tags0 addrs0 types0 hl1 hl2 addr tags addrs types r hrest =>
    intro cmd
    exact reflectLevel_error cmd _ _ _ _
      (reflectFields_append_error types0 tags0 addrs0 hl1 hl2 _ _ _ _
        (reflectFields_invalid tag item pre post hitems hpre hbad ty k hk addr tags addrs
          types r hrest))
  | sub s h cmd0 hcmd tags0 addrs0 types0 hl1 hl2 addr tags addrs types r hrest ih =>
    intro cmd
    have hs : ∃ t a y, s = .Struct t a y := by
      cases h with
      | field => exact ⟨_, _, _, rfl⟩
      | sub => exact ⟨_, _, _, rfl⟩
    obtain ⟨t, a, y, e1⟩ := hs
    subst e1
    have hf : reflectFields t a y = .error (invalidAlias item tag) := by
      have h0 := ih ""
      cases hA : reflectFields t a y with
      | error e =>
        rw [reflectLevel_error "" t a y e hA] at h0
        rw [Except.error.inj h0]
      | ok r1 =>
        have h1 : reflectLevel "" (.Struct t a y) = .ok (.mk "" r1.1 r1.2) := by
          rw [reflectLevel_struct, hA]
        rw [h1] at h0
        exact Except.noConfusion h0
    exact reflectLevel_error cmd _ _ _ _
      (reflectFields_append_error types0 tags0 addrs0 hl1 hl2 _ _ _ _
        (reflectFields_sub_error cmd0 tags addr addrs t a y types r hrest hcmd _ hf))

/-- C19: a tag that repeats an alias it already lists builds the same schema as
the tag without the repeat, in an option field at any depth: either structure
yields a schema exactly when the other yields that same schema.  In the schema
built every descriptor lists each of its aliases once, validation succeeds
exactly when no alias is declared by two different descriptors of one level or
of a level and an ancestor, and `ParseArgs` returns the same for both
structures, whatever the tokens and the storage. -/
theorem repeated_alias_collapsed (thing1 thing2 : GoType) (h : Repeats thing1 thing2) :
    (∀ c, reflectOnIt thing1 = .ok c ↔ reflectOnIt thing2 = .ok c) ∧
    (∀ c, reflectOnIt thing1 = .ok c →
      Collapsed c ∧ (validate c = .ok () ↔ ¬ Clash c) ∧
      ∀ args fields, ParseArgs thing1 args fields = ParseArgs thing2 args fields) := by
  have hiff := reflectLevel_repeats thing1 thing2 h ""
  refine ⟨hiff, ?_⟩
  intro c hc
  have hcol := reflectOnIt_collapsed thing1 c hc
  refine ⟨hcol, (validateAt_ok_iff c [] []).trans (fresh_iff_not_clash c hcol), ?_⟩
  intro args fields
  have hc2 : reflectOnIt thing2 = .ok c := (hiff c).1 hc
  simp only [ParseArgs, hc, hc2]

/-- C19, at the structure of "Allows short options to be repeated inside a
single field tag": the tag `-t, --time, -t` builds the schema of the tag
`-t, --time`, in which `-t` is listed once; validation accepts it and the call
without tokens reports no error. -/
theorem repeated_alias_collapsed_witness :
    Repeats repeatedShort listedOnce ∧
    reflectOnIt repeatedShort = .ok repeatedShortSchema ∧
    reflectOnIt listedOnce = .ok repeatedShortSchema ∧
    validate repeatedShortSchema = .ok () ∧
    ¬ Clash repeatedShortSchema ∧
    (ParseArgs repeatedShort [] [.one (.bool false), .one (.str "")]).err = none :=
  have hR : Repeats repeatedShort listedOnce :=
    Repeats.field "-t, --time, -t" "-t, --time" ["-t", "--time"] [] "-t" (by decide)
      (by decide) (by decide) .Bool .Bool rfl [] [] [] rfl rfl 0 ["-T"] [1] [.String]
  ⟨hR, rfl,
    ((repeated_alias_collapsed repeatedShort listedOnce hR).1 repeatedShortSchema).1 rfl, rfl,
    ((repeated_alias_collapsed repeatedShort listedOnce hR).2 repeatedShortSchema rfl).2.1.1
      rfl,
    rfl⟩

/-- C20: a tag whose first malformed token is a short alias that is not exactly
one allowed character, or a long alias with fewer than two characters, with a
further leading hyphen or with a disallowed character, makes schema
construction fail with the message `invalid alias`, the token and the tag,
whether the field is declared at the root or inside a sub-command of any depth
(the fields declared after it being well-formed); `ParseArgs` then returns
that error. -/
theorem malformed_alias_rejected (tag item : String) (pre post : List String)
    (hitems : tagItems tag = pre ++ item :: post) (hpre : ∀ y ∈ pre, aliasOf y ≠ none)
    (hbad : Malformed item) (ty : GoType) (k : Kind) (hk : kindOf ty = some k)
    (thing : GoType) (h : Declares tag ty thing) :
    reflectOnIt thing = .error ("invalid alias `" ++ item ++ "` in tag `" ++ tag ++ "`") ∧
    ∀ args fields, (ParseArgs thing args fields).err =
      some ("invalid alias `" ++ item ++ "` in tag `" ++ tag ++ "`") := by
  have hr : reflectOnIt thing = .error (invalidAlias item tag) :=
    reflectLevel_declares tag item pre post hitems hpre (malformed_aliasOf item hbad) ty k hk
      thing h ""
  refine ⟨hr, ?_⟩
  intro args fields
  simp only [ParseArgs, hr]
  rfl

/-- C20, at the structures of "Malformed tags": `-%` and `--y` at the root,
`--earned-%` and `---dashes-yo` inside the command `sub`, are rejected with
the token in the message, while `-?` is a short alias. -/
theorem malformed_alias_rejected_witness :
    reflectOnIt (malformedTag "-%") = .error "invalid alias `-%` in tag `-%`" ∧
    reflectOnIt (malformedTag "--y") = .error "invalid alias `--y` in tag `--y`" ∧
    reflectOnIt (malformedSubTag "--earned-%") =
      .error "invalid alias `--earned-%` in tag `--earned-%`" ∧
    reflectOnIt (malformedSubTag "---dashes-yo") =
      .error "invalid alias `---dashes-yo` in tag `---dashes-yo`" ∧
    aliasOf "-?" = some (.short "?") :=
  ⟨(malformed_alias_rejected "-%" "-%" [] [] (by decide) (fun _ hy => (nomatch hy))
      (Or.inl ⟨['%'], rfl, by decide,
        fun ch hok he => by cases he; exact absurd hok (by decide)⟩)
      .Bool .Bool rfl (malformedTag "-%")
      (Declares.field [] [] [] rfl rfl 0 [] [] [] ([], []) rfl)).1,
    (malformed_alias_rejected "--y" "--y" [] [] (by decide) (fun _ hy => (nomatch hy))
      (Or.inr ⟨['y'], rfl, Or.inl (by decide)⟩)
      .Bool .Bool rfl (malformedTag "--y")
      (Declares.field [] [] [] rfl rfl 0 [] [] [] ([], []) rfl)).1,
    (malformed_alias_rejected "--earned-%" "--earned-%" [] [] (by decide)
      (fun _ hy => (nomatch hy))
      (Or.inr ⟨"earned-%".data, rfl, Or.inr (Or.inr ⟨'%', by decide, by decide⟩)⟩)
      .Bool .Bool rfl (malformedSubTag "--earned-%")
      (Declares.sub _ (Declares.field [] [] [] rfl rfl 0 [] [] [] ([], []) rfl) "sub"
        (by decide) [] [] [] rfl rfl 0 [] [] [] ([], []) rfl)).1,
    (malformed_alias_rejected "---dashes-yo" "---dashes-yo" [] [] (by decide)
      (fun _ hy => (nomatch hy))
      (Or.inr ⟨"-dashes-yo".data, rfl, Or.inr (Or.inl rfl)⟩)
      .Bool .Bool rfl (malformedSubTag "---dashes-yo")
      (Declares.sub _ (Declares.field [] [] [] rfl rfl 0 [] [] [] ([], []) rfl) "sub"
        (by decide) [] [] [] rfl rfl 0 [] [] [] ([], []) rfl)).1,
    by decide⟩

/-! ## The leftover list -/

theorem stepWord_remnants (arg : String) (f : Frame) :
    (stepWord arg f).remnants = f.remnants ∨ (stepWord arg f).remnants = f.remnants ++ [arg] := by
  unfold stepWord
  split
  · split
    · exact Or.inl rfl
    · exact Or.inr rfl
  · exact Or.inr rfl

theorem step_next_remnants (c : context) (arg : String) (a : List String) (f f1 : Frame)
    (k : Bool) (h : step c arg a f = .next f1 k) :
    f1.remnants = f.remnants ∨
      (f1.remnants = f.remnants ++ [arg] ∧ (classify arg = .empty ∨ classify arg = .word)) := by
  rcases step_next_frame c arg a f f1 k h with ⟨hc, hf⟩ | ⟨hc, hf⟩ | ⟨_, _, _, hr⟩
  · subst hf
    exact Or.inr ⟨rfl, Or.inl hc⟩
  · subst hf
    rcases stepWord_remnants arg f with hw | hw
    · exact Or.inl hw
    · exact Or.inr ⟨hw, Or.inr hc⟩
  · exact Or.inl hr

theorem classify_dashes (arg : String) (h : classify arg = .dashes) : arg = "--" := by
  unfold classify at h
  split at h
  · cases h
  · split at h
    · assumption
    · split at h
      · cases h
      · split at h <;> cases h

theorem loop_remnants (c : context) (x : String) :
    ∀ (args : List String) (f : Frame), x ∈ (loop c args f).result.remnants →
      x ∈ f.remnants ∨
        (x ∈ args ∧ (classify x = .empty ∨ classify x = .word ∨ "--" ∈ args)) := by
  intro args
  induction args using tokens_induction with
  | nil =>
    intro f hx
    exact Or.inl hx
  | cons arg args ih ih2 =>
    intro f hx
    rw [loop_cons] at hx
    cases hs : step c arg args f with
    | halt e =>
      rw [hs] at hx
      cases e with
      | fail e r m =>
        obtain ⟨_, hr⟩ := step_calls_fail c arg args f e r m hs
        subst hr
        exact Or.inl hx
      | stop g =>
        obtain ⟨hc, hg⟩ := step_halt_stop c arg args f g hs
        subst hg
        have harg := classify_dashes arg hc
        rcases List.mem_append.1 hx with hx | hx
        · exact Or.inl hx
        · exact Or.inr ⟨List.mem_cons_of_mem _ hx,
            Or.inr (Or.inr (by rw [harg]; exact List.mem_cons_self _ _))⟩
      | done g => exact (step_halt_not_done c arg args f g hs).elim
    | next f1 k =>
      rw [hs] at hx
      have hrem := step_next_remnants c arg args f f1 k hs
      have key : x ∈ f1.remnants ∨
          (x ∈ args ∧ (classify x = .empty ∨ classify x = .word ∨ "--" ∈ args)) := by
        cases k with
        | false => exact ih f1 hx
        | true =>
          rcases ih2 f1 hx with h | ⟨h1, h2⟩
          · exact Or.inl h
          · refine Or.inr ⟨List.mem_of_mem_tail h1, ?_⟩
            rcases h2 with h2 | h2 | h2
            · exact Or.inl h2
            · exact Or.inr (Or.inl h2)
            · exact Or.inr (Or.inr (List.mem_of_mem_tail h2))
      rcases key with h | ⟨h1, h2⟩
      · rcases hrem with hr | ⟨hr, hcl⟩
        · rw [hr] at h
          exact Or.inl h
        · rw [hr] at h
          rcases List.mem_append.1 h with h | h
          · exact Or.inl h
          · rw [List.mem_singleton] at h
            subst h
            refine Or.inr ⟨List.mem_cons_self _ _, ?_⟩
            rcases hcl with hcl | hcl
            · exact Or.inl hcl
            · exact Or.inr (Or.inl hcl)
      · refine Or.inr ⟨List.mem_cons_of_mem _ h1, ?_⟩
        rcases h2 with h2 | h2 | h2
        · exact Or.inl h2
        · exact Or.inr (Or.inl h2)
        · exact Or.inr (Or.inr (List.mem_cons_of_mem _ h2))

theorem loop_fail_split (c : context) (e : String) (r : List String) (m : Storage) :
    ∀ (args : List String) (f : Frame), loop c args f = .fail e r m →
      ∃ pre t post g, args = pre ++ t :: post ∧ loop c pre f = .done g ∧
        step c t post g = .halt (.fail e r m) ∧ r = g.remnants := by
  intro args
  induction args using tokens_induction with
  | nil =>
    intro f h
    cases h
  | cons arg args ih ih2 =>
    intro f h
    rw [loop_cons] at h
    cases hs : step c arg args f with
    | halt x =>
      rw [hs] at h
      simp only at h
      subst h
      exact ⟨[], arg, args, f, rfl, rfl, hs, (step_calls_fail c arg args f e r m hs).2⟩
    | next f1 k =>
      rw [hs] at h
      cases k with
      | false =>
        simp only at h
        obtain ⟨pre, t, post, g, hsplit, hpre, hstep, hr⟩ := ih f1 h
        refine ⟨arg :: pre, t, post, g, by rw [hsplit]; rfl, ?_, hstep, hr⟩
        rw [loop_cons, step_next_false c arg args pre f f1 hs]
        exact hpre
      | true =>
        simp only at h
        obtain ⟨v, rest, hv⟩ := step_shift c arg args f f1 hs
        subst hv
        obtain ⟨pre, t, post, g, hsplit, hpre, hstep, hr⟩ := ih2 f1 h
        simp only [List.tail_cons] at hsplit
        refine ⟨arg :: v :: pre, t, post, g, by rw [hsplit]; rfl, ?_, hstep, hr⟩
        rw [loop_cons, step_next_head c arg (v :: rest) (v :: pre) f f1 true hs rfl]
        exact hpre

/-- C25 (the code at the failing input): whatever the structure and its
content, the loop of parse.go never puts the token `--hard` of
`-D stop --hard all` in the leftover list, so the leftover the claim requires
after the full-stop command, `--hard` then `all`, is not returned; there is no
full-stop case in the loop.  For the structure of "Full-stop behavior", with
the tag `stop!` read like any other, `stop` is a leftover and `--hard` is
refused as an unknown option. -/
theorem full_stop_not_honoured :
    (∀ (thing : GoType) (fields : List Value),
      "--hard" ∉ (ParseArgs thing ["-D", "stop", "--hard", "all"] fields).remnants) ∧
    ParseArgs fullStop ["-D", "stop", "--hard", "all"]
        [.one (.bool false), .one (.bool false)] =
      ⟨"", ["stop"], some "unrecognized option `--hard`",
        ⟨[.one (.bool false), .one (.bool true)], []⟩⟩ := by
  refine ⟨?_, by decide⟩
  intro thing fields hx
  cases hb : reflectOnIt thing with
  | error e =>
    simp only [ParseArgs, hb] at hx
    cases hx
  | ok c =>
    cases hv : validate c with
    | error e =>
      simp only [ParseArgs, hb, hv] at hx
      cases hx
    | ok u =>
      simp only [ParseArgs, hb, hv] at hx
      rcases loop_remnants c "--hard" _ _ hx with h | ⟨_, h | h | h⟩
      · cases h
      · exact absurd h (by decide)
      · exact absurd h (by decide)
      · exact absurd h (by decide)

/-- C28: the token `-` is a non-option for the loop (`len(arg) == 1`): its
iteration never returns an error and takes no value; when sub-commands are no
longer sought, or `-` names no child of the level reached, it is appended to
the leftover list and sub-commands are no longer sought; only when it names a
child while sub-commands are sought does the loop descend. -/
theorem lone_dash_is_positional (c : context) (args : List String) (f : Frame) :
    classify "-" = .word ∧
    step c "-" args f = .next (stepWord "-" f) false ∧
    loop c ("-" :: args) f = loop c args (stepWord "-" f) ∧
    ((f.insub = false ∨ f.level.sub "-" = none) →
      stepWord "-" f = ⟨f.stack, false, f.level, f.remnants ++ ["-"], f.mem⟩) ∧
    (∀ next, f.insub = true → f.level.sub "-" = some next →
      stepWord "-" f = ⟨f.stack ++ ["-"], true, next, f.remnants, f.mem⟩) := by
  have hc : classify "-" = .word := by decide
  refine ⟨hc, ?_, loop_word c "-" args f hc, ?_, ?_⟩
  · simp only [step, hc]
  · intro h
    unfold stepWord
    rcases h with h | h
    · simp [h]
    · simp only [h]
      split <;> rfl
  · intro next h1 h2
    unfold stepWord
    simp only [h1, h2, if_true]

/-- C28, at the structure of "Simple String Flags": in `- -s x` the token `-`
is a leftover and the option after it is still read. -/
theorem lone_dash_is_positional_witness :
    stepWord "-" (Frame.init stringFlagsSchema stringFlagsZero) =
      ⟨[], false, stringFlagsSchema, ["-"], ⟨stringFlagsZero, []⟩⟩ ∧
    ParseArgs stringFlags ["-", "-s", "x"] stringFlagsZero =
      ⟨"", ["-"], none, ⟨[.one (.str "x"), .one (.str ""), .one (.str "")], []⟩⟩ :=
  ⟨(lone_dash_is_positional stringFlagsSchema ["-s", "x"]
      (Frame.init stringFlagsSchema stringFlagsZero)).2.2.2.1 (Or.inr rfl), by decide⟩

/-- C30: when the scan fails, `ParseArgs` returns the empty command path,
whatever commands were matched before, and the leftover list is the one
accumulated when the failing token `t` is reached: the leftover list that the
scan of the tokens before `t` returns. -/
theorem scan_error_result (thing : GoType) (c : context) (args : List String)
    (fields : List Value) (e : String) (hb : reflectOnIt thing = .ok c)
    (hv : validate c = .ok ()) (h : (ParseArgs thing args fields).err = some e) :
    (ParseArgs thing args fields).command = "" ∧
    ∃ pre t post g m, args = pre ++ t :: post ∧
      loop c pre (Frame.init c fields) = .done g ∧
      step c t post g = .halt (.fail e g.remnants m) ∧
      ParseArgs thing pre fields = ⟨String.intercalate " " g.stack, g.remnants, none, g.mem⟩ ∧
      ParseArgs thing args fields = ⟨"", g.remnants, some e, m⟩ := by
  have hP : ∀ a, ParseArgs thing a fields = (loop c a (Frame.init c fields)).result := by
    intro a
    simp only [ParseArgs, hb, hv]
  rw [hP] at h ⊢
  cases hl : loop c args (Frame.init c fields) with
  | stop g =>
    rw [hl] at h
    cases h
  | done g =>
    rw [hl] at h
    cases h
  | fail e1 r m =>
    rw [hl] at h
    simp only [Exit.result, Option.some.injEq] at h
    subst h
    obtain ⟨pre, t, post, g, hsplit, hpre, hstep, hr⟩ := loop_fail_split c e1 r m args _ hl
    subst hr
    refine ⟨rfl, pre, t, post, g, m, hsplit, hpre, hstep, ?_, ?_⟩
    · rw [hP, hpre]
      rfl
    · rfl

/-- C30, at `hosts x --bogus` of the "Sub-commands" structure: the command
`hosts` has been matched and `x` kept when `--bogus` is refused; the command
path returned is empty and the leftover list is `x`. -/
theorem scan_error_result_witness :
    ParseArgs subcommands ["hosts", "x", "--bogus"] subcommandsZero =
      ⟨"", ["x"], some "unrecognized option `--bogus`", ⟨subcommandsZero, []⟩⟩ ∧
    (ParseArgs subcommands ["hosts", "x", "--bogus"] subcommandsZero).command = "" :=
  ⟨by decide,
    (scan_error_result subcommands subcommandsSchema ["hosts", "x", "--bogus"]
      subcommandsZero "unrecognized option `--bogus`" rfl rfl (by decide)).1⟩

/-! ## Termination -/

theorem runSteps_le (c : context) (stack : List String) (run : List Char) :
    runSteps c stack run ≤ run.length := by
  induction run with
  | nil => exact Nat.le_refl 0
  | cons ch rest ih =>
    simp only [runSteps, List.length_cons]
    split
    · omega
    · split <;> omega

theorem classify_short_length (arg : String) (run : List Char)
    (h : classify arg = .short run) : run.length < arg.length := by
  have := classify_short arg run h
  rw [this, String.length_append]
  have e1 : "-".length = 1 := rfl
  have e2 : (String.mk run).length = run.length := rfl
  omega

theorem loopSteps_le (c : context) :
    ∀ (args : List String) (f : Frame), loopSteps c args f ≤ args.length := by
  intro args
  induction args using tokens_induction with
  | nil =>
    intro f
    exact Nat.le_refl 0
  | cons arg args ih ih2 =>
    intro f
    simp only [loopSteps, List.length_cons]
    cases hs : step c arg args f with
    | halt x =>
      simp only
      omega
    | next f1 k =>
      cases k with
      | false =>
        have := ih f1
        simp only
        omega
      | true =>
        obtain ⟨v, rest, hv⟩ := step_shift c arg args f f1 hs
        subst hv
        have := ih2 f1
        simp only [List.tail_cons, List.length_cons] at this ⊢
        omega

theorem innerSteps_le (c : context) :
    ∀ (args : List String) (f : Frame),
      innerSteps c args f ≤ (args.map String.length).sum := by
  intro args
  induction args using tokens_induction with
  | nil =>
    intro f
    exact Nat.le_refl 0
  | cons arg args ih ih2 =>
    intro f
    simp only [innerSteps, List.map_cons, List.sum_cons]
    have h1 : (match classify arg with
        | .short run => runSteps c f.stack run
        | _ => 0) ≤ arg.length := by
      cases hc : classify arg with
      | short run =>
        have := runSteps_le c f.stack run
        have := classify_short_length arg run hc
        simp only
        omega
      | empty => exact Nat.zero_le _
      | dashes => exact Nat.zero_le _
      | word => exact Nat.zero_le _
      | long name => exact Nat.zero_le _
    cases hs : step c arg args f with
    | halt x =>
      simp only
      omega
    | next f1 k =>
      cases k with
      | false =>
        have := ih f1
        simp only
        omega
      | true =>
        obtain ⟨v, rest, hv⟩ := step_shift c arg args f f1 hs
        subst hv
        have := ih2 f1
        simp only [List.tail_cons, List.map_cons, List.sum_cons] at this ⊢
        omega

/-- C29: the argument loop of `ParseArgs` goes on, after each iteration that
does not leave it, with a token list that is strictly shorter (the token read
is gone, and with it the value it took); it makes at most one iteration for
each token, and the inner loop at most one for each character of the token it
reads; so the iterations of both, over the whole scan, are at most the number
of tokens plus the total number of their characters.  `ParseArgs` is a total
function of the tokens. -/
theorem scan_iterations_bounded (c : context) (args : List String) (f : Frame) :
    (∀ arg rest f1 k, args = arg :: rest → step c arg rest f = .next f1 k →
      loop c args f = loop c (if k then rest.tail else rest) f1 ∧
      (if k then rest.tail else rest).length < args.length) ∧
    (∀ stack run, runSteps c stack run ≤ run.length) ∧
    loopSteps c args f ≤ args.length ∧
    innerSteps c args f ≤ (args.map String.length).sum ∧
    loopSteps c args f + innerSteps c args f ≤ args.length + (args.map String.length).sum := by
  have h1 := loopSteps_le c args f
  have h2 := innerSteps_le c args f
  refine ⟨?_, runSteps_le c, h1, h2, by omega⟩
  intro arg rest f1 k hargs hs
  subst hargs
  rw [loop_cons, hs]
  cases k with
  | false => exact ⟨rfl, by simp⟩
  | true =>
    refine ⟨rfl, ?_⟩
    simp only [if_true, List.length_tail, List.length_cons]
    omega

/-- C29, at `-v --target prod -hx hosts` of the "Sub-commands" structure: three
iterations of the argument loop for five tokens (the value `prod` is taken by
`--target`, the scan stops at `-hx`), and three of the inner loop (`v`, `h`
and `x`). -/
theorem scan_iterations_bounded_witness :
    loopSteps subcommandsSchema ["-v", "--target", "prod", "-hx", "hosts"]
      (Frame.init subcommandsSchema subcommandsZero) = 3 ∧
    innerSteps subcommandsSchema ["-v", "--target", "prod", "-hx", "hosts"]
      (Frame.init subcommandsSchema subcommandsZero) = 3 ∧
    loopSteps subcommandsSchema ["-v", "--target", "prod", "-hx", "hosts"]
        (Frame.init subcommandsSchema subcommandsZero) +
      innerSteps subcommandsSchema ["-v", "--target", "prod", "-hx", "hosts"]
        (Frame.init subcommandsSchema subcommandsZero) ≤
      ["-v", "--target", "prod", "-hx", "hosts"].length +
        (["-v", "--target", "prod", "-hx", "hosts"].map String.length).sum :=
  ⟨by decide, by decide,
    (scan_iterations_bounded subcommandsSchema ["-v", "--target", "prod", "-hx", "hosts"]
      (Frame.init subcommandsSchema subcommandsZero)).2.2.2.2⟩

/-! ## Repeated assignments -/

theorem applyAll_split (ks1 ks2 : List Call) (k : Call) (mem m : Storage)
    (h : applyAll (ks1 ++ k :: ks2) mem = .ok m) :
    ∃ m1 m2, applyAll ks1 mem = .ok m1 ∧ k.apply m1 = .ok m2 ∧ applyAll ks2 m2 = .ok m := by
  induction ks1 generalizing mem with
  | nil =>
    simp only [List.nil_append, applyAll] at h
    cases ha : k.apply mem with
    | error e =>
      rw [ha] at h
      cases h
    | ok m2 =>
      rw [ha] at h
      exact ⟨mem, m2, rfl, ha, h⟩
  | cons k1 ks1 ih =>
    simp only [List.cons_append, applyAll] at h ⊢
    cases ha : k1.apply mem with
    | error e =>
      rw [ha] at h
      cases h
    | ok m0 =>
      rw [ha] at h
      exact ih m0 h

theorem apply_length (k : Call) (mem m : Storage) (h : k.apply mem = .ok m) :
    m.fields.length = mem.fields.length := by
  cases k with
  | enable opt =>
    simp only [Call.apply, Except.ok.injEq] at h
    subst h
    exact (enable_touched opt mem).2
  | set opt v =>
    simp only [Call.apply, option.set] at h
    split at h
    · split at h
      · cases h
      · split at h <;> (cases h; simp)
    · split at h
      · cases h
      · cases h
        simp

theorem applyAll_length (ks : List Call) (mem m : Storage) (h : applyAll ks mem = .ok m) :
    m.fields.length = mem.fields.length := by
  induction ks generalizing mem with
  | nil =>
    simp only [applyAll, Except.ok.injEq] at h
    rw [h]
  | cons k ks ih =>
    simp only [applyAll] at h
    cases ha : k.apply mem with
    | error e =>
      rw [ha] at h
      cases h
    | ok m0 =>
      rw [ha] at h
      rw [ih m0 h, apply_length k mem m0 ha]

theorem enable_enable (opt : option) (mem : Storage) :
    opt.enable (opt.enable mem) = opt.enable mem := by
  simp [option.enable]

theorem loop_bool_flag (c : context) (o : String) (args : List String) (f : Frame)
    (h : BoolFlag c f.stack o) :
    ∃ opt : option, loop c (o :: args) f =
      loop c args ⟨f.stack, f.insub, f.level, f.remnants, opt.enable f.mem⟩ := by
  rcases h with ⟨name, opt, hc, hf, hk⟩ | ⟨ch, opt, hc, hf, hk⟩
  · exact ⟨opt, loop_long_bool c o name args f opt hc hf hk⟩
  · refine ⟨opt, ?_⟩
    have hr : shortRun c f.stack args.head? [ch] f.mem = .done (opt.enable f.mem) false := by
      simp only [shortRun, hf, hk, if_true]
    have := loop_short c o [ch] args f (opt.enable f.mem) false hc hr
    simpa using this

theorem loop_bool_twice (c : context) (o : String) (args : List String) (f : Frame)
    (h : BoolFlag c f.stack o) : loop c (o :: o :: args) f = loop c (o :: args) f := by
  rcases h with ⟨name, opt, hc, hf, hk⟩ | ⟨ch, opt, hc, hf, hk⟩
  · rw [loop_long_bool c o name (o :: args) f opt hc hf hk,
      loop_long_bool c o name args
        ⟨f.stack, f.insub, f.level, f.remnants, opt.enable f.mem⟩ opt hc hf hk,
      loop_long_bool c o name args f opt hc hf hk]
    simp only [enable_enable]
  · have hr : ∀ (a : List String) (m : Storage),
        shortRun c f.stack a.head? [ch] m = .done (opt.enable m) false := by
      intro a m
      simp only [shortRun, hf, hk, if_true]
    have e1 := loop_short c o [ch] (o :: args) f (opt.enable f.mem) false hc (hr _ _)
    have e2 := loop_short c o [ch] args
      ⟨f.stack, f.insub, f.level, f.remnants, opt.enable f.mem⟩
      (opt.enable (opt.enable f.mem)) false hc (hr _ _)
    have e3 := loop_short c o [ch] args f (opt.enable f.mem) false hc (hr _ _)
    simp only [Bool.false_eq_true, if_false] at e1 e2 e3
    rw [e1, e2, e3, enable_enable]

/-- C26: in a scan all of whose calls succeed, a field that is not a list holds
in the end what the last call made on its address wrote, whatever the earlier
calls on that address and whatever the aliases they came through: the
coercion of the value of a `set`, or the boolean of an `enable`.  And a
boolean flag given `n + 1` times in a row leaves the loop where the flag given
once leaves it. -/
theorem last_assignment_wins (c : context) :
    (∀ (thing : GoType) (args : List String) (fields : List Value) (ks1 ks2 : List Call)
      (k : Call) (m : Storage),
      reflectOnIt thing = .ok c → validate c = .ok () →
      calls c args (Frame.init c fields) = ks1 ++ k :: ks2 →
      (∀ k1 ∈ ks2, k1.opt.Value ≠ k.opt.Value) →
      applyAll (calls c args (Frame.init c fields)) ⟨fields, []⟩ = .ok m →
      k.opt.Value < fields.length →
      (∀ elem, k.opt.Kind ≠ .Slice elem) →
      (ParseArgs thing args fields).mem = m ∧
      match k with
      | .set opt v =>
        ∃ x, coerce opt.Kind v = .ok x ∧ m.fields[opt.Value]? = some (.one x)
      | .enable opt =>
        m.fields[opt.Value]? =
          some (.one (.bool (!("no-".data.isPrefixOf opt.Matched.data))))) ∧
    (∀ (o : String) (f : Frame) (args : List String) (n : Nat), BoolFlag c f.stack o →
      loop c (List.replicate (n + 1) o ++ args) f = loop c (o :: args) f) := by
  refine ⟨?_, ?_⟩
  · intro thing args fields ks1 ks2 k m hb hv hcalls hlast hok hlt hscalar
    have hmem : (ParseArgs thing args fields).mem = m := by
      rw [ParseArgs_mem thing c args fields hb hv]
      exact replay_of_applyAll _ _ _ hok
    refine ⟨hmem, ?_⟩
    rw [hcalls] at hok
    obtain ⟨m1, m2, h1, h2, h3⟩ := applyAll_split ks1 ks2 k _ m hok
    have hlen : k.opt.Value < m1.fields.length := by
      rw [applyAll_length ks1 _ m1 h1]
      exact hlt
    have hkeep : m.fields[k.opt.Value]? = m2.fields[k.opt.Value]? := by
      have := replay_frame ks2 m2 k.opt.Value hlast
      rw [replay_of_applyAll ks2 m2 m h3] at this
      exact this
    cases k with
    | enable opt =>
      simp only [Call.apply, Except.ok.injEq] at h2
      subst h2
      simp only [Call.opt] at hkeep hlen ⊢
      rw [hkeep]
      simp [option.enable, hlen]
    | set opt v =>
      simp only [Call.opt] at hkeep hlen hscalar ⊢
      simp only [Call.apply] at h2
      rw [set_scalar opt v m1 hscalar] at h2
      cases hco : coerce opt.Kind v with
      | error e =>
        rw [hco] at h2
        cases h2
      | ok x =>
        rw [hco] at h2
        simp only [Except.ok.injEq] at h2
        subst h2
        refine ⟨x, rfl, ?_⟩
        rw [hkeep]
        simp [hlen]
  · intro o f args n h
    induction n with
    | zero => rfl
    | succ n ih =>
      have : List.replicate (n + 1 + 1) o ++ args
          = o :: o :: (List.replicate n o ++ args) := by
        simp [List.replicate_succ]
      rw [this, loop_bool_twice c o _ f h]
      have : o :: (List.replicate n o ++ args) = List.replicate (n + 1) o ++ args := by
        simp [List.replicate_succ]
      rw [this]
      exact ih

/-- C26, at the structures of "Simple String Flags" and "Simple Boolean Flags":
in `-b x --both y -s A` the field `Both` is assigned through its short and then
through its long alias and holds `y`; and `-s -s -s --long` leaves the loop
where `-s --long` leaves it. -/
theorem last_assignment_wins_witness :
    ((ParseArgs stringFlags ["-b", "x", "--both", "y", "-s", "A"] stringFlagsZero).mem =
        ⟨[.one (.str "A"), .one (.str ""), .one (.str "y")], []⟩ ∧
      ∃ x, coerce .String "y" = .ok x ∧
        [Value.one (.str "A"), .one (.str ""), .one (.str "y")][2]? = some (.one x)) ∧
    loop boolFlagsSchema (List.replicate (2 + 1) "-s" ++ ["--long"])
        (Frame.init boolFlagsSchema boolFlagsZero) =
      loop boolFlagsSchema ("-s" :: ["--long"]) (Frame.init boolFlagsSchema boolFlagsZero) :=
  ⟨(last_assignment_wins stringFlagsSchema).1 stringFlags
      ["-b", "x", "--both", "y", "-s", "A"] stringFlagsZero
      [.set ⟨.String, ["b"], ["both"], 2, "b"⟩ "x"] [.set ⟨.String, ["s"], [], 0, "s"⟩ "A"]
      (.set ⟨.String, ["b"], ["both"], 2, "both"⟩ "y")
      ⟨[.one (.str "A"), .one (.str ""), .one (.str "y")], []⟩
      rfl rfl (by decide) (by decide) rfl (by decide)
      (fun elem h => Kind.noConfusion h),
    (last_assignment_wins boolFlagsSchema).2 "-s" (Frame.init boolFlagsSchema boolFlagsZero)
      ["--long"] 2
      (Or.inr ⟨'s', ⟨.Bool, ["s"], [], 0, "s"⟩, by decide, rfl, rfl⟩)⟩

/-! ## The aliases of a command -/

theorem alike_refl (level : context) (s : List String) : Alike level s s := by
  induction s generalizing level with
  | nil => trivial
  | cons a s ih =>
    refine ⟨rfl, ?_⟩
    cases level.sub a with
    | none => trivial
    | some next => exact ih next

theorem alike_snoc (level l : context) (s1 s2 : List String) (a b : String)
    (h : Alike level s1 s2) (hw : level.walk s1 = some l) (hab : l.sub a = l.sub b) :
    Alike level (s1 ++ [a]) (s2 ++ [b]) := by
  induction s1 generalizing level s2 with
  | nil =>
    cases s2 with
    | cons _ _ => exact h.elim
    | nil =>
      simp only [context.walk, Option.some.injEq] at hw
      subst hw
      refine ⟨hab, ?_⟩
      cases level.sub a <;> trivial
  | cons x s1 ih =>
    cases s2 with
    | nil => exact h.elim
    | cons y s2 =>
      obtain ⟨h1, h2⟩ := h
      refine ⟨h1, ?_⟩
      simp only [context.walk] at hw
      cases hx : level.sub x with
      | none =>
        rw [hx] at hw
        cases hw
      | some next =>
        rw [hx] at hw h2
        exact ih next s2 h2 hw

theorem findLong_alike (level : context) (s1 s2 : List String) (name : String)
    (h : Alike level s1 s2) : level.findLong s1 name = level.findLong s2 name := by
  induction s1 generalizing level s2 with
  | nil =>
    cases s2 with
    | cons _ _ => exact h.elim
    | nil => rfl
  | cons x s1 ih =>
    cases s2 with
    | nil => exact h.elim
    | cons y s2 =>
      obtain ⟨h1, h2⟩ := h
      simp only [context.findLong]
      rw [← h1]
      cases hx : level.sub x with
      | none => rfl
      | some next =>
        rw [hx] at h2
        simp only [ih next s2 h2]

theorem findShort_alike (level : context) (s1 s2 : List String) (name : String)
    (h : Alike level s1 s2) : level.findShort s1 name = level.findShort s2 name := by
  induction s1 generalizing level s2 with
  | nil =>
    cases s2 with
    | cons _ _ => exact h.elim
    | nil => rfl
  | cons x s1 ih =>
    cases s2 with
    | nil => exact h.elim
    | cons y s2 =>
      obtain ⟨h1, h2⟩ := h
      simp only [context.findShort]
      rw [← h1]
      cases hx : level.sub x with
      | none => rfl
      | some next =>
        rw [hx] at h2
        simp only [ih next s2 h2]

theorem shortRun_alike (c : context) (s1 s2 : List String) (nx : Option String)
    (run : List Char) (mem : Storage) (h : Alike c s1 s2) :
    shortRun c s1 nx run mem = shortRun c s2 nx run mem := by
  induction run generalizing mem with
  | nil => rfl
  | cons ch rest ih =>
    simp only [shortRun, findShort_alike c s1 s2 _ h, ih]

theorem step_alike (c : context) (arg : String) (args : List String) (f1 f2 : Frame)
    (h : f1.alike c f2) :
    (∃ x1 x2, step c arg args f1 = .halt x1 ∧ step c arg args f2 = .halt x2 ∧ x1.alike x2) ∨
    (∃ g1 g2 k, step c arg args f1 = .next g1 k ∧ step c arg args f2 = .next g2 k ∧
      g1.alike c g2) := by
  obtain ⟨s1, i1, l1, r1, m1⟩ := f1
  obtain ⟨s2, i2, l2, r2, m2⟩ := f2
  obtain ⟨hi, hl, hr, hm, hs, hw⟩ := h
  simp only at hi hl hr hm hs hw
  subst hi hl hr hm
  cases hc : classify arg with
  | empty =>
    simp only [step, hc]
    exact Or.inr ⟨_, _, false, rfl, rfl, rfl, rfl, rfl, rfl, hs, hw⟩
  | dashes =>
    simp only [step, hc]
    exact Or.inl ⟨_, _, rfl, rfl, rfl, rfl, rfl⟩
  | word =>
    simp only [step, hc, stepWord]
    cases i1 with
    | false => exact Or.inr ⟨_, _, false, rfl, rfl, rfl, rfl, rfl, rfl, hs, hw⟩
    | true =>
      simp only [if_true]
      cases hsub : l1.sub arg with
      | none => exact Or.inr ⟨_, _, false, rfl, rfl, rfl, rfl, rfl, rfl, hs, hw⟩
      | some next =>
        refine Or.inr ⟨_, _, false, rfl, rfl, rfl, rfl, rfl, rfl,
          alike_snoc c l1 s1 s2 arg arg hs hw rfl, ?_⟩
        simp only [walk_append, hw, Option.bind, hsub]
  | long name =>
    have hf := findLong_alike c s1 s2 name hs
    simp only [step, hc, stepLong]
    rw [← hf]
    cases c.findLong s1 name with
    | error e => exact Or.inl ⟨_, _, rfl, rfl, rfl, rfl, rfl⟩
    | ok opt =>
      simp only
      by_cases hk : opt.Kind = Kind.Bool
      · simp only [hk, if_true]
        exact Or.inr ⟨_, _, false, rfl, rfl, rfl, rfl, rfl, rfl, hs, hw⟩
      · simp only [hk, if_false]
        cases args with
        | nil => exact Or.inl ⟨_, _, rfl, rfl, rfl, rfl, rfl⟩
        | cons v rest =>
          simp only
          cases opt.set v m1 with
          | error e => exact Or.inl ⟨_, _, rfl, rfl, rfl, rfl, rfl⟩
          | ok m => exact Or.inr ⟨_, _, true, rfl, rfl, rfl, rfl, rfl, rfl, hs, hw⟩
  | short run =>
    have hf := shortRun_alike c s1 s2 args.head? run m1 hs
    simp only [step, hc, stepShort]
    rw [← hf]
    cases shortRun c s1 args.head? run m1 with
    | fail e m => exact Or.inl ⟨_, _, rfl, rfl, rfl, rfl, rfl⟩
    | done m k => exact Or.inr ⟨_, _, k, rfl, rfl, rfl, rfl, rfl, rfl, hs, hw⟩

theorem loop_alike (c : context) :
    ∀ (args : List String) (f1 f2 : Frame), f1.alike c f2 →
      (loop c args f1).alike (loop c args f2) := by
  intro args
  induction args using tokens_induction with
  | nil =>
    intro f1 f2 h
    obtain ⟨_, _, hr, hm, _, _⟩ := h
    exact ⟨rfl, hr, hm⟩
  | cons arg args ih ih2 =>
    intro f1 f2 h
    rw [loop_cons, loop_cons]
    rcases step_alike c arg args f1 f2 h with ⟨x1, x2, e1, e2, hx⟩ | ⟨g1, g2, k, e1, e2, hg⟩
    · rw [e1, e2]
      exact hx
    · rw [e1, e2]
      cases k with
      | false => exact ih g1 g2 hg
      | true => exact ih2 g1 g2 hg

/-- C27: when the scan of `pre` leaves the loop seeking sub-commands in the
frame `g`, and the non-option tokens `a1` and `a2` both name the same child of
the level reached, the token lists `pre ++ a1 :: post` and
`pre ++ a2 :: post` give the same error, the same leftover list and the same
storage: the options of the command and of its ancestors resolve alike
whichever alias is on the command stack. -/
theorem alias_interchangeable (thing : GoType) (c : context) (fields : List Value)
    (pre post : List String) (a1 a2 : String) (g : Frame) (child : context)
    (hb : reflectOnIt thing = .ok c) (hv : validate c = .ok ())
    (hpre : loop c pre (Frame.init c fields) = .done g) (hseek : g.insub = true)
    (h1 : classify a1 = .word) (h2 : classify a2 = .word)
    (hs1 : g.level.sub a1 = some child) (hs2 : g.level.sub a2 = some child) :
    (ParseArgs thing (pre ++ a1 :: post) fields).err
        = (ParseArgs thing (pre ++ a2 :: post) fields).err ∧
      (ParseArgs thing (pre ++ a1 :: post) fields).remnants
        = (ParseArgs thing (pre ++ a2 :: post) fields).remnants ∧
      (ParseArgs thing (pre ++ a1 :: post) fields).mem
        = (ParseArgs thing (pre ++ a2 :: post) fields).mem := by
  have hw : c.walk g.stack = some g.level :=
    loop_walk c pre (Frame.init c fields) g rfl (Or.inl hpre)
  have e1 : stepWord a1 g = ⟨g.stack ++ [a1], true, child, g.remnants, g.mem⟩ := by
    simp only [stepWord, hseek, hs1, if_true]
  have e2 : stepWord a2 g = ⟨g.stack ++ [a2], true, child, g.remnants, g.mem⟩ := by
    simp only [stepWord, hseek, hs2, if_true]
  have hal : Frame.alike c (stepWord a1 g) (stepWord a2 g) := by
    rw [e1, e2]
    refine ⟨rfl, rfl, rfl, rfl,
      alike_snoc c g.level g.stack g.stack a1 a2 (alike_refl c g.stack) hw
        (hs1.trans hs2.symm), ?_⟩
    simp only [walk_append, hw, Option.bind, hs1]
  have key := loop_alike c post _ _ hal
  simp only [ParseArgs, hb, hv, loop_append c pre _ _ g hpre, loop_word c a1 post g h1,
    loop_word c a2 post g h2]
  exact key

/-- C27, at the structure of "Sub-command aliasing": `ls --all` gives the
result of `list --all` but for the command path, and `--all` of the command is
resolved after the descent through `ls`. -/
theorem alias_interchangeable_witness :
    ((ParseArgs aliasing ([] ++ "list" :: ["--all"]) aliasingZero).err
        = (ParseArgs aliasing ([] ++ "ls" :: ["--all"]) aliasingZero).err ∧
      (ParseArgs aliasing ([] ++ "list" :: ["--all"]) aliasingZero).remnants
        = (ParseArgs aliasing ([] ++ "ls" :: ["--all"]) aliasingZero).remnants ∧
      (ParseArgs aliasing ([] ++ "list" :: ["--all"]) aliasingZero).mem
        = (ParseArgs aliasing ([] ++ "ls" :: ["--all"]) aliasingZero).mem) ∧
    ParseArgs aliasing ["ls", "--all"] aliasingZero =
      ⟨"ls", [], none, ⟨[.one (.bool false), .one (.bool true)], []⟩⟩ :=
  ⟨alias_interchangeable aliasing aliasingSchema aliasingZero [] ["--all"] "list" "ls"
      (Frame.init aliasingSchema aliasingZero) aliasingList rfl rfl rfl rfl
      (by decide) (by decide) rfl rfl,
    by decide⟩

/-! ## The chained parser -/

theorem stepWord_stack (arg : String) (f : Frame) :
    ((f.insub = true ∧ (f.level.sub arg).isSome = true) ∧
        (stepWord arg f).stack = f.stack ++ [arg]) ∨
      (¬ (f.insub = true ∧ (f.level.sub arg).isSome = true) ∧
        (stepWord arg f).stack = f.stack ∧ (stepWord arg f).level = f.level) := by
  unfold stepWord
  cases hi : f.insub with
  | false => exact Or.inr ⟨by simp, rfl, rfl⟩
  | true =>
    cases hs : f.level.sub arg with
    | none => exact Or.inr ⟨by simp, rfl, rfl⟩
    | some next => exact Or.inl ⟨⟨rfl, rfl⟩, rfl⟩

theorem step_next_stack (c : context) (arg : String) (a : List String) (f f1 : Frame)
    (k : Bool) (h : step c arg a f = .next f1 k) : f.stack <+: f1.stack := by
  rcases step_next_frame c arg a f f1 k h with ⟨_, hf⟩ | ⟨_, hf⟩ | ⟨hs, _⟩
  · subst hf
    exact List.prefix_refl _
  · subst hf
    rcases stepWord_stack arg f with ⟨_, hs⟩ | ⟨_, hs, _⟩
    · rw [hs]
      exact List.prefix_append _ _
    · rw [hs]
  · rw [hs]

theorem loop_stack_prefix (c : context) (args : List String) (f g : Frame)
    (h : loop c args f = .done g ∨ loop c args f = .stop g) : f.stack <+: g.stack :=
  loop_preserves c (fun x => f.stack <+: x.stack)
    (fun arg a x x1 k hI hs => hI.trans (step_next_stack c arg a x x1 k hs))
    (fun _ _ hI => hI) args f g (List.prefix_refl _) h

theorem step_no_descent (c : context) (arg : String) (a : List String) (f f1 : Frame)
    (k : Bool) (h : step c arg a f = .next f1 k) (hs : f1.stack = f.stack) :
    f1.level = f.level ∧
      ¬ (classify arg = .word ∧ f.insub = true ∧ (f.level.sub arg).isSome = true) := by
  rcases step_next_frame c arg a f f1 k h with ⟨hc, hf⟩ | ⟨hc, hf⟩ | ⟨_, _, hl, _⟩
  · subst hf
    exact ⟨rfl, fun hx => by rw [hc] at hx; exact Token.noConfusion hx.1⟩
  · subst hf
    rcases stepWord_stack arg f with ⟨_, hst⟩ | ⟨hno, _, hl⟩
    · rw [hst] at hs
      have := congrArg List.length hs
      simp at this
    · exact ⟨hl, fun hx => hno hx.2⟩
  · refine ⟨hl, fun hx => ?_⟩
    have hw : step c arg a f = .next (stepWord arg f) false := by
      simp only [step, hx.1]
    rw [hw] at h
    cases h
    rcases stepWord_stack arg f with ⟨_, hst⟩ | ⟨hno, _, _⟩
    · rw [hst] at hs
      have := congrArg List.length hs
      simp at this
    · exact hno hx.2

theorem prefix_antisymm_eq (a b c : List String) (h1 : a <+: b) (h2 : b <+: c)
    (h : c = a) : b = a := by
  subst h
  exact (List.IsPrefix.eq_of_length_le h2 h1.length_le)

theorem preamble_append (c : context) (rest : List String) :
    ∀ (pre : List String) (f g : Frame), loop c pre f = .done g → g.stack = f.stack →
      f.level = c → preamble c (pre ++ rest) f = preamble c rest g ∧ g.level = c := by
  intro pre
  induction pre using tokens_induction with
  | nil =>
    intro f g h _ hl
    cases h
    exact ⟨rfl, hl⟩
  | cons arg args ih ih2 =>
    intro f g h hst hl
    rw [loop_cons] at h
    cases hs : step c arg args f with
    | halt x =>
      rw [hs] at h
      simp only at h
      subst h
      exact (step_halt_not_done c arg args f g hs).elim
    | next f1 k =>
      rw [hs] at h
      have hp1 := step_next_stack c arg args f f1 k hs
      cases k with
      | false =>
        simp only at h
        have hp2 := loop_stack_prefix c args f1 g (Or.inl h)
        have hf1 : f1.stack = f.stack := prefix_antisymm_eq _ _ _ hp1 hp2 hst
        obtain ⟨hl1, hno⟩ := step_no_descent c arg args f f1 false hs hf1
        rw [hl] at hno hl1
        obtain ⟨e1, e2⟩ := ih f1 g h (hst.trans hf1.symm) hl1
        refine ⟨?_, e2⟩
        simp only [List.cons_append, preamble, hno, if_false,
          step_next_append c arg args rest f f1 false hs]
        exact e1
      | true =>
        simp only at h
        obtain ⟨v, args1, hv⟩ := step_shift c arg args f f1 hs
        subst hv
        simp only [List.tail_cons] at h ih2
        have hp2 := loop_stack_prefix c args1 f1 g (Or.inl h)
        have hf1 : f1.stack = f.stack := prefix_antisymm_eq _ _ _ hp1 hp2 hst
        obtain ⟨hl1, hno⟩ := step_no_descent c arg (v :: args1) f f1 true hs hf1
        rw [hl] at hno hl1
        obtain ⟨e1, e2⟩ := ih2 f1 g h (hst.trans hf1.symm) hl1
        refine ⟨?_, e2⟩
        simp only [List.cons_append, preamble, hno, if_false]
        have := step_next_append c arg (v :: args1) rest f f1 true hs
        simp only [List.cons_append] at this
        simp only [this]
        exact e1

theorem loop_stop_split (c : context) :
    ∀ (args : List String) (f g : Frame), loop c args f = .stop g →
      ∃ a b g0, args = a ++ "--" :: b ∧ loop c a f = .done g0 ∧
        g = ⟨g0.stack, g0.insub, g0.level, g0.remnants ++ b, g0.mem⟩ := by
  intro args
  induction args using tokens_induction with
  | nil =>
    intro f g h
    cases h
  | cons arg args ih ih2 =>
    intro f g h
    rw [loop_cons] at h
    cases hs : step c arg args f with
    | halt x =>
      rw [hs] at h
      simp only at h
      subst h
      obtain ⟨hc, hg⟩ := step_halt_stop c arg args f g hs
      rw [classify_dashes arg hc]
      exact ⟨[], args, f, rfl, rfl, hg⟩
    | next f1 k =>
      rw [hs] at h
      cases k with
      | false =>
        simp only at h
        obtain ⟨a, b, g0, hsplit, ha, hg⟩ := ih f1 g h
        refine ⟨arg :: a, b, g0, by rw [hsplit]; rfl, ?_, hg⟩
        rw [loop_cons, step_next_false c arg args a f f1 hs]
        exact ha
      | true =>
        simp only at h
        obtain ⟨v, rest, hv⟩ := step_shift c arg args f f1 hs
        subst hv
        obtain ⟨a, b, g0, hsplit, ha, hg⟩ := ih2 f1 g h
        simp only [List.tail_cons] at hsplit
        refine ⟨arg :: v :: a, b, g0, by rw [hsplit]; rfl, ?_, hg⟩
        rw [loop_cons, step_next_head c arg (v :: rest) (v :: a) f f1 true hs rfl]
        exact ha

theorem pieces_done (c : context) (base : List Value) (rest : List String) :
    ∀ (p : List String) (f g : Frame), loop c p f = .done g →
      pieces c base (p ++ "--" :: rest) f = p :: pieces c base rest (Frame.init c base) := by
  intro p
  induction p using tokens_induction with
  | nil =>
    intro f g _
    have hs : step c "--" rest f
        = .halt (.stop ⟨f.stack, f.insub, f.level, f.remnants ++ rest, f.mem⟩) := by
      simp only [step, (by decide : classify "--" = .dashes)]
    simp only [List.nil_append, pieces, hs]
  | cons arg args ih ih2 =>
    intro f g h
    rw [loop_cons] at h
    cases hs : step c arg args f with
    | halt x =>
      rw [hs] at h
      simp only at h
      subst h
      exact (step_halt_not_done c arg args f g hs).elim
    | next f1 k =>
      rw [hs] at h
      cases k with
      | false =>
        simp only at h
        simp only [List.cons_append, pieces,
          step_next_append c arg args ("--" :: rest) f f1 false hs, ih f1 g h]
        rfl
      | true =>
        simp only at h
        obtain ⟨v, args1, hv⟩ := step_shift c arg args f f1 hs
        subst hv
        simp only [List.tail_cons] at h ih2
        have := step_next_append c arg (v :: args1) ("--" :: rest) f f1 true hs
        simp only [List.cons_append] at this
        simp only [List.cons_append, pieces, this, ih2 f1 g h]
        rfl

theorem pieces_last (c : context) (base : List Value) :
    ∀ (p : List String) (f : Frame), (∀ g, loop c p f ≠ .stop g) →
      pieces c base p f = [p] := by
  intro p
  induction p using tokens_induction with
  | nil =>
    intro f _
    rfl
  | cons arg args ih ih2 =>
    intro f h
    rw [loop_cons] at h
    cases hs : step c arg args f with
    | halt x =>
      rw [hs] at h
      cases x with
      | stop g => exact (h g rfl).elim
      | fail e r m => simp only [pieces, hs]
      | done g => exact (step_halt_not_done c arg args f g hs).elim
    | next f1 k =>
      rw [hs] at h
      cases k with
      | false =>
        simp only at h
        simp only [pieces, hs, ih f1 h]
        rfl
      | true =>
        simp only at h
        obtain ⟨v, args1, hv⟩ := step_shift c arg args f f1 hs
        subst hv
        simp only [List.tail_cons] at h ih2
        simp only [pieces, hs, ih2 f1 h]
        rfl

theorem pieces_cut (c : context) (base : List Value) (toks : List String)
    (ps : List (List String)) (h : Cut c base toks ps) :
    pieces c base toks (Frame.init c base) = ps := by
  induction h with
  | last p h => exact pieces_last c base p _ h
  | more p rest ps g h _ ih => rw [pieces_done c base rest p _ g h, ih]

theorem cut_ne_nil (c : context) (base : List Value) (toks : List String)
    (ps : List (List String)) (h : Cut c base toks ps) : ps ≠ [] := by
  cases h <;> exact List.cons_ne_nil _ _

theorem cut_intercalate (c : context) (base : List Value) (toks : List String)
    (ps : List (List String)) (h : Cut c base toks ps) :
    toks = List.intercalate ["--"] ps := by
  induction h with
  | last p h => simp [List.intercalate]
  | more p rest ps g h hrest ih =>
    obtain ⟨q, qs, hq⟩ := List.exists_cons_of_ne_nil (cut_ne_nil c base rest ps hrest)
    subst hq
    rw [ih]
    simp [List.intercalate]

theorem after_fields (p : Parser) (n : Nat) :
    (p.after n).root = p.root ∧ (p.after n).base = p.base ∧
      (p.after n).pending = p.pending.drop n := by
  induction n with
  | zero => exact ⟨rfl, rfl, rfl⟩
  | succ n ih =>
    obtain ⟨h1, h2, h3⟩ := ih
    simp only [Parser.after, Parser.Next]
    cases hp : (p.after n).pending with
    | nil =>
      rw [hp] at h3
      refine ⟨h1, h2, ?_⟩
      simp only [hp]
      have : p.pending.length ≤ n := by
        have := congrArg List.length h3
        simp only [List.length_nil, List.length_drop] at this
        omega
      rw [List.drop_eq_nil_of_le (by omega)]
    | cons seg more =>
      rw [hp] at h3
      refine ⟨h1, h2, ?_⟩
      simp only
      rw [← List.drop_drop, ← h3]
      rfl

theorem next_true (p : Parser) (seg : List String) (more : List (List String))
    (h : p.pending = seg :: more) :
    p.Next = (true,
      ⟨p.root, p.base, more,
        (loop p.root seg (Frame.init p.root p.base)).result.command,
        (loop p.root seg (Frame.init p.root p.base)).result.remnants,
        (loop p.root seg (Frame.init p.root p.base)).result.mem.fields⟩) := by
  simp only [Parser.Next, h]

theorem next_false (p : Parser) (h : p.pending = []) : p.Next = (false, p) := by
  simp only [Parser.Next, h]

theorem newParser_ok (thing : GoType) (c : context) (args : List String)
    (fields : List Value) (x : Exit) (rest : List String)
    (hb : reflectOnIt thing = .ok c) (hv : validate c = .ok ())
    (hp : preamble c args (Frame.init c fields) = (x, rest))
    (hx : ∀ e r m, x ≠ .fail e r m) :
    NewParser thing args fields = .ok ⟨c, x.mem.fields,
      (match rest with
       | [] => []
       | cmd :: more => pieces c x.mem.fields (cmd :: more) (Frame.init c x.mem.fields)),
      "", [], x.mem.fields⟩ := by
  simp only [NewParser, hb, hv, hp]
  cases x with
  | fail e r m => exact (hx e r m rfl).elim
  | stop g => cases rest <;> rfl
  | done g => cases rest <;> rfl

theorem newParser_root (thing : GoType) (args : List String) (fields : List Value)
    (p0 : Parser) (h : NewParser thing args fields = .ok p0) :
    reflectOnIt thing = .ok p0.root ∧ validate p0.root = .ok () ∧ p0.fields = p0.base := by
  unfold NewParser at h
  cases hb : reflectOnIt thing with
  | error e =>
    simp only [hb] at h
    cases h
  | ok c =>
    cases hv : validate c with
    | error e =>
      simp only [hb, hv] at h
      cases h
    | ok u =>
      simp only [hb, hv] at h
      split at h
      · cases h
      · cases h
        exact ⟨rfl, hv, rfl⟩
      · cases h
        exact ⟨rfl, hv, rfl⟩

theorem ParseArgs_loop (thing : GoType) (c : context) (args : List String)
    (fields : List Value) (hb : reflectOnIt thing = .ok c) (hv : validate c = .ok ()) :
    ParseArgs thing args fields = (loop c args (Frame.init c fields)).result := by
  simp only [ParseArgs, hb, hv]

theorem next_scan (thing : GoType) (p p1 : Parser) (hb : reflectOnIt thing = .ok p.root)
    (hv : validate p.root = .ok ()) (h : p.Next = (true, p1)) :
    ∃ seg, p.pending = seg :: p1.pending ∧ p1.root = p.root ∧ p1.base = p.base ∧
      p1.Command = (ParseArgs thing seg p.base).command ∧
      p1.Args = (ParseArgs thing seg p.base).remnants ∧
      p1.fields = (ParseArgs thing seg p.base).mem.fields := by
  cases hp : p.pending with
  | nil =>
    rw [next_false p hp] at h
    cases h
  | cons seg more =>
    rw [next_true p seg more hp] at h
    simp only [Prod.mk.injEq, true_and] at h
    subst h
    have hP := ParseArgs_loop thing p.root seg p.base hb hv
    exact ⟨seg, rfl, rfl, rfl, by rw [hP], by rw [hP], by rw [hP]⟩

theorem drop_head (l : List (List String)) (n : Nat) (seg : List String)
    (more : List (List String)) (h : l.drop n = seg :: more) : l[n]? = some seg := by
  have := List.getElem?_drop (L := l) (i := n) (j := 0)
  rw [h] at this
  simpa using this.symm

/-- C21: for a parser that construction returns, each call of `Next()` that
answers true has run `ParseArgs`, on a structure whose fields hold the
snapshot, over the next pending segment: `Command`, the leftover and the
fields of the caller's structure are the command path, the leftover and the
storage that this scan returns; the snapshot is unchanged. -/
theorem next_is_scan (thing : GoType) (tokens : List String) (fields : List Value)
    (p0 : Parser) (n : Nat) (p1 : Parser)
    (h0 : NewParser thing tokens fields = .ok p0)
    (hnext : (p0.after n).Next = (true, p1)) :
    ∃ seg, p0.pending[n]? = some seg ∧ p1.pending = p0.pending.drop (n + 1) ∧
      p1.base = p0.base ∧
      p1.Command = (ParseArgs thing seg p0.base).command ∧
      p1.Args = (ParseArgs thing seg p0.base).remnants ∧
      p1.fields = (ParseArgs thing seg p0.base).mem.fields := by
  obtain ⟨hb, hv, _⟩ := newParser_root thing tokens fields p0 h0
  obtain ⟨hr, hbase, hpend⟩ := after_fields p0 n
  rw [← hr] at hb hv
  obtain ⟨seg, h1, _, h3, h4, h5, h6⟩ := next_scan thing (p0.after n) p1 hb hv hnext
  rw [hbase] at h3 h4 h5 h6
  rw [hpend] at h1
  refine ⟨seg, drop_head _ n seg _ h1, ?_, h3, h4, h5, h6⟩
  have := congrArg (List.drop 1) h1
  simpa [List.drop_drop, Nat.add_comm] using this.symm

/-- C22: after a call of `Next()` that answers true, a field on which the scan
of the segment made no call holds the value of the snapshot, which is the
value it had right after construction, whatever the calls of `Next()` before
wrote. -/
theorem segment_does_not_leak (thing : GoType) (tokens : List String)
    (fields : List Value) (p0 : Parser) (n : Nat) (p1 : Parser) (seg : List String)
    (i : Nat) (h0 : NewParser thing tokens fields = .ok p0)
    (hnext : (p0.after n).Next = (true, p1)) (hseg : p0.pending[n]? = some seg)
    (hclean : ∀ k ∈ calls p0.root seg (Frame.init p0.root p0.base), k.opt.Value ≠ i) :
    p0.fields = p0.base ∧ p1.base = p0.base ∧ p1.fields[i]? = p0.fields[i]? := by
  obtain ⟨hb, hv, hf⟩ := newParser_root thing tokens fields p0 h0
  obtain ⟨hr, hbase, hpend⟩ := after_fields p0 n
  have hb1 := hb
  have hv1 := hv
  rw [← hr] at hb1 hv1
  obtain ⟨seg1, h1, _, h3, _, _, h6⟩ := next_scan thing (p0.after n) p1 hb1 hv1 hnext
  rw [hbase] at h3 h6
  rw [hpend] at h1
  have h2 := drop_head _ n seg1 _ h1
  rw [hseg] at h2
  cases h2
  refine ⟨hf, h3, ?_⟩
  rw [h6, ParseArgs_mem thing p0.root seg p0.base hb hv, hf]
  exact replay_frame _ _ i hclean

theorem preamble_command (c : context) (fields : List Value) (pre rest : List String)
    (cmd : String) (g : Frame) (child : context)
    (hpre : loop c pre (Frame.init c fields) = .done g) (hstack : g.stack = [])
    (hseek : g.insub = true) (hword : classify cmd = .word) (hsub : c.sub cmd = some child) :
    preamble c (pre ++ cmd :: rest) (Frame.init c fields) = (.done g, cmd :: rest) := by
  obtain ⟨e1, _⟩ := preamble_append c (cmd :: rest) pre (Frame.init c fields) g hpre hstack rfl
  rw [e1]
  simp only [preamble, hword, hseek, hsub, Option.isSome_some, and_self, if_true]

theorem preamble_whole (c : context) (fields : List Value) (tokens : List String)
    (g : Frame)
    (h : loop c tokens (Frame.init c fields) = .done g ∨
      loop c tokens (Frame.init c fields) = .stop g)
    (hstack : g.stack = []) :
    ∃ x, preamble c tokens (Frame.init c fields) = (x, []) ∧ x.mem = g.mem ∧
      ∀ e r m, x ≠ .fail e r m := by
  rcases h with h | h
  · obtain ⟨e1, _⟩ := preamble_append c [] tokens (Frame.init c fields) g h hstack rfl
    rw [List.append_nil] at e1
    exact ⟨.done g, e1, rfl, fun _ _ _ hx => Exit.noConfusion hx⟩
  · obtain ⟨a, b, g0, hsplit, ha, hg⟩ := loop_stop_split c tokens _ g h
    have hs0 : g0.stack = [] := by
      rw [hg] at hstack
      exact hstack
    obtain ⟨e1, _⟩ := preamble_append c ("--" :: b) a (Frame.init c fields) g0 ha hs0 rfl
    refine ⟨.stop ⟨g0.stack, g0.insub, g0.level, g0.remnants ++ b, g0.mem⟩, ?_, ?_,
      fun _ _ _ hx => Exit.noConfusion hx⟩
    · rw [hsplit, e1]
      have hc : classify "--" = .dashes := by decide
      simp only [preamble, hc, step]
      rw [if_neg (fun hx => Token.noConfusion hx.1)]
    · rw [hg]
      rfl

/-- C23: when `cmd` is the first non-option of the tokens that names a child
of the root while sub-commands are sought (the scan of the tokens `pre` before
it matches no command), construction succeeds and the pending segments are the
tokens from `cmd` to the end cut at each `--` that the scan meets as a token:
these tokens are the segments with `--` between them.  `Next()` answers true
once for each segment, the call number `i` scanning the segment number `i`,
and false ever after. -/
theorem segments_cut_at_dashes (thing : GoType) (c : context) (fields : List Value)
    (pre rest : List String) (cmd : String) (g : Frame) (child : context)
    (ps : List (List String))
    (hb : reflectOnIt thing = .ok c) (hv : validate c = .ok ())
    (hpre : loop c pre (Frame.init c fields) = .done g) (hstack : g.stack = [])
    (hseek : g.insub = true) (hword : classify cmd = .word) (hsub : c.sub cmd = some child)
    (hcut : Cut c g.mem.fields (cmd :: rest) ps) :
    ∃ p0, NewParser thing (pre ++ cmd :: rest) fields = .ok p0 ∧ p0.pending = ps ∧
      cmd :: rest = List.intercalate ["--"] ps ∧
      (∀ (i : Nat) (hi : i < ps.length),
        (p0.after i).Next.1 = true ∧
        (p0.after (i + 1)).Command = (ParseArgs thing ps[i] p0.base).command ∧
        (p0.after (i + 1)).Args = (ParseArgs thing ps[i] p0.base).remnants ∧
        (p0.after (i + 1)).fields = (ParseArgs thing ps[i] p0.base).mem.fields) ∧
      (∀ n, ps.length ≤ n → (p0.after n).Next.1 = false) := by
  have hp := preamble_command c fields pre rest cmd g child hpre hstack hseek hword hsub
  have hnew := newParser_ok thing c (pre ++ cmd :: rest) fields (.done g) (cmd :: rest) hb hv hp
    (fun _ _ _ hx => Exit.noConfusion hx)
  simp only [Exit.mem] at hnew
  rw [pieces_cut c g.mem.fields (cmd :: rest) ps hcut] at hnew
  refine ⟨_, hnew, rfl, cut_intercalate c _ _ ps hcut, ?_, ?_⟩
  · intro i hi
    obtain ⟨hr, hbase, hpend⟩ := after_fields ⟨c, g.mem.fields, ps, "", [], g.mem.fields⟩ i
    simp only at hr hbase hpend
    have hdrop : ps.drop i = ps[i] :: ps.drop (i + 1) := List.drop_eq_getElem_cons hi
    rw [hdrop] at hpend
    have hn := next_true _ ps[i] _ hpend
    rw [hr, hbase] at hn
    have hP := ParseArgs_loop thing c ps[i] g.mem.fields hb hv
    refine ⟨by rw [hn], ?_, ?_, ?_⟩
    · simp only [Parser.after, hn, hP]
    · simp only [Parser.after, hn, hP]
    · simp only [Parser.after, hn, hP]
  · intro n hn
    obtain ⟨_, _, hpend⟩ := after_fields ⟨c, g.mem.fields, ps, "", [], g.mem.fields⟩ n
    simp only at hpend
    rw [List.drop_eq_nil_of_le hn] at hpend
    rw [next_false _ hpend]

/-- C24: construction applies the preamble at once.  When the scan of the
tokens `pre` matches no command and the token after them names a child of the
root while sub-commands are sought, the parser is built, the fields and the
snapshot are the storage that `ParseArgs` returns on `pre`, and a segment is
pending.  When the scan of all the tokens matches no command, the parser is
built, the fields and the snapshot are the storage that `ParseArgs` returns on
all the tokens, no segment is pending and the first `Next()` answers false. -/
theorem preamble_applied_eagerly (thing : GoType) (c : context) (tokens : List String)
    (fields : List Value) (hb : reflectOnIt thing = .ok c) (hv : validate c = .ok ()) :
    (∀ (pre rest : List String) (cmd : String) (g : Frame) (child : context),
      tokens = pre ++ cmd :: rest → loop c pre (Frame.init c fields) = .done g →
      g.stack = [] → g.insub = true → classify cmd = .word → c.sub cmd = some child →
      ∃ p0, NewParser thing tokens fields = .ok p0 ∧
        p0.fields = (ParseArgs thing pre fields).mem.fields ∧ p0.base = p0.fields ∧
        p0.pending ≠ [] ∧ p0.Next.1 = true) ∧
    (∀ g : Frame,
      (loop c tokens (Frame.init c fields) = .done g ∨
        loop c tokens (Frame.init c fields) = .stop g) → g.stack = [] →
      ∃ p0, NewParser thing tokens fields = .ok p0 ∧
        p0.fields = (ParseArgs thing tokens fields).mem.fields ∧ p0.base = p0.fields ∧
        p0.pending = [] ∧ p0.Next.1 = false) := by
  refine ⟨?_, ?_⟩
  · intro pre rest cmd g child htok hpre hstack hseek hword hsub
    subst htok
    have hp := preamble_command c fields pre rest cmd g child hpre hstack hseek hword hsub
    have hnew := newParser_ok thing c (pre ++ cmd :: rest) fields (.done g) (cmd :: rest)
      hb hv hp (fun _ _ _ hx => Exit.noConfusion hx)
    simp only [Exit.mem] at hnew
    have hne : pieces c g.mem.fields (cmd :: rest) (Frame.init c g.mem.fields) ≠ [] := by
      simp only [pieces]
      split
      · exact List.cons_ne_nil _ _
      · exact List.cons_ne_nil _ _
      · cases pieces c g.mem.fields rest _ <;> exact List.cons_ne_nil _ _
      · split
        · exact List.cons_ne_nil _ _
        · cases pieces c g.mem.fields _ _ <;> exact List.cons_ne_nil _ _
    refine ⟨_, hnew, ?_, rfl, hne, ?_⟩
    · rw [ParseArgs_loop thing c pre fields hb hv, hpre]
      rfl
    · obtain ⟨q, qs, hq⟩ := List.exists_cons_of_ne_nil hne
      rw [next_true _ q qs hq]
  · intro g h hstack
    obtain ⟨x, hp, hx, hnf⟩ := preamble_whole c fields tokens g h hstack
    have hnew := newParser_ok thing c tokens fields x [] hb hv hp hnf
    simp only at hnew
    refine ⟨_, hnew, ?_, rfl, rfl, ?_⟩
    · rw [ParseArgs_loop thing c tokens fields hb hv, result_mem, hx]
      rcases h with h | h <;> rw [h] <;> rfl
    · rw [next_false _ rfl]

/-- C21, at "Allows global option overrides on a per sub-command basis": the
first `Next()` has scanned `sub --target my-target` from the snapshot. -/
theorem next_is_scan_witness :
    NewParser chained overrideTokens chainedZero = .ok overrideStart ∧
    (overrideStart.after 0).Next = (true, overrideFirst) ∧
    ∃ seg, overrideStart.pending[0]? = some seg ∧
      overrideFirst.pending = overrideStart.pending.drop (0 + 1) ∧
      overrideFirst.base = overrideStart.base ∧
      overrideFirst.Command = (ParseArgs chained seg overrideStart.base).command ∧
      overrideFirst.Args = (ParseArgs chained seg overrideStart.base).remnants ∧
      overrideFirst.fields = (ParseArgs chained seg overrideStart.base).mem.fields :=
  ⟨rfl, rfl, next_is_scan chained overrideTokens chainedZero overrideStart 0 overrideFirst
    rfl rfl⟩

/-- C22, at "Allows global option overrides on a per sub-command basis": after
construction `Insecure` is true and `Target` is `x`; the first `Next()` gives
the command `sub` and `Target` is `my-target`; the second gives `sub` and
`Target` is `x` again, the segment `sub -k` making no call on it; the third
answers false. -/
theorem segment_does_not_leak_witness :
    (overrideStart.fields = overrideStart.base ∧ overrideSecond.base = overrideStart.base ∧
      overrideSecond.fields[2]? = overrideStart.fields[2]?) ∧
    overrideStart.fields[1]? = some (.one (.bool true)) ∧
    overrideStart.fields[2]? = some (.one (.str "x")) ∧
    (overrideStart.after 1).Command = "sub" ∧
    (overrideStart.after 1).fields[2]? = some (.one (.str "my-target")) ∧
    (overrideStart.after 2).Command = "sub" ∧
    (overrideStart.after 2).fields[2]? = some (.one (.str "x")) ∧
    (overrideStart.after 2).Next.1 = false :=
  ⟨segment_does_not_leak chained overrideTokens chainedZero overrideStart 1 overrideSecond
      ["sub", "-k"] 2 rfl rfl rfl (by decide),
    by decide, by decide, by decide, by decide, by decide, by decide, by decide⟩

/-- C23, at "Keeps sub-command arguments separate": after the preamble
`--insecure -t my-target` the tokens `sub --host prod -- sub -H dev` are cut
into two segments, and `Next()` answers true twice, then false. -/
theorem segments_cut_at_dashes_witness :
    ∃ p0, NewParser chained
        (["--insecure", "-t", "my-target"] ++ "sub" :: ["--host", "prod", "--", "sub", "-H", "dev"])
        chainedZero = .ok p0 ∧
      p0.pending = [["sub", "--host", "prod"], ["sub", "-H", "dev"]] ∧
      "sub" :: ["--host", "prod", "--", "sub", "-H", "dev"]
        = List.intercalate ["--"] [["sub", "--host", "prod"], ["sub", "-H", "dev"]] ∧
      (∀ (i : Nat) (hi : i < [["sub", "--host", "prod"], ["sub", "-H", "dev"]].length),
        (p0.after i).Next.1 = true ∧
        (p0.after (i + 1)).Command
          = (ParseArgs chained ([["sub", "--host", "prod"], ["sub", "-H", "dev"]].get ⟨i, hi⟩)
              p0.base).command ∧
        (p0.after (i + 1)).Args
          = (ParseArgs chained ([["sub", "--host", "prod"], ["sub", "-H", "dev"]].get ⟨i, hi⟩)
              p0.base).remnants ∧
        (p0.after (i + 1)).fields
          = (ParseArgs chained ([["sub", "--host", "prod"], ["sub", "-H", "dev"]].get ⟨i, hi⟩)
              p0.base).mem.fields) ∧
      (∀ n, [["sub", "--host", "prod"], ["sub", "-H", "dev"]].length ≤ n →
        (p0.after n).Next.1 = false) :=
  segments_cut_at_dashes chained chainedSchema chainedZero ["--insecure", "-t", "my-target"]
    ["--host", "prod", "--", "sub", "-H", "dev"] "sub" targetFrame
    (.mk "sub" [⟨.String, ["H"], ["host"], 3, ""⟩] [])
    [["sub", "--host", "prod"], ["sub", "-H", "dev"]] rfl rfl rfl rfl rfl (by decide) rfl
    (Cut.more ["sub", "--host", "prod"] ["sub", "-H", "dev"] [["sub", "-H", "dev"]]
      ⟨["sub"], true, .mk "sub" [⟨.String, ["H"], ["host"], 3, ""⟩] [], [],
        ⟨[.one (.bool false), .one (.bool true), .one (.str "my-target"), .one (.str "prod")],
          []⟩⟩
      rfl
      (Cut.last ["sub", "-H", "dev"] (fun g h =>
        Exit.noConfusion
          ((rfl : loop chainedSchema ["sub", "-H", "dev"]
              (Frame.init chainedSchema targetFrame.mem.fields)
            = .done ⟨["sub"], true, .mk "sub" [⟨.String, ["H"], ["host"], 3, ""⟩] [], [],
                ⟨[.one (.bool false), .one (.bool true), .one (.str "my-target"),
                  .one (.str "dev")], []⟩⟩).symm.trans h))))

/-- C24, at "Works with just global options" and "Works with a single
sub-command": on `--insecure -t my-target` the parser holds the storage of the
one-shot scan and `Next()` answers false; with `sub` after these tokens the
storage is the same and `Next()` answers true. -/
theorem preamble_applied_eagerly_witness :
    (∃ p0, NewParser chained ["--insecure", "-t", "my-target"] chainedZero = .ok p0 ∧
      p0.fields = (ParseArgs chained ["--insecure", "-t", "my-target"] chainedZero).mem.fields ∧
      p0.base = p0.fields ∧ p0.pending = [] ∧ p0.Next.1 = false) ∧
    (∃ p0, NewParser chained ["--insecure", "-t", "my-target", "sub"] chainedZero = .ok p0 ∧
      p0.fields = (ParseArgs chained ["--insecure", "-t", "my-target"] chainedZero).mem.fields ∧
      p0.base = p0.fields ∧ p0.pending ≠ [] ∧ p0.Next.1 = true) ∧
    (ParseArgs chained ["--insecure", "-t", "my-target"] chainedZero).mem.fields =
      [.one (.bool false), .one (.bool true), .one (.str "my-target"), .one (.str "")] :=
  ⟨(preamble_applied_eagerly chained chainedSchema ["--insecure", "-t", "my-target"]
      chainedZero rfl rfl).2 targetFrame (Or.inl rfl) rfl,
    (preamble_applied_eagerly chained chainedSchema ["--insecure", "-t", "my-target", "sub"]
      chainedZero rfl rfl).1 ["--insecure", "-t", "my-target"] [] "sub" targetFrame
      (.mk "sub" [⟨.String, ["H"], ["host"], 3, ""⟩] []) rfl rfl rfl rfl (by decide) rfl,
    by decide⟩

/-! ## The order of the commands and of the leftover -/

theorem step_next_shape (c : context) (arg : String) (a : List String) (f f1 : Frame)
    (k : Bool) (h : step c arg a f = .next f1 k) :
    (f.insub = false → f1.insub = false) ∧
    ((f1.stack = f.stack ∧ f1.remnants = f.remnants) ∨
      (f1.stack = f.stack ++ [arg] ∧ f1.remnants = f.remnants ∧ f.insub = true) ∨
      (f1.stack = f.stack ∧ f1.remnants = f.remnants ++ [arg] ∧ f1.insub = false)) := by
  rcases step_next_frame c arg a f f1 k h with ⟨_, hf⟩ | ⟨_, hf⟩ | ⟨h1, h2, _, h4⟩
  · subst hf
    exact ⟨fun _ => rfl, Or.inr (Or.inr ⟨rfl, rfl, rfl⟩)⟩
  · subst hf
    unfold stepWord
    cases hi : f.insub with
    | false => exact ⟨fun _ => rfl, Or.inr (Or.inr ⟨rfl, rfl, rfl⟩)⟩
    | true =>
      simp only [if_true]
      cases f.level.sub arg with
      | none => exact ⟨fun hx => Bool.noConfusion hx, Or.inr (Or.inr ⟨rfl, rfl, rfl⟩)⟩
      | some next => exact ⟨fun hx => Bool.noConfusion hx, Or.inr (Or.inl ⟨rfl, rfl, trivial⟩)⟩
  · exact ⟨fun hx => h2.trans hx, Or.inl ⟨h1, h4⟩⟩

theorem sublist_step (arg : String) (args s r s1 r1 : List String)
    (hsub : (s ++ r).Sublist args)
    (h : (s1 = [] ∧ r1 = []) ∨ (s1 = [arg] ∧ r1 = []) ∨ (s1 = [] ∧ r1 = [arg] ∧ s = [])) :
    ((s1 ++ s) ++ (r1 ++ r)).Sublist (arg :: args) := by
  rcases h with ⟨h1, h2⟩ | ⟨h1, h2⟩ | ⟨h1, h2, h3⟩
  · subst h1 h2
    exact List.Sublist.cons _ hsub
  · subst h1 h2
    simp only [List.singleton_append, List.nil_append, List.cons_append]
    exact List.Sublist.cons₂ _ hsub
  · subst h1 h2 h3
    simp only [List.nil_append, List.singleton_append] at hsub ⊢
    exact List.Sublist.cons₂ _ hsub

theorem loop_sublist (c : context) :
    ∀ (args : List String) (f g : Frame),
      (loop c args f = .done g ∨ loop c args f = .stop g) →
      ∃ s r, g.stack = f.stack ++ s ∧ g.remnants = f.remnants ++ r ∧
        (s ++ r).Sublist args ∧ (f.insub = false → s = []) := by
  intro args
  induction args using tokens_induction with
  | nil =>
    intro f g h
    rcases h with h | h
    · cases h
      exact ⟨[], [], by simp, by simp, List.Sublist.slnil, fun _ => rfl⟩
    · cases h
  | cons arg args ih ih2 =>
    intro f g h
    rw [loop_cons] at h
    cases hs : step c arg args f with
    | halt x =>
      rw [hs] at h
      simp only at h
      rcases h with h | h
      · subst h
        exact (step_halt_not_done c arg args f g hs).elim
      · subst h
        obtain ⟨_, hg⟩ := step_halt_stop c arg args f g hs
        subst hg
        exact ⟨[], args, by simp, rfl, List.sublist_cons_self arg args, fun _ => rfl⟩
    | next f1 k =>
      rw [hs] at h
      obtain ⟨hoff, hshape⟩ := step_next_shape c arg args f f1 k hs
      have key : ∃ s r, g.stack = f1.stack ++ s ∧ g.remnants = f1.remnants ++ r ∧
          (s ++ r).Sublist args ∧ (f1.insub = false → s = []) := by
        cases k with
        | false => exact ih f1 g h
        | true =>
          obtain ⟨s, r, h1, h2, h3, h4⟩ := ih2 f1 g h
          exact ⟨s, r, h1, h2, h3.trans (List.tail_sublist args), h4⟩
      obtain ⟨s, r, h1, h2, h3, h4⟩ := key
      rcases hshape with ⟨e1, e2⟩ | ⟨e1, e2, e3⟩ | ⟨e1, e2, e3⟩
      · refine ⟨s, r, by rw [h1, e1], by rw [h2, e2], List.Sublist.cons _ h3, ?_⟩
        exact fun hx => h4 (hoff hx)
      · refine ⟨[arg] ++ s, r, by rw [h1, e1, List.append_assoc],
          by rw [h2, e2], ?_, ?_⟩
        · have := sublist_step arg args s r [arg] [] h3 (Or.inr (Or.inl ⟨rfl, rfl⟩))
          simpa using this
        · intro hx
          rw [e3] at hx
          cases hx
      · have hs0 : s = [] := h4 e3
        refine ⟨s, [arg] ++ r, by rw [h1, e1], by rw [h2, e2, List.append_assoc], ?_,
          fun _ => hs0⟩
        have := sublist_step arg args s r [] [arg] h3 (Or.inr (Or.inr ⟨rfl, rfl, hs0⟩))
        simpa using this

/-- C31: when `ParseArgs` succeeds, the command path is made of the tokens
that were matched as commands, joined by spaces, and these tokens followed by
the leftover list are a subsequence of the tokens, in their order: the tokens
split in two parts, the commands being among the first and the leftover among
the second; every leftover is a token, and there are at most as many commands
and leftover together as tokens. -/
theorem commands_then_leftover (thing : GoType) (c : context) (args : List String)
    (fields : List Value) (hb : reflectOnIt thing = .ok c) (hv : validate c = .ok ())
    (hok : (ParseArgs thing args fields).err = none) :
    ∃ stack : List String,
      (ParseArgs thing args fields).command = String.intercalate " " stack ∧
      (∃ level, c.walk stack = some level) ∧
      (stack ++ (ParseArgs thing args fields).remnants).Sublist args ∧
      (∃ a b, args = a ++ b ∧ stack.Sublist a ∧
        (ParseArgs thing args fields).remnants.Sublist b) ∧
      (∀ x ∈ (ParseArgs thing args fields).remnants, x ∈ args) ∧
      stack.length + (ParseArgs thing args fields).remnants.length ≤ args.length := by
  have hP : ParseArgs thing args fields = (loop c args (Frame.init c fields)).result := by
    simp only [ParseArgs, hb, hv]
  rw [hP] at hok ⊢
  have hex : ∃ g, (loop c args (Frame.init c fields) = .done g ∨
      loop c args (Frame.init c fields) = .stop g) ∧
      (loop c args (Frame.init c fields)).result
        = ⟨String.intercalate " " g.stack, g.remnants, none, g.mem⟩ := by
    cases hl : loop c args (Frame.init c fields) with
    | fail e r m =>
      rw [hl] at hok
      cases hok
    | stop g => exact ⟨g, Or.inr rfl, rfl⟩
    | done g => exact ⟨g, Or.inl rfl, rfl⟩
  obtain ⟨g, hg, hres⟩ := hex
  rw [hres]
  obtain ⟨s, r, h1, h2, h3, _⟩ := loop_sublist c args _ g hg
  have hs : g.stack = s := by simpa [Frame.init] using h1
  have hr : g.remnants = r := by simpa [Frame.init] using h2
  subst hs hr
  have hw := loop_walk c args (Frame.init c fields) g rfl hg
  refine ⟨g.stack, rfl, ⟨g.level, hw⟩, h3, List.append_sublist_iff.1 h3, ?_, ?_⟩
  · intro x hx
    exact h3.subset (List.mem_append_right _ hx)
  · have := h3.length_le
    simpa using this

/-- C31, at `-v hosts x --raw -- --help` of the "Sub-commands" structure: the
command `hosts` and the leftover `x`, `--help` come in this order in the
tokens. -/
theorem commands_then_leftover_witness :
    ParseArgs subcommands ["-v", "hosts", "x", "--raw", "--", "--help"] subcommandsZero =
      ⟨"hosts", ["x", "--help"], none,
        ⟨[.one (.bool false), .one (.bool true), .one (.str ""), .one (.bool true),
          .one (.str ""), .one (.bool false)], []⟩⟩ ∧
    ∃ stack : List String,
      (ParseArgs subcommands ["-v", "hosts", "x", "--raw", "--", "--help"]
        subcommandsZero).command = String.intercalate " " stack ∧
      (∃ level, subcommandsSchema.walk stack = some level) ∧
      (stack ++ (ParseArgs subcommands ["-v", "hosts", "x", "--raw", "--", "--help"]
        subcommandsZero).remnants).Sublist ["-v", "hosts", "x", "--raw", "--", "--help"] ∧
      (∃ a b, ["-v", "hosts", "x", "--raw", "--", "--help"] = a ++ b ∧ stack.Sublist a ∧
        (ParseArgs subcommands ["-v", "hosts", "x", "--raw", "--", "--help"]
          subcommandsZero).remnants.Sublist b) ∧
      (∀ x ∈ (ParseArgs subcommands ["-v", "hosts", "x", "--raw", "--", "--help"]
          subcommandsZero).remnants, x ∈ ["-v", "hosts", "x", "--raw", "--", "--help"]) ∧
      stack.length + (ParseArgs subcommands ["-v", "hosts", "x", "--raw", "--", "--help"]
          subcommandsZero).remnants.length
        ≤ ["-v", "hosts", "x", "--raw", "--", "--help"].length :=
  ⟨by decide,
    commands_then_leftover subcommands subcommandsSchema
      ["-v", "hosts", "x", "--raw", "--", "--help"] subcommandsZero rfl rfl (by decide)⟩

/-! ## Values and boolean flags -/

theorem step_takes_next (c : context) (o v : String) (rest : List String) (f : Frame)
    (opt : option) (mem : Storage) (h : TakesNext c f o opt mem) :
    step c o (v :: rest) f =
      match opt.set v mem with
      | .ok m => .next ⟨f.stack, f.insub, f.level, f.remnants, m⟩ true
      | .error e => .halt (.fail e f.remnants mem) := by
  rcases h with ⟨name, hc, hf, hk, hm⟩ | ⟨run, pre, x, hc, hrun, hall, hf, hk, hm⟩
  · subst hm
    simp only [step, hc, stepLong, hf, hk, if_false]
    cases opt.set v f.mem <;> rfl
  · subst hm hrun
    simp only [step, hc, stepShort, List.head?_cons,
      shortRun_last_value c f.stack v pre x opt f.mem hall hf hk]
    cases opt.set v (enableRun c f.stack pre f.mem) <;> rfl

/-- C32: the token `v` that follows a non-boolean option taking its value from
the next token is handed to `set` and to nothing else.  When `set` accepts
it, the iteration takes it and the loop goes on with the tokens after it, in
a frame whose command stack, level, `insub` and leftover list are those before
the option: so `--` as a value does not stop the scan, the empty string as a
value leaves `insub` as it is, a value that begins with `-` is not resolved as
an option and a value that names a sub-command is not descended into.  When
`set` refuses it, its error is returned.  A field of string kind receives the
token as it is. -/
theorem value_token_verbatim (c : context) (o v : String) (rest : List String)
    (f : Frame) (opt : option) (mem : Storage) (h : TakesNext c f o opt mem) :
    (∀ m, opt.set v mem = .ok m →
      step c o (v :: rest) f = .next ⟨f.stack, f.insub, f.level, f.remnants, m⟩ true ∧
      loop c (o :: v :: rest) f
        = loop c rest ⟨f.stack, f.insub, f.level, f.remnants, m⟩) ∧
    (∀ e, opt.set v mem = .error e →
      loop c (o :: v :: rest) f = .fail e f.remnants mem) ∧
    (opt.Kind = Kind.String →
      opt.set v mem = .ok ⟨mem.fields.set opt.Value (.one (.str v)), mem.touched⟩) := by
  have hstep := step_takes_next c o v rest f opt mem h
  refine ⟨?_, ?_, ?_⟩
  · intro m hm
    rw [hm] at hstep
    refine ⟨hstep, ?_⟩
    rw [loop_cons, hstep]
    rfl
  · intro e he
    rw [he] at hstep
    rw [loop_cons, hstep]
  · intro hk
    simp only [option.set, hk, coerce]

/-- C32, at the "Sub-commands" structure: after `--target` the token `--` is
the value and the scan goes on; so are, after `-t`, the empty string, `-v` and
the command name `hosts`; the second `hosts` is then matched as a command. -/
theorem value_token_verbatim_witness :
    (step subcommandsSchema "--target" ("--" :: ["-v"])
        (Frame.init subcommandsSchema subcommandsZero) =
        .next ⟨[], true, subcommandsSchema, [],
          ⟨[.one (.bool false), .one (.bool false), .one (.str "--"), .one (.bool false),
            .one (.str ""), .one (.bool false)], []⟩⟩ true ∧
      loop subcommandsSchema ("--target" :: "--" :: ["-v"])
          (Frame.init subcommandsSchema subcommandsZero) =
        loop subcommandsSchema ["-v"] ⟨[], true, subcommandsSchema, [],
          ⟨[.one (.bool false), .one (.bool false), .one (.str "--"), .one (.bool false),
            .one (.str ""), .one (.bool false)], []⟩⟩) ∧
    ParseArgs subcommands ["--target", "--", "-v"] subcommandsZero =
      ⟨"", [], none,
        ⟨[.one (.bool false), .one (.bool true), .one (.str "--"), .one (.bool false),
          .one (.str ""), .one (.bool false)], []⟩⟩ ∧
    ParseArgs subcommands ["-t", "", "-t", "-v", "-t", "hosts", "hosts", "-R"]
        subcommandsZero =
      ⟨"hosts", [], none,
        ⟨[.one (.bool false), .one (.bool false), .one (.str "hosts"), .one (.bool true),
          .one (.str ""), .one (.bool false)], []⟩⟩ :=
  ⟨(value_token_verbatim subcommandsSchema "--target" "--" ["-v"]
      (Frame.init subcommandsSchema subcommandsZero)
      ⟨.String, ["t"], ["target"], 2, "target"⟩ ⟨subcommandsZero, []⟩
      (Or.inl ⟨"target", by decide, rfl, by decide, rfl⟩)).1 _ rfl,
    by decide, by decide⟩

theorem allBool_snoc (c : context) (stack : List String) (pre : List Char) (x : Char)
    (opt : option) (hall : allBool c stack pre)
    (hf : c.findShort stack (String.mk [x]) = .ok opt) (hk : opt.Kind = Kind.Bool) :
    allBool c stack (pre ++ [x]) := by
  intro ch hch
  rcases List.mem_append.1 hch with h | h
  · exact hall ch h
  · rw [List.mem_singleton] at h
    subst h
    exact ⟨opt, hf, hk⟩

/-- C33: a boolean option takes no value.  The iteration for a boolean long
option, or for a short run whose flags are all boolean up to the last, enables
the flags and takes no token after it (`args` is left as it is), whatever the
tokens that follow; the loop goes on with the very next token, which is
dispatched like any other token in a frame that differs from the one before
the option by the storage only. -/
theorem boolean_takes_no_value (c : context) (o : String) (args : List String)
    (f : Frame) :
    (∀ (name : String) (opt : option), classify o = .long name →
      c.findLong f.stack name = .ok opt → opt.Kind = Kind.Bool →
      step c o args f
        = .next ⟨f.stack, f.insub, f.level, f.remnants, opt.enable f.mem⟩ false ∧
      loop c (o :: args) f
        = loop c args ⟨f.stack, f.insub, f.level, f.remnants, opt.enable f.mem⟩ ∧
      ∀ t rest, args = t :: rest →
        loop c (o :: args) f =
          match step c t rest ⟨f.stack, f.insub, f.level, f.remnants, opt.enable f.mem⟩ with
          | .halt e => e
          | .next f1 false => loop c rest f1
          | .next f1 true => loop c rest.tail f1) ∧
    (∀ (pre : List Char) (x : Char) (opt : option), classify o = .short (pre ++ [x]) →
      allBool c f.stack pre → c.findShort f.stack (String.mk [x]) = .ok opt →
      opt.Kind = Kind.Bool →
      step c o args f
        = .next ⟨f.stack, f.insub, f.level, f.remnants,
            enableRun c f.stack (pre ++ [x]) f.mem⟩ false ∧
      loop c (o :: args) f
        = loop c args ⟨f.stack, f.insub, f.level, f.remnants,
            enableRun c f.stack (pre ++ [x]) f.mem⟩ ∧
      ∀ t rest, args = t :: rest →
        loop c (o :: args) f =
          match step c t rest ⟨f.stack, f.insub, f.level, f.remnants,
              enableRun c f.stack (pre ++ [x]) f.mem⟩ with
          | .halt e => e
          | .next f1 false => loop c rest f1
          | .next f1 true => loop c rest.tail f1) := by
  refine ⟨?_, ?_⟩
  · intro name opt hc hf hk
    have hstep : step c o args f
        = .next ⟨f.stack, f.insub, f.level, f.remnants, opt.enable f.mem⟩ false := by
      simp only [step, hc, stepLong, hf, hk, if_true]
    have hloop : loop c (o :: args) f
        = loop c args ⟨f.stack, f.insub, f.level, f.remnants, opt.enable f.mem⟩ := by
      rw [loop_cons, hstep]
    refine ⟨hstep, hloop, ?_⟩
    intro t rest hargs
    subst hargs
    exact hloop.trans (loop_cons c t rest _)
  · intro pre x opt hc hall hf hk
    have hrun := shortRun_all_bool c f.stack args.head? (pre ++ [x]) f.mem
      (allBool_snoc c f.stack pre x opt hall hf hk)
    have hstep : step c o args f
        = .next ⟨f.stack, f.insub, f.level, f.remnants,
            enableRun c f.stack (pre ++ [x]) f.mem⟩ false := by
      simp only [step, hc, stepShort, hrun]
    have hloop : loop c (o :: args) f
        = loop c args ⟨f.stack, f.insub, f.level, f.remnants,
            enableRun c f.stack (pre ++ [x]) f.mem⟩ := by
      rw [loop_cons, hstep]
    refine ⟨hstep, hloop, ?_⟩
    intro t rest hargs
    subst hargs
    exact hloop.trans (loop_cons c t rest _)

/-- C33, at the structure of "Simple Boolean Flags": in `-s --long` the flag
`-s` does not take `--long`, which is read as an option; and in `--long x` the
token `x` is a leftover. -/
theorem boolean_takes_no_value_witness :
    (step boolFlagsSchema "-s" ["--long"] (Frame.init boolFlagsSchema boolFlagsZero)
        = .next ⟨[], true, boolFlagsSchema, [],
            enableRun boolFlagsSchema [] ([] ++ ['s']) ⟨boolFlagsZero, []⟩⟩ false) ∧
    ParseArgs boolFlags ["-s", "--long"] boolFlagsZero =
      ⟨"", [], none, ⟨[.one (.bool true), .one (.bool true), .one (.bool false)], []⟩⟩ ∧
    ParseArgs boolFlags ["--long", "x"] boolFlagsZero =
      ⟨"", ["x"], none, ⟨[.one (.bool false), .one (.bool true), .one (.bool false)], []⟩⟩ :=
  ⟨((boolean_takes_no_value boolFlagsSchema "-s" ["--long"]
      (Frame.init boolFlagsSchema boolFlagsZero)).2 [] 's' ⟨.Bool, ["s"], [], 0, "s"⟩
      (by decide) (fun _ hx => (nomatch hx)) rfl rfl).1,
    by decide, by decide⟩

/-! ## Short options in the scan -/

theorem numericArgs_reflect : reflectOnIt numericArgs = .ok numericArgsSchema := rfl

theorem unrecognizedArgs_reflect : reflectOnIt unrecognizedArgs = .ok unrecognizedArgsSchema :=
  rfl

theorem enableRun_snoc (c : context) (stack : List String) (pre : List Char) (x : Char)
    (opt : option) (mem : Storage) (hall : allBool c stack pre)
    (hf : c.findShort stack (String.mk [x]) = .ok opt) :
    enableRun c stack (pre ++ [x]) mem = opt.enable (enableRun c stack pre mem) := by
  induction pre generalizing mem with
  | nil => simp only [List.nil_append, enableRun, hf]
  | cons ch pre ih =>
    obtain ⟨o1, h1, _⟩ := hall ch (List.mem_cons_self _ _)
    have hall1 : allBool c stack pre := fun y hy => hall y (List.mem_cons_of_mem _ hy)
    simp only [List.cons_append, enableRun, h1]
    exact ih _ hall1

theorem enableRun_other (c : context) (stack : List String) (pre : List Char)
    (mem : Storage) (i : Nat)
    (h : ∀ ch ∈ pre, ∀ o1 : option, c.findShort stack (String.mk [ch]) = .ok o1 →
      o1.Value ≠ i) :
    (enableRun c stack pre mem).fields[i]? = mem.fields[i]? := by
  induction pre generalizing mem with
  | nil => rfl
  | cons ch pre ih =>
    have hrest : ∀ y ∈ pre, ∀ o1 : option, c.findShort stack (String.mk [y]) = .ok o1 →
        o1.Value ≠ i := fun y hy => h y (List.mem_cons_of_mem _ hy)
    simp only [enableRun]
    cases hf : c.findShort stack (String.mk [ch]) with
    | error e => rfl
    | ok o1 =>
      simp only
      rw [ih _ hrest]
      exact enable_frame o1 mem i (h ch (List.mem_cons_self _ _) o1 hf)

theorem loop_run_bool (c : context) (o : String) (run : List Char) (args : List String)
    (f : Frame) (hc : classify o = .short run) (hall : allBool c f.stack run) :
    loop c (o :: args) f
      = loop c args ⟨f.stack, f.insub, f.level, f.remnants, enableRun c f.stack run f.mem⟩ := by
  have hr := shortRun_all_bool c f.stack args.head? run f.mem hall
  have := loop_short c o run args f _ false hc hr
  simpa using this

theorem loop_run_unknown (c : context) (o : String) (pre post : List Char) (x : Char)
    (args : List String) (f : Frame) (e : String)
    (hc : classify o = .short (pre ++ x :: post)) (hall : allBool c f.stack pre)
    (hf : c.findShort f.stack (String.mk [x]) = .error e) :
    loop c (o :: args) f = .fail e f.remnants (enableRun c f.stack pre f.mem) := by
  have hr : shortRun c f.stack args.head? (pre ++ x :: post) f.mem
      = .fail e (enableRun c f.stack pre f.mem) := by
    rw [shortRun_bools c f.stack _ pre (x :: post) f.mem hall]
    exact shortRun_unknown c f.stack _ x post _ e hf
  exact loop_short_fail c o _ args f _ e hc hr

theorem loop_takes_next (c : context) (o v : String) (rest : List String) (f : Frame)
    (opt : option) (mem : Storage) (h : TakesNext c f o opt mem) :
    loop c (o :: v :: rest) f =
      match opt.set v mem with
      | .ok m => loop c rest ⟨f.stack, f.insub, f.level, f.remnants, m⟩
      | .error e => .fail e f.remnants mem := by
  rw [loop_cons, step_takes_next c o v rest f opt mem h]
  cases opt.set v mem <;> rfl

theorem loop_run_rest (c : context) (o : String) (pre post : List Char) (x : Char)
    (args : List String) (f : Frame) (opt : option)
    (hc : classify o = .short (pre ++ x :: post)) (hall : allBool c f.stack pre)
    (hf : c.findShort f.stack (String.mk [x]) = .ok opt) (hk : opt.Kind ≠ Kind.Bool)
    (hpost : post ≠ []) :
    loop c (o :: args) f =
      match opt.set (String.mk post) (enableRun c f.stack pre f.mem) with
      | .ok m => loop c args ⟨f.stack, f.insub, f.level, f.remnants, m⟩
      | .error e => .fail e f.remnants (enableRun c f.stack pre f.mem) := by
  have hlen : post.length > 0 := List.length_pos.2 hpost
  have hr : shortRun c f.stack args.head? (pre ++ x :: post) f.mem =
      match opt.set (String.mk post) (enableRun c f.stack pre f.mem) with
      | .ok m => .done m false
      | .error e => .fail e (enableRun c f.stack pre f.mem) := by
    rw [shortRun_bools c f.stack _ pre (x :: post) f.mem hall]
    simp only [shortRun, hf, hk, if_false, hlen, if_true]
    cases opt.set (String.mk post) (enableRun c f.stack pre f.mem) <;> rfl
  cases hs : opt.set (String.mk post) (enableRun c f.stack pre f.mem) with
  | ok m =>
    rw [hs] at hr
    have := loop_short c o _ args f m false hc hr
    simpa using this
  | error e =>
    rw [hs] at hr
    exact loop_short_fail c o _ args f _ e hc hr

theorem set_integer (w : Nat) (opt : option) (v : String) (mem : Storage)
    (hk : opt.Kind = .Int w ∨ opt.Kind = .Uint w) :
    opt.set v mem =
      match coerce opt.Kind v with
      | .ok x => .ok ⟨mem.fields.set opt.Value (.one x), mem.touched⟩
      | .error e => .error e := by
  apply set_scalar
  intro elem he
  rcases hk with hk | hk <;> rw [hk] at he <;> cases he

theorem integer_not_bool (w : Nat) (opt : option)
    (hk : opt.Kind = .Int w ∨ opt.Kind = .Uint w) : opt.Kind ≠ Kind.Bool := by
  rcases hk with hk | hk <;> rw [hk] <;> exact fun h => nomatch h

/-- C7: in every frame the scan of `ParseArgs` reaches, the command stack leads from the
root to the current command, and an option name is resolved against the
descriptors of the levels along that path (the current command and its
ancestors) and no others: `findLong` / `findShort` answer a descriptor of
that set that lists the name, and fail as unrecognized when none does.  A
long option of the root is therefore accepted at any depth and writes the
root's field, and a long option token that no level on the path declares
(such as one declared only on a sub-command not entered) ends the scan with
the unrecognized-option error.  The same holds of a short option token, read
character by character: behind boolean flags `pre`, a boolean short option of
the root writes true into the root's field at any depth, a short option of
the root that takes a value stores the rest of the token or, when nothing
is left of it, the next token, in the root's field, and a character that no
level on the path declares as a short alias ends the scan with the
unrecognized-option error, the flags of `pre` enabled.  At the structure of
"Unrecognized arguments", `-H test sub` and `-h sub -H test -x` end with the
error on `-H` and on `-x`; at "Sub-commands", `hosts -v -t qa` writes the
global fields of `Version` and `Target`. -/
theorem options_resolved_in_scope (c : context) (fields : List Value)
    (a : List String) (g : Frame)
    (ha : loop c a (Frame.init c fields) = .done g) :
    c.walk g.stack = some g.level ∧
      (∀ d : option, d ∈ c.visible g.stack ↔
        ∃ pre l, pre <+: g.stack ∧ c.walk pre = some l ∧ d ∈ l.Options) ∧
      (∀ name : String,
        (∃ d ∈ c.visible g.stack, name ∈ d.Longs ∧
            c.findLong g.stack name = .ok ⟨d.Kind, d.Shorts, d.Longs, d.Value, name⟩) ∨
          ((∀ d ∈ c.visible g.stack, name ∉ d.Longs) ∧
            c.findLong g.stack name
              = .error ("unrecognized option `--" ++ name ++ "`"))) ∧
      (∀ name : String,
        (∃ d ∈ c.visible g.stack, name ∈ d.Shorts ∧
            c.findShort g.stack name = .ok ⟨d.Kind, d.Shorts, d.Longs, d.Value, name⟩) ∨
          ((∀ d ∈ c.visible g.stack, name ∉ d.Shorts) ∧
            c.findShort g.stack name
              = .error ("unrecognized option `-" ++ name ++ "`"))) ∧
      (∀ (o name : String) (args : List String) (d : option),
        classify o = .long name →
        c.Options.find? (fun x => decide (name ∈ x.Longs)) = some d →
        d.Kind = Kind.Bool →
        loop c (o :: args) g
          = loop c args ⟨g.stack, g.insub, g.level, g.remnants,
              ⟨g.mem.fields.set d.Value
                (.one (.bool (!("no-".data.isPrefixOf name.data)))), g.mem.touched⟩⟩) ∧
      (∀ (o name v : String) (args : List String) (d : option) (m : Storage),
        classify o = .long name →
        c.Options.find? (fun x => decide (name ∈ x.Longs)) = some d →
        d.Kind ≠ Kind.Bool →
        option.set ⟨d.Kind, d.Shorts, d.Longs, d.Value, name⟩ v g.mem = .ok m →
        loop c (o :: v :: args) g
          = loop c args ⟨g.stack, g.insub, g.level, g.remnants, m⟩) ∧
      (∀ (o name : String) (args : List String),
        classify o = .long name →
        (∀ d ∈ c.visible g.stack, name ∉ d.Longs) →
        loop c (o :: args) g
          = .fail ("unrecognized option `--" ++ name ++ "`") g.remnants g.mem) ∧
      (∀ (o : String) (pre : List Char) (x : Char) (args : List String) (d : option),
        classify o = .short (pre ++ [x]) → allBool c g.stack pre →
        c.Options.find? (fun y => decide (String.mk [x] ∈ y.Shorts)) = some d →
        d.Kind = Kind.Bool →
        loop c (o :: args) g
          = loop c args ⟨g.stack, g.insub, g.level, g.remnants,
              ⟨(enableRun c g.stack pre g.mem).fields.set d.Value (.one (.bool true)),
                (enableRun c g.stack pre g.mem).touched⟩⟩) ∧
      (∀ (o v : String) (pre : List Char) (x : Char) (args : List String) (d : option)
        (m : Storage),
        classify o = .short (pre ++ [x]) → allBool c g.stack pre →
        c.Options.find? (fun y => decide (String.mk [x] ∈ y.Shorts)) = some d →
        d.Kind ≠ Kind.Bool →
        option.set ⟨d.Kind, d.Shorts, d.Longs, d.Value, String.mk [x]⟩ v
          (enableRun c g.stack pre g.mem) = .ok m →
        loop c (o :: v :: args) g
          = loop c args ⟨g.stack, g.insub, g.level, g.remnants, m⟩) ∧
      (∀ (o : String) (pre post : List Char) (x : Char) (args : List String) (d : option)
        (m : Storage),
        classify o = .short (pre ++ x :: post) → allBool c g.stack pre → post ≠ [] →
        c.Options.find? (fun y => decide (String.mk [x] ∈ y.Shorts)) = some d →
        d.Kind ≠ Kind.Bool →
        option.set ⟨d.Kind, d.Shorts, d.Longs, d.Value, String.mk [x]⟩ (String.mk post)
          (enableRun c g.stack pre g.mem) = .ok m →
        loop c (o :: args) g
          = loop c args ⟨g.stack, g.insub, g.level, g.remnants, m⟩) ∧
      (∀ (o : String) (pre post : List Char) (x : Char) (args : List String),
        classify o = .short (pre ++ x :: post) → allBool c g.stack pre →
        (∀ d ∈ c.visible g.stack, String.mk [x] ∉ d.Shorts) →
        loop c (o :: args) g
          = .fail ("unrecognized option `-" ++ String.mk [x] ++ "`") g.remnants
              (enableRun c g.stack pre g.mem)) ∧
      ParseArgs unrecognizedArgs ["-H", "test", "sub"] unrecognizedArgsZero
        = ⟨"", [], some "unrecognized option `-H`", ⟨unrecognizedArgsZero, []⟩⟩ ∧
      ParseArgs unrecognizedArgs ["-h", "sub", "-H", "test", "-x"] unrecognizedArgsZero
        = ⟨"", [], some "unrecognized option `-x`",
            ⟨[.one (.bool true), .one (.str "test")], []⟩⟩ ∧
      ParseArgs subcommands ["hosts", "-v", "-t", "qa"] subcommandsZero
        = ⟨"hosts", [], none,
            ⟨[.one (.bool false), .one (.bool true), .one (.str "qa"), .one (.bool false),
              .one (.str ""), .one (.bool false)], []⟩⟩ := by
  refine ⟨loop_walk c a (Frame.init c fields) g rfl (Or.inl ha),
    fun d => mem_visible_iff c g.stack d,
    fun name => findLong_spec c g.stack name, fun name => findShort_spec c g.stack name,
    ?_, ?_, ?_, ?_, ?_, ?_, ?_, by decide, by decide, by decide⟩
  · intro o name args d ho hd hk
    rw [loop_long_bool c o name args g _ ho (findLong_global c g.stack name d hd) hk]
    rfl
  · intro o name v args d m ho hd hk hs
    exact loop_long_value c o name v args g _ m ho (findLong_global c g.stack name d hd) hk hs
  · intro o name args ho hno
    rcases findLong_spec c g.stack name with ⟨d, hd, hn, _⟩ | ⟨_, herr⟩
    · exact (hno d hd hn).elim
    · exact loop_long_unknown c o name _ args g ho herr
  · intro o pre x args d ho hall hd hk
    have hf := findShort_global c g.stack (String.mk [x]) d hd
    rw [loop_run_bool c o (pre ++ [x]) args g ho (allBool_snoc c g.stack pre x _ hall hf hk),
      enableRun_snoc c g.stack pre x _ g.mem hall hf, enable_short _ x _ rfl]
  · intro o v pre x args d m ho hall hd hk hs
    have hf := findShort_global c g.stack (String.mk [x]) d hd
    rw [loop_takes_next c o v args g _ (enableRun c g.stack pre g.mem)
      (Or.inr ⟨pre ++ [x], pre, x, ho, rfl, hall, hf, hk, rfl⟩), hs]
  · intro o pre post x args d m ho hall hpost hd hk hs
    have hf := findShort_global c g.stack (String.mk [x]) d hd
    rw [loop_run_rest c o pre post x args g _ ho hall hf hk hpost, hs]
  · intro o pre post x args ho hall hno
    rcases findShort_spec c g.stack (String.mk [x]) with ⟨d, hd, hn, _⟩ | ⟨_, herr⟩
    · exact (hno d hd hn).elim
    · exact loop_run_unknown c o pre post x args g _ ho hall herr

/-- C7, at the "Sub-commands" structure: after `-v hosts --raw` the global
`--target qa` is accepted and writes the field of `Target`, and so are the
short `-t qa`, `-tqa` and `-h`, which write the fields of `Target` and
`Help`; at the root, `--raw`, declared on `hosts` only, is unrecognized.  At
the structure of "Unrecognized arguments", `-H test sub` ends with the error
on `-H`, which only the command `sub`, not entered yet, declares. -/
theorem options_resolved_in_scope_witness :
    loop subcommandsSchema ("--target" :: "qa" :: ["active"])
        ⟨["hosts"], true, subcommandsHosts, [],
          ⟨[.one (.bool false), .one (.bool true), .one (.str ""), .one (.bool true),
            .one (.str ""), .one (.bool false)], []⟩⟩
      = loop subcommandsSchema ["active"]
          ⟨["hosts"], true, subcommandsHosts, [],
            ⟨[.one (.bool false), .one (.bool true), .one (.str "qa"), .one (.bool true),
              .one (.str ""), .one (.bool false)], []⟩⟩ ∧
    loop subcommandsSchema ("--raw" :: ["hosts"]) (Frame.init subcommandsSchema subcommandsZero)
      = .fail "unrecognized option `--raw`" [] ⟨subcommandsZero, []⟩ ∧
    loop subcommandsSchema ("-t" :: "qa" :: ["active"])
        ⟨["hosts"], true, subcommandsHosts, [],
          ⟨[.one (.bool false), .one (.bool true), .one (.str ""), .one (.bool true),
            .one (.str ""), .one (.bool false)], []⟩⟩
      = loop subcommandsSchema ["active"]
          ⟨["hosts"], true, subcommandsHosts, [],
            ⟨[.one (.bool false), .one (.bool true), .one (.str "qa"), .one (.bool true),
              .one (.str ""), .one (.bool false)], []⟩⟩ ∧
    loop subcommandsSchema ("-tqa" :: ["active"])
        ⟨["hosts"], true, subcommandsHosts, [],
          ⟨[.one (.bool false), .one (.bool true), .one (.str ""), .one (.bool true),
            .one (.str ""), .one (.bool false)], []⟩⟩
      = loop subcommandsSchema ["active"]
          ⟨["hosts"], true, subcommandsHosts, [],
            ⟨[.one (.bool false), .one (.bool true), .one (.str "qa"), .one (.bool true),
              .one (.str ""), .one (.bool false)], []⟩⟩ ∧
    loop subcommandsSchema ("-h" :: ["active"])
        ⟨["hosts"], true, subcommandsHosts, [],
          ⟨[.one (.bool false), .one (.bool true), .one (.str ""), .one (.bool true),
            .one (.str ""), .one (.bool false)], []⟩⟩
      = loop subcommandsSchema ["active"]
          ⟨["hosts"], true, subcommandsHosts, [],
            ⟨[.one (.bool true), .one (.bool true), .one (.str ""), .one (.bool true),
              .one (.str ""), .one (.bool false)], []⟩⟩ ∧
    loop unrecognizedArgsSchema ("-H" :: ["test", "sub"])
        (Frame.init unrecognizedArgsSchema unrecognizedArgsZero)
      = .fail "unrecognized option `-H`" [] ⟨unrecognizedArgsZero, []⟩ :=
  ⟨(options_resolved_in_scope subcommandsSchema subcommandsZero
      ["-v", "hosts", "--raw"]
      ⟨["hosts"], true, subcommandsHosts, [],
        ⟨[.one (.bool false), .one (.bool true), .one (.str ""), .one (.bool true),
          .one (.str ""), .one (.bool false)], []⟩⟩
      rfl).2.2.2.2.2.1 "--target" "target" "qa" ["active"]
      ⟨.String, ["t"], ["target"], 2, ""⟩ _ rfl rfl (by decide) rfl,
   (options_resolved_in_scope subcommandsSchema subcommandsZero
      [] (Frame.init subcommandsSchema subcommandsZero)
      rfl).2.2.2.2.2.2.1 "--raw" "raw" ["hosts"] rfl (by decide),
   (options_resolved_in_scope subcommandsSchema subcommandsZero
      ["-v", "hosts", "--raw"]
      ⟨["hosts"], true, subcommandsHosts, [],
        ⟨[.one (.bool false), .one (.bool true), .one (.str ""), .one (.bool true),
          .one (.str ""), .one (.bool false)], []⟩⟩
      rfl).2.2.2.2.2.2.2.2.1 "-t" "qa" [] 't' ["active"]
      ⟨.String, ["t"], ["target"], 2, ""⟩ _ rfl (allBool_nil _ _) rfl (by decide) rfl,
   (options_resolved_in_scope subcommandsSchema subcommandsZero
      ["-v", "hosts", "--raw"]
      ⟨["hosts"], true, subcommandsHosts, [],
        ⟨[.one (.bool false), .one (.bool true), .one (.str ""), .one (.bool true),
          .one (.str ""), .one (.bool false)], []⟩⟩
      rfl).2.2.2.2.2.2.2.2.2.1 "-tqa" [] ['q', 'a'] 't' ["active"]
      ⟨.String, ["t"], ["target"], 2, ""⟩ _ rfl (allBool_nil _ _) (by decide) rfl
      (by decide) rfl,
   (options_resolved_in_scope subcommandsSchema subcommandsZero
      ["-v", "hosts", "--raw"]
      ⟨["hosts"], true, subcommandsHosts, [],
        ⟨[.one (.bool false), .one (.bool true), .one (.str ""), .one (.bool true),
          .one (.str ""), .one (.bool false)], []⟩⟩
      rfl).2.2.2.2.2.2.2.1 "-h" [] 'h' ["active"]
      ⟨.Bool, ["h", "?"], ["help"], 0, ""⟩ rfl (allBool_nil _ _) rfl rfl,
   (options_resolved_in_scope unrecognizedArgsSchema unrecognizedArgsZero
      [] (Frame.init unrecognizedArgsSchema unrecognizedArgsZero)
      rfl).2.2.2.2.2.2.2.2.2.2.1 "-H" [] [] 'H' ["test", "sub"] rfl (allBool_nil _ _)
      (by decide)⟩

/-- C12: a bound field on which the scan makes no call keeps the value the
caller supplied, and a call is only made on a descriptor resolved by one of
its aliases, so a boolean field none of whose aliases is matched keeps its
default.  A matched long alias of a boolean field that begins with `no-`
writes false; a matched long alias that does not, and any matched short
alias, writes true.  With `Verify` tagged `-v, --verify, --no-verify` and
default true, `--no-verify` leaves false.  For short aliases the scan is
followed through the token: a token of boolean short flags only enables each
of them in turn and goes on with the next token, every field a flag of the
token is bound to holds true afterwards, also when its default was false or
true, and the last flag of such a token writes true into its field; with
`Verify` false, `-v` leaves true. -/
theorem boolean_fields (thing : GoType) (c : context) (fields : List Value)
    (hb : reflectOnIt thing = .ok c) (hv : validate c = .ok ()) :
    (∀ (args : List String) (addr : Nat),
      (∀ k ∈ calls c args (Frame.init c fields), k.opt.Value ≠ addr) →
      (ParseArgs thing args fields).mem.fields[addr]? = fields[addr]?) ∧
    (∀ (args : List String), ∀ k ∈ calls c args (Frame.init c fields),
      Resolved c k.opt) ∧
    (∀ (a rest : List String) (g : Frame) (o name : String) (opt : option),
      loop c a (Frame.init c fields) = .done g → classify o = .long name →
      c.findLong g.stack name = .ok opt → opt.Kind = Kind.Bool →
      ¬ "no-".data <+: name.data →
      loop c (a ++ o :: rest) (Frame.init c fields)
        = loop c rest ⟨g.stack, g.insub, g.level, g.remnants,
            ⟨g.mem.fields.set opt.Value (.one (.bool true)), g.mem.touched⟩⟩) ∧
    (∀ (a rest : List String) (g : Frame) (o name : String) (opt : option),
      loop c a (Frame.init c fields) = .done g → classify o = .long name →
      c.findLong g.stack name = .ok opt → opt.Kind = Kind.Bool →
      "no-".data <+: name.data →
      loop c (a ++ o :: rest) (Frame.init c fields)
        = loop c rest ⟨g.stack, g.insub, g.level, g.remnants,
            ⟨g.mem.fields.set opt.Value (.one (.bool false)), g.mem.touched⟩⟩) ∧
    (∀ (stack : List String) (ch : Char) (opt : option) (mem : Storage),
      c.findShort stack (String.mk [ch]) = .ok opt →
      opt.enable mem = ⟨mem.fields.set opt.Value (.one (.bool true)), mem.touched⟩) ∧
    ParseArgs verifyFlag ["--no-verify"] [.one (.bool true)]
      = ⟨"", [], none, ⟨[.one (.bool false)], []⟩⟩ ∧
    ParseArgs verifyFlag [] [.one (.bool true)]
      = ⟨"", [], none, ⟨[.one (.bool true)], []⟩⟩ ∧
    ParseArgs verifyFlag ["--verify"] [.one (.bool false)]
      = ⟨"", [], none, ⟨[.one (.bool true)], []⟩⟩ ∧
    (∀ (a rest : List String) (g : Frame) (o : String) (run : List Char),
      loop c a (Frame.init c fields) = .done g → classify o = .short run →
      allBool c g.stack run →
      loop c (a ++ o :: rest) (Frame.init c fields)
          = loop c rest ⟨g.stack, g.insub, g.level, g.remnants,
              enableRun c g.stack run g.mem⟩ ∧
        ParseArgs thing (a ++ o :: rest) fields
          = (loop c rest ⟨g.stack, g.insub, g.level, g.remnants,
              enableRun c g.stack run g.mem⟩).result ∧
        ∀ ch ∈ run, ∀ opt : option, c.findShort g.stack (String.mk [ch]) = .ok opt →
          opt.Value < g.mem.fields.length →
          (enableRun c g.stack run g.mem).fields[opt.Value]? = some (.one (.bool true))) ∧
    (∀ (a rest : List String) (g : Frame) (o : String) (pre : List Char) (x : Char)
      (opt : option),
      loop c a (Frame.init c fields) = .done g → classify o = .short (pre ++ [x]) →
      allBool c g.stack pre → c.findShort g.stack (String.mk [x]) = .ok opt →
      opt.Kind = Kind.Bool →
      loop c (a ++ o :: rest) (Frame.init c fields)
        = loop c rest ⟨g.stack, g.insub, g.level, g.remnants,
            ⟨(enableRun c g.stack pre g.mem).fields.set opt.Value (.one (.bool true)),
              (enableRun c g.stack pre g.mem).touched⟩⟩) ∧
    ParseArgs verifyFlag ["-v"] [.one (.bool false)]
      = ⟨"", [], none, ⟨[.one (.bool true)], []⟩⟩ ∧
    ParseArgs verifyFlag ["-v"] [.one (.bool true)]
      = ⟨"", [], none, ⟨[.one (.bool true)], []⟩⟩ := by
  refine ⟨?_, ?_, ?_, ?_, ?_, by decide, by decide, by decide, ?_, ?_,
    by decide, by decide⟩
  · intro args addr hno
    rw [ParseArgs_mem thing c args fields hb hv]
    exact replay_frame _ _ addr hno
  · intro args k hk
    exact calls_resolved c args _ k hk
  · intro a rest g o name opt ha ho hf hk hp
    rw [loop_append c a _ _ g ha, loop_long_bool c o name rest g opt ho hf hk,
      (enable_long opt name g.mem (findLong_matched c g.stack name opt hf)).2 hp]
  · intro a rest g o name opt ha ho hf hk hp
    rw [loop_append c a _ _ g ha, loop_long_bool c o name rest g opt ho hf hk,
      (enable_long opt name g.mem (findLong_matched c g.stack name opt hf)).1 hp]
  · intro stack ch opt mem hf
    exact enable_short opt ch mem (findShort_matched c stack _ opt hf)
  · intro a rest g o run ha ho hall
    have hl : loop c (a ++ o :: rest) (Frame.init c fields)
        = loop c rest ⟨g.stack, g.insub, g.level, g.remnants,
            enableRun c g.stack run g.mem⟩ := by
      rw [loop_append c a _ _ g ha]
      exact loop_run_bool c o run rest g ho hall
    refine ⟨hl, ?_, ?_⟩
    · rw [ParseArgs_loop thing c _ fields hb hv, hl]
    · intro ch hch opt hf hlt
      exact enableRun_flags c g.stack run g.mem hall ch hch opt hf hlt
  · intro a rest g o pre x opt ha ho hall hf hk
    rw [loop_append c a _ _ g ha,
      loop_run_bool c o (pre ++ [x]) rest g ho (allBool_snoc c g.stack pre x opt hall hf hk),
      enableRun_snoc c g.stack pre x opt g.mem hall hf,
      enable_short opt x _ (findShort_matched c g.stack _ opt hf)]

/-- C12, at `Verify bool` tagged `-v, --verify, --no-verify`: `--no-verify`
is resolved to the descriptor of `Verify` and writes false over the default
true, and `-v` is resolved to it and writes true over the default false;
of `-v --no-verify` and `--no-verify -v` the later token decides. -/
theorem boolean_fields_witness :
    reflectOnIt verifyFlag = .ok verifyFlagSchema ∧
    loop verifyFlagSchema ([] ++ "--no-verify" :: [])
        (Frame.init verifyFlagSchema [.one (.bool true)])
      = .done ⟨[], true, verifyFlagSchema, [], ⟨[.one (.bool false)], []⟩⟩ ∧
    loop verifyFlagSchema ([] ++ "-v" :: [])
        (Frame.init verifyFlagSchema [.one (.bool false)])
      = .done ⟨[], true, verifyFlagSchema, [], ⟨[.one (.bool true)], []⟩⟩ ∧
    ParseArgs verifyFlag ([] ++ "-v" :: []) [.one (.bool false)]
      = ⟨"", [], none, ⟨[.one (.bool true)], []⟩⟩ ∧
    loop verifyFlagSchema (["-v"] ++ "--no-verify" :: [])
        (Frame.init verifyFlagSchema [.one (.bool false)])
      = .done ⟨[], true, verifyFlagSchema, [], ⟨[.one (.bool false)], []⟩⟩ ∧
    loop verifyFlagSchema (["--no-verify"] ++ "-v" :: [])
        (Frame.init verifyFlagSchema [.one (.bool true)])
      = .done ⟨[], true, verifyFlagSchema, [], ⟨[.one (.bool true)], []⟩⟩ :=
  ⟨rfl,
   (boolean_fields verifyFlag verifyFlagSchema [.one (.bool true)] rfl rfl).2.2.2.1
     [] [] (Frame.init verifyFlagSchema [.one (.bool true)]) "--no-verify" "no-verify"
     ⟨.Bool, ["v"], ["verify", "no-verify"], 0, "no-verify"⟩ rfl rfl rfl rfl (by decide),
   (boolean_fields verifyFlag verifyFlagSchema [.one (.bool false)] rfl
       rfl).2.2.2.2.2.2.2.2.2.1
     [] [] (Frame.init verifyFlagSchema [.one (.bool false)]) "-v" [] 'v'
     ⟨.Bool, ["v"], ["verify", "no-verify"], 0, "v"⟩ rfl rfl (allBool_nil _ _) rfl rfl,
   ((boolean_fields verifyFlag verifyFlagSchema [.one (.bool false)] rfl
       rfl).2.2.2.2.2.2.2.2.1
     [] [] (Frame.init verifyFlagSchema [.one (.bool false)]) "-v" ['v'] rfl rfl
     (fun ch hch => ⟨⟨.Bool, ["v"], ["verify", "no-verify"], 0, "v"⟩,
       by rw [List.mem_singleton.1 hch]; rfl, rfl⟩)).2.1,
   (boolean_fields verifyFlag verifyFlagSchema [.one (.bool false)] rfl rfl).2.2.2.1
     ["-v"] [] ⟨[], true, verifyFlagSchema, [], ⟨[.one (.bool true)], []⟩⟩
     "--no-verify" "no-verify"
     ⟨.Bool, ["v"], ["verify", "no-verify"], 0, "no-verify"⟩ rfl rfl rfl rfl (by decide),
   (boolean_fields verifyFlag verifyFlagSchema [.one (.bool true)] rfl
       rfl).2.2.2.2.2.2.2.2.2.1
     ["--no-verify"] [] ⟨[], true, verifyFlagSchema, [], ⟨[.one (.bool false)], []⟩⟩
     "-v" [] 'v'
     ⟨.Bool, ["v"], ["verify", "no-verify"], 0, "v"⟩ rfl rfl (allBool_nil _ _) rfl rfl⟩

/-- C14: for an integer field of bit width `w` (at the widths of Go, `w - 1`
is `w` minus one) and every decimal numeral `s` of an integer `n`: coercion
of `s` succeeds with exactly `n` when `n` lies in `[-2^(w-1), 2^(w-1)-1]`
(signed) or `[0, 2^w-1]` (unsigned), and fails when `n` is outside that range
or `s` is no numeral.  `set` stores the coerced value in the field, or fails
and leaves the storage as it was; so `ParseArgs`, for a long option of integer
kind followed by `v`, goes on with `n` stored, or returns the error with the
field as it was before.  The same holds for a short option of integer kind
behind boolean flags `pre`, whether its value is the next token (`-i BAD`)
or the rest of its own token (`-iBAD`): `ParseArgs` goes on with the coerced
value stored, or returns the error of the coercion with the storage as the
flags of `pre` left it, in which a field that no flag of `pre` is bound to
holds the value it had before.  At the integer fields of "With non-numeric
arguments", `--int BAD`, `-i BAD` and `-iBAD` return the error with `Int`
still 0; `-i -42 --uint8 255 -u7` stores the three values, and with `256`
for `--uint8` the error is returned with `Uint8` still 0. -/
theorem integer_coercion (w : Nat) :
    (∀ (s : String) (n : Int), SignedNumeral s n →
      (-(2 : Int) ^ (w - 1) ≤ n ∧ n ≤ (2 : Int) ^ (w - 1) - 1 →
        coerce (.Int w) s = .ok (.int n)) ∧
      (¬ (-(2 : Int) ^ (w - 1) ≤ n ∧ n ≤ (2 : Int) ^ (w - 1) - 1) →
        ∃ e, coerce (.Int w) s = .error e)) ∧
    (∀ s : String, (¬ ∃ n, SignedNumeral s n) → ∃ e, coerce (.Int w) s = .error e) ∧
    (∀ (s : String) (n : Nat), UnsignedNumeral s n →
      (n ≤ 2 ^ w - 1 → coerce (.Uint w) s = .ok (.uint n)) ∧
      (¬ n ≤ 2 ^ w - 1 → ∃ e, coerce (.Uint w) s = .error e)) ∧
    (∀ s : String, (¬ ∃ n, UnsignedNumeral s n) → ∃ e, coerce (.Uint w) s = .error e) ∧
    (∀ (opt : option) (v : String) (mem : Storage),
      opt.Kind = .Int w ∨ opt.Kind = .Uint w →
      opt.set v mem =
        match coerce opt.Kind v with
        | .ok x => .ok ⟨mem.fields.set opt.Value (.one x), mem.touched⟩
        | .error e => .error e) ∧
    (∀ (thing : GoType) (c : context) (fields : List Value) (a rest : List String)
      (o name v : String) (opt : option) (g : Frame),
      reflectOnIt thing = .ok c → validate c = .ok () →
      loop c a (Frame.init c fields) = .done g → classify o = .long name →
      c.findLong g.stack name = .ok opt → opt.Kind = .Int w ∨ opt.Kind = .Uint w →
      ParseArgs thing (a ++ o :: v :: rest) fields =
        match coerce opt.Kind v with
        | .ok x =>
          (loop c rest ⟨g.stack, g.insub, g.level, g.remnants,
            ⟨g.mem.fields.set opt.Value (.one x), g.mem.touched⟩⟩).result
        | .error e => ⟨"", g.remnants, some e, g.mem⟩) ∧
    (∀ (thing : GoType) (c : context) (fields : List Value) (a rest : List String)
      (o v : String) (pre : List Char) (x : Char) (opt : option) (g : Frame),
      reflectOnIt thing = .ok c → validate c = .ok () →
      loop c a (Frame.init c fields) = .done g → classify o = .short (pre ++ [x]) →
      allBool c g.stack pre → c.findShort g.stack (String.mk [x]) = .ok opt →
      opt.Kind = .Int w ∨ opt.Kind = .Uint w →
      ParseArgs thing (a ++ o :: v :: rest) fields =
        match coerce opt.Kind v with
        | .ok y =>
          (loop c rest ⟨g.stack, g.insub, g.level, g.remnants,
            ⟨(enableRun c g.stack pre g.mem).fields.set opt.Value (.one y),
              (enableRun c g.stack pre g.mem).touched⟩⟩).result
        | .error e => ⟨"", g.remnants, some e, enableRun c g.stack pre g.mem⟩) ∧
    (∀ (thing : GoType) (c : context) (fields : List Value) (a rest : List String)
      (o : String) (pre post : List Char) (x : Char) (opt : option) (g : Frame),
      reflectOnIt thing = .ok c → validate c = .ok () →
      loop c a (Frame.init c fields) = .done g →
      classify o = .short (pre ++ x :: post) → post ≠ [] →
      allBool c g.stack pre → c.findShort g.stack (String.mk [x]) = .ok opt →
      opt.Kind = .Int w ∨ opt.Kind = .Uint w →
      ParseArgs thing (a ++ o :: rest) fields =
        match coerce opt.Kind (String.mk post) with
        | .ok y =>
          (loop c rest ⟨g.stack, g.insub, g.level, g.remnants,
            ⟨(enableRun c g.stack pre g.mem).fields.set opt.Value (.one y),
              (enableRun c g.stack pre g.mem).touched⟩⟩).result
        | .error e => ⟨"", g.remnants, some e, enableRun c g.stack pre g.mem⟩) ∧
    (∀ (c : context) (stack : List String) (pre : List Char) (mem : Storage)
      (opt : option),
      (∀ ch ∈ pre, ∀ o1 : option, c.findShort stack (String.mk [ch]) = .ok o1 →
        o1.Value ≠ opt.Value) →
      (enableRun c stack pre mem).fields[opt.Value]? = mem.fields[opt.Value]?) ∧
    ParseArgs numericArgs ["--int", "BAD"] numericArgsZero
      = ⟨"", [], some "invalid value `BAD` for a signed integer", ⟨numericArgsZero, []⟩⟩ ∧
    ParseArgs numericArgs ["-i", "BAD"] numericArgsZero
      = ⟨"", [], some "invalid value `BAD` for a signed integer", ⟨numericArgsZero, []⟩⟩ ∧
    ParseArgs numericArgs ["-iBAD"] numericArgsZero
      = ⟨"", [], some "invalid value `BAD` for a signed integer", ⟨numericArgsZero, []⟩⟩ ∧
    ParseArgs numericArgs ["-i", "-42", "--uint8", "255", "-u7"] numericArgsZero
      = ⟨"", [], none,
          ⟨[.one (.int (-42)), .one (.int 0), .one (.uint 7), .one (.uint 255)], []⟩⟩ ∧
    ParseArgs numericArgs ["-i", "-42", "--uint8", "256"] numericArgsZero
      = ⟨"", [], some "invalid value `256` for an unsigned integer",
          ⟨[.one (.int (-42)), .one (.int 0), .one (.uint 0), .one (.uint 0)], []⟩⟩ := by
  refine ⟨?_, ?_, ?_, ?_, set_integer w, ?_, ?_, ?_, ?_, by decide, by decide, by decide,
    by decide, by decide⟩
  · intro s n hnum
    refine ⟨?_, ?_⟩
    · intro hr
      have := (ParseInt_iff s w n).2 ⟨hnum, hr.1, hr.2⟩
      simp only [coerce, this]
    · intro hr
      cases hp : ParseInt s w with
      | none => exact ⟨_, coerce_int_none s w hp⟩
      | some k =>
        exfalso
        obtain ⟨hk, hlo, hhi⟩ := (ParseInt_iff s w k).1 hp
        have hkn : k = n := SignedNumeral_unique s n k hnum hk
        rw [hkn] at hlo hhi
        exact hr ⟨hlo, hhi⟩
  · intro s hno
    cases hp : ParseInt s w with
    | none => exact ⟨_, coerce_int_none s w hp⟩
    | some k => exact (hno ⟨k, ((ParseInt_iff s w k).1 hp).1⟩).elim
  · intro s n hnum
    refine ⟨?_, ?_⟩
    · intro hr
      have := (ParseUint_iff s w n).2 ⟨hnum, hr⟩
      simp only [coerce, this]
    · intro hr
      cases hp : ParseUint s w with
      | none => exact ⟨_, coerce_uint_none s w hp⟩
      | some k =>
        exfalso
        obtain ⟨hk, hle⟩ := (ParseUint_iff s w k).1 hp
        have hkn : k = n := by rw [hk.2, hnum.2]
        exact hr (hkn ▸ hle)
  · intro s hno
    cases hp : ParseUint s w with
    | none => exact ⟨_, coerce_uint_none s w hp⟩
    | some k => exact (hno ⟨k, ((ParseUint_iff s w k).1 hp).1⟩).elim
  · intro thing c fields a rest o name v opt g hb hv ha ho hf hk
    rw [ParseArgs_loop thing c _ fields hb hv, loop_append c a _ _ g ha,
      loop_takes_next c o v rest g opt g.mem
        (Or.inl ⟨name, ho, hf, integer_not_bool w opt hk, rfl⟩),
      set_integer w opt v g.mem hk]
    cases coerce opt.Kind v <;> rfl
  · intro thing c fields a rest o v pre x opt g hb hv ha ho hall hf hk
    rw [ParseArgs_loop thing c _ fields hb hv, loop_append c a _ _ g ha,
      loop_takes_next c o v rest g opt (enableRun c g.stack pre g.mem)
        (Or.inr ⟨pre ++ [x], pre, x, ho, rfl, hall, hf, integer_not_bool w opt hk, rfl⟩),
      set_integer w opt v _ hk]
    cases coerce opt.Kind v <;> rfl
  · intro thing c fields a rest o pre post x opt g hb hv ha ho hpost hall hf hk
    rw [ParseArgs_loop thing c _ fields hb hv, loop_append c a _ _ g ha,
      loop_run_rest c o pre post x rest g opt ho hall hf (integer_not_bool w opt hk) hpost,
      set_integer w opt _ _ hk]
    cases coerce opt.Kind (String.mk post) <;> rfl
  · intro c stack pre mem opt h
    exact enableRun_other c stack pre mem opt.Value h

/-- C14, at width 8: `127` is stored in a signed field and `128` is refused;
`255` is stored in an unsigned field.  At the integer fields of "With
non-numeric arguments": `--int8 127` stores 127 and `--int8 128` returns an
error with `Int8` still 0; at width 64, `--int BAD`, `-i BAD` and `-iBAD`
return an error with `Int` still 0, and `-i -42` stores -42; after `-u 7`,
`-i BAD` returns the error with `Int` still 0 and `Uint` 7, and `-i128`
stores 128. -/
theorem integer_coercion_witness :
    coerce (.Int 8) "127" = .ok (.int 127) ∧
    (∃ e, coerce (.Int 8) "128" = .error e) ∧
    coerce (.Int 8) "-128" = .ok (.int (-128)) ∧
    coerce (.Uint 8) "255" = .ok (.uint 255) ∧
    ParseArgs numericArgs ([] ++ "--int8" :: "127" :: []) numericArgsZero
      = ⟨"", [], none,
          ⟨[.one (.int 0), .one (.int 127), .one (.uint 0), .one (.uint 0)], []⟩⟩ ∧
    ParseArgs numericArgs ([] ++ "--int8" :: "128" :: []) numericArgsZero
      = ⟨"", [], some "invalid value `128` for a signed integer",
          ⟨numericArgsZero, []⟩⟩ ∧
    ParseArgs numericArgs ([] ++ "--int" :: "BAD" :: []) numericArgsZero
      = ⟨"", [], some "invalid value `BAD` for a signed integer",
          ⟨numericArgsZero, []⟩⟩ ∧
    ParseArgs numericArgs ([] ++ "-i" :: "BAD" :: []) numericArgsZero
      = ⟨"", [], some "invalid value `BAD` for a signed integer",
          ⟨numericArgsZero, []⟩⟩ ∧
    ParseArgs numericArgs ([] ++ "-iBAD" :: []) numericArgsZero
      = ⟨"", [], some "invalid value `BAD` for a signed integer",
          ⟨numericArgsZero, []⟩⟩ ∧
    ParseArgs numericArgs ([] ++ "-i" :: "-42" :: []) numericArgsZero
      = ⟨"", [], none,
          ⟨[.one (.int (-42)), .one (.int 0), .one (.uint 0), .one (.uint 0)], []⟩⟩ ∧
    ParseArgs numericArgs (["-u", "7"] ++ "-i" :: "BAD" :: []) numericArgsZero
      = ⟨"", [], some "invalid value `BAD` for a signed integer",
          ⟨[.one (.int 0), .one (.int 0), .one (.uint 7), .one (.uint 0)], []⟩⟩ ∧
    ParseArgs numericArgs (["-u", "7"] ++ "-i128" :: []) numericArgsZero
      = ⟨"", [], none,
          ⟨[.one (.int 128), .one (.int 0), .one (.uint 7), .one (.uint 0)], []⟩⟩ :=
  ⟨((integer_coercion 8).1 "127" 127
      ⟨['1', '2', '7'], ⟨by decide, by decide⟩, Or.inl ⟨rfl, by decide⟩⟩).1 (by decide),
   ((integer_coercion 8).1 "128" 128
      ⟨['1', '2', '8'], ⟨by decide, by decide⟩, Or.inl ⟨rfl, by decide⟩⟩).2 (by decide),
   ((integer_coercion 8).1 "-128" (-128)
      ⟨['1', '2', '8'], ⟨by decide, by decide⟩, Or.inr (Or.inr ⟨rfl, by decide⟩)⟩).1
      (by decide),
   ((integer_coercion 8).2.2.1 "255" 255 ⟨⟨by decide, by decide⟩, by decide⟩).1 (by decide),
   (integer_coercion 8).2.2.2.2.2.1 numericArgs numericArgsSchema numericArgsZero [] []
     "--int8" "int8" "127" ⟨.Int 8, [], ["int8"], 1, "int8"⟩
     (Frame.init numericArgsSchema numericArgsZero) rfl rfl rfl rfl rfl (Or.inl rfl),
   (integer_coercion 8).2.2.2.2.2.1 numericArgs numericArgsSchema numericArgsZero [] []
     "--int8" "int8" "128" ⟨.Int 8, [], ["int8"], 1, "int8"⟩
     (Frame.init numericArgsSchema numericArgsZero) rfl rfl rfl rfl rfl (Or.inl rfl),
   (integer_coercion 64).2.2.2.2.2.1 numericArgs numericArgsSchema numericArgsZero [] []
     "--int" "int" "BAD" ⟨.Int 64, ["i"], ["int"], 0, "int"⟩
     (Frame.init numericArgsSchema numericArgsZero) rfl rfl rfl rfl rfl (Or.inl rfl),
   (integer_coercion 64).2.2.2.2.2.2.1 numericArgs numericArgsSchema numericArgsZero [] []
     "-i" "BAD" [] 'i' ⟨.Int 64, ["i"], ["int"], 0, "i"⟩
     (Frame.init numericArgsSchema numericArgsZero) rfl rfl rfl rfl (allBool_nil _ _) rfl
     (Or.inl rfl),
   (integer_coercion 64).2.2.2.2.2.2.2.1 numericArgs numericArgsSchema numericArgsZero [] []
     "-iBAD" [] ['B', 'A', 'D'] 'i' ⟨.Int 64, ["i"], ["int"], 0, "i"⟩
     (Frame.init numericArgsSchema numericArgsZero) rfl rfl rfl rfl (by decide)
     (allBool_nil _ _) rfl (Or.inl rfl),
   (integer_coercion 64).2.2.2.2.2.2.1 numericArgs numericArgsSchema numericArgsZero [] []
     "-i" "-42" [] 'i' ⟨.Int 64, ["i"], ["int"], 0, "i"⟩
     (Frame.init numericArgsSchema numericArgsZero) rfl rfl rfl rfl (allBool_nil _ _) rfl
     (Or.inl rfl),
   (integer_coercion 64).2.2.2.2.2.2.1 numericArgs numericArgsSchema numericArgsZero
     ["-u", "7"] [] "-i" "BAD" [] 'i' ⟨.Int 64, ["i"], ["int"], 0, "i"⟩
     ⟨[], true, numericArgsSchema, [],
       ⟨[.one (.int 0), .one (.int 0), .one (.uint 7), .one (.uint 0)], []⟩⟩
     rfl rfl rfl rfl (allBool_nil _ _) rfl (Or.inl rfl),
   (integer_coercion 64).2.2.2.2.2.2.2.1 numericArgs numericArgsSchema numericArgsZero
     ["-u", "7"] [] "-i128" [] ['1', '2', '8'] 'i' ⟨.Int 64, ["i"], ["int"], 0, "i"⟩
     ⟨[], true, numericArgsSchema, [],
       ⟨[.one (.int 0), .one (.int 0), .one (.uint 7), .one (.uint 0)], []⟩⟩
     rfl rfl rfl rfl (by decide) (allBool_nil _ _) rfl (Or.inl rfl)⟩

end cli
